import Mathlib

/-! go-lib-utils: the SCIM filter to SQL compiler (`queryToQuery.go`) and the
mapping builder (`mappingBuilder.go`)

A shallow embedding of `ParseScimParams` and the visitor functions behind it,
and of `BuildBody` and its strategies, followed by theorems about the predicate
text, the bound parameters and the body that is built.

Modelling conventions

* A Go `panic` (failed type assertion, nil dereference, index out of range) is
  the `.error` side of `Except Panic`; a Go `error` value is data
  (`Option String`, `none` for `nil`).
* The receiver `sq *SqlQuery` is passed and returned explicitly.
* `range` over a Go map enumerates the entries in an order the language leaves
  unspecified, chosen anew for every loop.  `SqlQuery.fieldMappings n` is the
  enumeration that the `n`-th loop still to run will see; each loop reads
  enumeration `0` and drops it.
* `*string` is an address together with the string stored there; `==` on
  pointers compares addresses.
* A `float64` compare value is carried as the text Go prints for it; the code
  never computes with compare values.
* `log.Print` has no effect on the result and is left out.
* The filter library `github.com/scim2/filter-parser/v2` is a dependency, not
  part of the repository: its data types are transcribed from their use in the
  code and the tests, and its method `(*filter.ValuePath).String` is the
  parameter `parentOf` of the functions that call it.
-/

namespace GoLibUtils

/-! ## Data model -/

/-- Message of a Go runtime panic. -/
abbrev Panic := String

/-- A non-nil `*string`. -/
structure StringPtr where
  addr : Nat
  val : String
deriving Repr, DecidableEq

/-- Go `==` on two `*string` values: both nil, or the same address. -/
def ptrEq : Option StringPtr → Option StringPtr → Bool
  | none, none => true
  | some p, some q => p.addr == q.addr
  | _, _ => false

/-- The dynamic values an `interface{}` compare value can hold. -/
inductive GoValue where
  | nil
  | bool (b : Bool)
  | int (i : Int)
  | int64 (i : Int)
  | float64 (text : String)
  | string (s : String)
deriving Repr, DecidableEq

/-- Struct `filter.AttributePath`. -/
structure AttributePath where
  URIPrefix : Option StringPtr := none
  AttributeName : String
  SubAttribute : Option StringPtr := none
deriving Repr, DecidableEq

/-- Struct `filter.AttributeExpression`; `Operator` is a `CompareOperator`, a
string type. -/
structure AttributeExpression where
  AttributePath : AttributePath
  Operator : String
  CompareValue : GoValue
deriving Repr, DecidableEq

/-- The dynamic types behind the interface `filter.Expression`. `Operator` of a
logical expression is a `LogicalOperator`, a string type. -/
inductive Expression where
  | LogicalExpression (Left : Expression) (Operator : String) (Right : Expression)
  | AttributeExpression (e : AttributeExpression)
  | ValuePath (AttributePath : AttributePath) (ValueFilter : Expression)
  | NotExpression (Expression : Expression)
deriving Repr, DecidableEq

/-- Struct `MappingValues`. -/
structure MappingValues where
  MappingValue : String
  DataType : String
  IsSortable : Bool
deriving Repr, DecidableEq

/-- One entry of `map[filter.AttributePath]MappingValues`. -/
abbrev MappingEntry := AttributePath × MappingValues

/-- Struct `SqlQuery`. `Filter` is `none` for a nil `*strings.Builder`,
`Parameters` lists the key/value pairs of the Go map (keys are distinct). -/
structure SqlQuery where
  fieldMappings : Nat → List MappingEntry
  Filter : Option String
  Parameters : List (Int × GoValue)
  Error : Option String
  requestId : String
  Limit : String
  OrderBy : String

/-- Struct `scim.ListRequestParams`; `Filter` is `none` for a nil interface. -/
structure ListRequestParams where
  Count : Int
  Filter : Option Expression
  StartIndex : Int

/-! ## Library functions used by the code -/

/-- Function `strings.ToUpper` on ASCII text: the letters `a`..`z` are mapped,
every other character is left as it is. Go maps the letters outside ASCII as
well; the operators and tokens of a parsed filter hold none. -/
def ToUpper (s : String) : String := String.mk (s.data.map Char.toUpper)

/-- Function `strings.ToLower` on ASCII text: the letters `A`..`Z` are mapped,
every other character is left as it is. Go maps the letters outside ASCII as
well; the operators of a parsed filter hold none. -/
def ToLower (s : String) : String := String.mk (s.data.map Char.toLower)

/-- A Go `int` holds 64 bits: arithmetic wraps around. -/
def wrapInt (x : Int) : Int := (x + 2 ^ 63) % 2 ^ 64 - 2 ^ 63

/-- Function `strconv.Itoa`. -/
def Itoa (i : Int) : String := toString i

/-- Method `(*strings.Builder).WriteString` on `sq.Filter`. -/
def WriteString (sq : SqlQuery) (s : String) : Except Panic SqlQuery :=
  match sq.Filter with
  | none => .error "invalid memory address or nil pointer dereference"
  | some f => .ok { sq with Filter := some (f ++ s) }

/-- Assignment `m[k] = v` on the map `Parameters`. -/
def mapAssign : List (Int × GoValue) → Int → GoValue → List (Int × GoValue)
  | [], k, v => [(k, v)]
  | (k0, v0) :: rest, k, v =>
    if k0 = k then (k, v) :: rest else (k0, v0) :: mapAssign rest k v

/-! ## Tables -/

/-- Map `scimOpMap`; a missing key reads as the empty string. -/
def scimOpMap (op : String) : String :=
  if op = "eq" then "="
  else if op = "ne" then "!="
  else if op = "co" then "LIKE"
  else if op = "sw" then "LIKE"
  else if op = "ew" then "LIKE"
  else if op = "pr" then "IS NOT NULL"
  else if op = "gt" then ">"
  else if op = "ge" then ">="
  else if op = "lt" then "<"
  else if op = "le" then "<="
  else ""

/-- Map `matchingOpByScimOp`, read with the comma-ok form. -/
def matchingOpByScimOp (op : String) : Option (String × String) :=
  if op = "co" then some ("%", "%")
  else if op = "sw" then some ("", "%")
  else if op = "ew" then some ("%", "")
  else none

/-! ## The compiler -/

/-- The condition of the `if` inside the lookup loop of
`buildAttributeExpression`, for the entry key `k`. `*k.SubAttribute` is
evaluated only when `parent == k.AttributeName`. -/
def entryMatches (parent : String) (path : AttributePath) (k : AttributePath) :
    Except Panic Bool :=
  let exact := k.AttributeName == path.AttributeName && ptrEq k.SubAttribute path.SubAttribute
  if parent = k.AttributeName then
    match k.SubAttribute with
    | none => .error "invalid memory address or nil pointer dereference"
    | some p => .ok (p.val == path.AttributeName || exact)
  else .ok exact

/-- The lookup loop of `buildAttributeExpression` over one enumeration of the
table: `(sqlField, sqlFieldType)` of the first matching entry, two empty
strings when the loop ends without a match. -/
def findSqlField (parent : String) (path : AttributePath) :
    List MappingEntry → Except Panic (String × String)
  | [] => .ok ("", "")
  | (k, v) :: rest =>
    match entryMatches parent path k with
    | .error p => .error p
    | .ok true => .ok (v.MappingValue, v.DataType)
    | .ok false => findSqlField parent path rest

/-- The value bound for a leaf that is not `pr`: the type switch on
`sqlFieldType` when the operator has no wildcard wrapper, the wrapped string
otherwise. Every type assertion is the one-result form, which panics. -/
def sqlValueOf (sqlFieldType : String) (valueWrapper : Option (String × String))
    (CompareValue : GoValue) : Except Panic GoValue :=
  match valueWrapper with
  | none =>
    if sqlFieldType = "int" then
      match CompareValue with
      | .int i => .ok (.int i)
      | _ => .error "interface conversion: value is not int"
    else if sqlFieldType = "int64" then
      match CompareValue with
      | .int64 i => .ok (.int64 i)
      | _ => .error "interface conversion: value is not int64"
    else if sqlFieldType = "bool" then
      match CompareValue with
      | .bool b => .ok (.bool b)
      | _ => .error "interface conversion: value is not bool"
    else .ok CompareValue
  | some w =>
    match CompareValue with
    | .string s => .ok (.string (w.1 ++ s ++ w.2))
    | _ => .error "interface conversion: value is not string"

/-- Method `buildAttributeExpression`. -/
def buildAttributeExpression (parent : String) (pFilter : AttributeExpression)
    (token : String) (sq : SqlQuery) : Except Panic SqlQuery :=
  match findSqlField parent pFilter.AttributePath (sq.fieldMappings 0) with
  | .error p => .error p
  | .ok (sqlField, sqlFieldType) =>
    let sq := { sq with fieldMappings := fun n => sq.fieldMappings (n + 1) }
    if sqlField = "" then
      .ok { sq with Error := some "invalid/unmapped field supplied" }
    else
      let sqlOperator := scimOpMap (ToLower pFilter.Operator)
      let valueWrapper := matchingOpByScimOp (ToLower pFilter.Operator)
      if pFilter.Operator ≠ "pr" then
        match sqlValueOf sqlFieldType valueWrapper pFilter.CompareValue with
        | .error p => .error p
        | .ok sqlValue =>
          match WriteString sq
              (" (" ++ sqlField ++ " " ++ sqlOperator ++ " ?) " ++ ToUpper token) with
          | .error p => .error p
          | .ok sq =>
            .ok { sq with
              Parameters := mapAssign sq.Parameters sq.Parameters.length sqlValue }
      else
        WriteString sq (" (" ++ sqlField ++ " " ++ sqlOperator ++ ") " ++ ToUpper token)

/-- Method `buildLogicalExpression`. The Go parameter has type
`*filter.LogicalExpression`, so only the first equation is ever used. -/
def buildLogicalExpression (parent : String) :
    Expression → SqlQuery → Except Panic SqlQuery
  | .LogicalExpression Left Operator Right, sq =>
    match WriteString sq " ( " with
    | .error p => .error p
    | .ok sq =>
      let afterLeft : Except Panic SqlQuery :=
        match Left with
        | .LogicalExpression _ _ _ =>
          match buildLogicalExpression parent Left sq with
          | .error p => .error p
          | .ok sq => WriteString sq (" " ++ Operator ++ " ")
        | .AttributeExpression e => buildAttributeExpression parent e Operator sq
        | _ => .ok sq
      match afterLeft with
      | .error p => .error p
      | .ok sq =>
        if sq.Error.isSome then .ok sq
        else
          let afterRight : Except Panic SqlQuery :=
            match Right with
            | .LogicalExpression _ _ _ => buildLogicalExpression parent Right sq
            | .AttributeExpression e => buildAttributeExpression parent e " " sq
            | _ => .ok sq
          match afterRight with
          | .error p => .error p
          | .ok sq => WriteString sq " ) "
  | _, sq => .ok sq

/-- Method `buildValuePathExpression`. `parentOf` stands for the method
`(*filter.ValuePath).String` of the filter library. -/
def buildValuePathExpression (parentOf : AttributePath → Expression → String)
    (path : AttributePath) (ValueFilter : Expression) (sq : SqlQuery) :
    Except Panic SqlQuery :=
  match ValueFilter with
  | .LogicalExpression _ _ _ =>
    buildLogicalExpression (parentOf path ValueFilter) ValueFilter sq
  | .AttributeExpression e =>
    buildAttributeExpression (parentOf path ValueFilter) e " " sq
  | _ => .ok sq

/-- Method `visitList`: the pair `(*SqlQuery, error)` it returns. -/
def visitList (parentOf : AttributePath → Expression → String)
    (pFilter : Expression) (sq : SqlQuery) :
    Except Panic (Option SqlQuery × Option String) :=
  let visited : Except Panic SqlQuery :=
    match pFilter with
    | .LogicalExpression _ _ _ => buildLogicalExpression "" pFilter sq
    | .AttributeExpression e => buildAttributeExpression "" e " " sq
    | .ValuePath path ValueFilter => buildValuePathExpression parentOf path ValueFilter sq
    | .NotExpression _ =>
      .ok { sq with Error := some "I don't know about type *filter.NotExpression!" }
  match visited with
  | .error p => .error p
  | .ok sq =>
    match sq.Error with
    | some err => .ok (none, some err)
    | none => .ok (some sq, none)

/-- Function `ParseScimParams`: the pair `(*SqlQuery, error)` it returns. -/
def ParseScimParams (parentOf : AttributePath → Expression → String)
    (params : ListRequestParams) (fieldMappings : Nat → List MappingEntry)
    (orderField orderDirection : String) :
    Except Panic (Option SqlQuery × Option String) :=
  let offset : Int :=
    if params.StartIndex > 0 then wrapInt (params.StartIndex * params.Count) else 0
  let sqlQuery : SqlQuery :=
    { fieldMappings := fieldMappings
      Filter := none
      Parameters := []
      Error := none
      requestId := ""
      Limit := "limit " ++ Itoa offset ++ ", " ++ Itoa params.Count
      OrderBy := "order by " ++ orderField ++ " " ++ orderDirection }
  match params.Filter with
  | none => .ok (some sqlQuery, none)
  | some pFilter =>
    match visitList parentOf pFilter { sqlQuery with Filter := some "" } with
    | .error p => .error p
    | .ok (some resp, none) => .ok (some { resp with fieldMappings := fun _ => [] }, none)
    | .ok r => .ok r

/-- Method `GetParameterList`: a slice of `len(sq.Parameters)` nils, then
`params[k] = v` for every pair of the map. -/
def GetParameterList (sq : SqlQuery) : Except Panic (List GoValue) :=
  sq.Parameters.foldlM
    (fun (params : List GoValue) (kv : Int × GoValue) =>
      if 0 ≤ kv.1 ∧ kv.1 < (params.length : Int) then .ok (params.set kv.1.toNat kv.2)
      else .error "index out of range")
    (List.replicate sq.Parameters.length GoValue.nil)

/-! ## The mapping builder (`mappingBuilder.go`)

The helpers `JsonQuery`, `TrimLeftChars`, `StringPtr` and
`GetISO3361CodeCountry` belong to the package but their files are not among
the sources; they are modelled from the specification or taken as
parameters. A Go result pair `(v, nil)` / `(zero, err)` is a `Result`. -/

/-- A Go result pair: `(a, nil)` or `(zero value, err)`. -/
inductive Result (α : Type) where
  | value (a : α)
  | failure (err : String)
deriving Repr, DecidableEq

/-- The steps of `strings.Split` for a non-empty separator, character by
character: `skip` characters of a separator just found are still to be passed,
`cur` holds the piece being read, reversed. -/
def splitAux (sep : List Char) : List Char → Nat → List Char → List (List Char)
  | [], _, cur => [cur.reverse]
  | _ :: cs, skip + 1, cur => splitAux sep cs skip cur
  | c :: cs, 0, cur =>
    if sep.isPrefixOf (c :: cs) then cur.reverse :: splitAux sep cs (sep.length - 1) []
    else splitAux sep cs 0 (c :: cur)

/-- Function `strings.Split`. -/
def Split (s sep : String) : List String :=
  if sep.data = [] then s.data.map (fun c => String.mk [c])
  else (splitAux sep.data s.data 0 []).map String.mk

/-- Function `strings.HasPrefix`. -/
def HasPrefix (s pre : String) : Bool := pre.data.isPrefixOf s.data

/-- Function `strings.TrimPrefix`. -/
def TrimPrefix (s pre : String) : String :=
  if HasPrefix s pre then String.mk (s.data.drop pre.data.length) else s

/-- Modelled from the spec: `TrimLeftChars(s, n)` is a helper of the package
whose file is not among the sources; it is used to take the leading quote off a
literal segment and drops the first `n` characters. -/
def TrimLeftChars (s : String) (n : Nat) : String := String.mk (s.data.drop n)

/-- The pair `(interface{}, error)` that `JsonQuery.Interface` returns for a
path; a value found is carried as the text `fmt.Sprintf("%v", i)` prints for
it. -/
inductive DocLookup where
  | found (text : String)
  | missing (err : String)
deriving Repr, DecidableEq

/-- Modelled from the spec: `JsonQuery` is a type of the package whose file is
not among the sources. Only its method `Interface(keys...)` is used: it follows
the path `keys` into the document and fails when the path does not exist. -/
structure JsonQuery where
  Interface : List String → DocLookup

/-- The dynamic values `BuildBody` stores in the body: a `string`, a
`[]string`, the `map[string]string` of the template variables, an `int`. -/
inductive BodyValue where
  | string (s : String)
  | strings (arr : List String)
  | templateVars (m : List (String × String))
  | int (i : Int)
deriving Repr, DecidableEq

/-- The implementations of the interface `MappingStrategy`. -/
inductive MappingStrategy where
  | arrStrategy
  | templateVarStrategy
  | constStrategy
  | iso3166Strategy
  | onlynumbersStrategy
  | idMerchantTypeStrategy
  | defaultStrategy
deriving Repr, DecidableEq

/-- Struct `MappingBuilder`. `mappings` lists the entries of the Go map in the
order `BuildBody` enumerates them, `body` the pairs of the body map. -/
structure MappingBuilder where
  docJQ : JsonQuery
  mappingStrategy : Option MappingStrategy
  mappings : List (String × String)
  body : List (String × BodyValue)

/-- Read `m[k]` with the comma-ok form. -/
def lookupKey {α : Type} : List (String × α) → String → Option α
  | [], _ => none
  | (k0, v0) :: rest, k => if k0 = k then some v0 else lookupKey rest k

/-- Assignment `m[k] = v` on a map with string keys. -/
def assignKey {α : Type} : List (String × α) → String → α → List (String × α)
  | [], k, v => [(k, v)]
  | (k0, v0) :: rest, k, v =>
    if k0 = k then (k, v) :: rest else (k0, v0) :: assignKey rest k v

/-- Function `NewMappingBuilder`, on the document already wrapped by
`NewJsonQuery`. -/
def NewMappingBuilder (mappings : List (String × String)) (doc : JsonQuery) :
    MappingBuilder :=
  { docJQ := doc, mappingStrategy := none, mappings := mappings, body := [] }

/-- Method `getPrefix`. -/
def getPrefix (source sep : String) : String :=
  match Split source sep with
  | first :: _ :: _ => first
  | _ => ""

/-- The loop of `retrieveValueFromDoc` over the segments still to read, with
the text built so far. -/
def retrieveSegments (docJQ : JsonQuery) : List String → String → Result String
  | [], result => .value result
  | key :: rest, result =>
    if HasPrefix key "'" then retrieveSegments docJQ rest (result ++ TrimLeftChars key 1)
    else
      match docJQ.Interface (Split key ".") with
      | .missing err => .failure err
      | .found i => retrieveSegments docJQ rest (result ++ i)

/-- Method `retrieveValueFromDoc`. -/
def retrieveValueFromDoc (mb : MappingBuilder) (keys : String) : Result String :=
  retrieveSegments mb.docJQ (Split keys "+") ""

/-- Method `extractBodyValue` of `defaultStrategy`. -/
def defaultStrategy.extractBodyValue (mb : MappingBuilder) (_mapKey mapValue : String) :
    Except Panic (MappingBuilder × Result BodyValue) :=
  match retrieveValueFromDoc mb mapValue with
  | .failure err => .ok (mb, .failure err)
  | .value value => .ok (mb, .value (.string value))

/-- The loop of `arrStrategy.extractBodyValue` over the elements still to
read. -/
def arrElements (mb : MappingBuilder) : List String → List String → Result (List String)
  | [], arr => .value arr
  | elem :: rest, arr =>
    match retrieveValueFromDoc mb elem with
    | .failure err => .failure ("error retrieving array type value: " ++ err)
    | .value found => arrElements mb rest (arr ++ [found])

/-- Method `extractBodyValue` of `arrStrategy`. -/
def arrStrategy.extractBodyValue (mb : MappingBuilder) (_mapKey mapValue : String) :
    Except Panic (MappingBuilder × Result BodyValue) :=
  match arrElements mb (Split mapValue ",") [] with
  | .failure err => .ok (mb, .failure err)
  | .value arr => .ok (mb, .value (.strings arr))

/-- Method `extractBodyValue` of `templateVarStrategy`. The assertion
`.(map[string]string)` panics when the body holds another value under
`templateVars`. -/
def templateVarStrategy.extractBodyValue (mb : MappingBuilder) (mapKey mapValue : String) :
    Except Panic (MappingBuilder × Result BodyValue) :=
  let keyT := TrimPrefix mapKey "templateVar:"
  match retrieveValueFromDoc mb mapValue with
  | .failure err => .ok (mb, .failure err)
  | .value valT =>
    let body : List (String × BodyValue) :=
      match lookupKey mb.body "templateVars" with
      | none => assignKey mb.body "templateVars" (.templateVars [])
      | some _ => mb.body
    match lookupKey body "templateVars" with
    | some (.templateVars templateVars) =>
      let body := assignKey body "templateVars" (.templateVars (assignKey templateVars keyT valT))
      .ok ({ mb with body := body }, .value (.templateVars (assignKey templateVars keyT valT)))
    | _ => .error "interface conversion: value is not map[string]string"

/-- Method `extractBodyValue` of `constStrategy`. -/
def constStrategy.extractBodyValue (mb : MappingBuilder) (_mapKey mapValue : String) :
    Except Panic (MappingBuilder × Result BodyValue) :=
  .ok (mb, .value (.string mapValue))

/-- Method `extractBodyValue` of `iso3166Strategy`; `GetISO3361CodeCountry` is
a function of the package whose file is not among the sources. -/
def iso3166Strategy.extractBodyValue (GetISO3361CodeCountry : String → String)
    (mb : MappingBuilder) (_mapKey mapValue : String) :
    Except Panic (MappingBuilder × Result BodyValue) :=
  match retrieveValueFromDoc mb mapValue with
  | .failure err => .ok (mb, .failure err)
  | .value country => .ok (mb, .value (.string (GetISO3361CodeCountry country)))

/-- Method `extractBodyValue` of `onlynumbersStrategy`: the regular expression
`\D` matches every character that is not a decimal digit. -/
def onlynumbersStrategy.extractBodyValue (mb : MappingBuilder) (_mapKey mapValue : String) :
    Except Panic (MappingBuilder × Result BodyValue) :=
  match retrieveValueFromDoc mb mapValue with
  | .failure err => .ok (mb, .failure ("onlynumbersStrategy error: " ++ err))
  | .value bodyValue => .ok (mb, .value (.string (String.mk (bodyValue.data.filter Char.isDigit))))

/-- Method `getId` of `idMerchantTypeStrategy`; a missing key reads as 0. -/
def idMerchantTypeStrategy.getId (name : String) : Int :=
  if name = "Ecommerce" then 1
  else if name = "Hospitality" then 2
  else if name = "Insurance" then 3
  else if name = "Schools" then 4
  else if name = "Travel and Tourism" then 5
  else if name = "ICT" then 6
  else if name = "SMEs" then 7
  else if name = "Conferences & events" then 8
  else if name = "Activity Providers" then 9
  else if name = "Hospitals" then 10
  else 0

/-- Method `extractBodyValue` of `idMerchantTypeStrategy`. -/
def idMerchantTypeStrategy.extractBodyValue (mb : MappingBuilder) (_mapKey mapValue : String) :
    Except Panic (MappingBuilder × Result BodyValue) :=
  match retrieveValueFromDoc mb mapValue with
  | .failure err => .ok (mb, .failure err)
  | .value name => .ok (mb, .value (.int (idMerchantTypeStrategy.getId name)))

/-- The call `mb.mappingStrategy.extractBodyValue(mapKey, mapValue)` through
the interface. -/
def MappingStrategy.extractBodyValue (GetISO3361CodeCountry : String → String) :
    MappingStrategy → MappingBuilder → String → String →
      Except Panic (MappingBuilder × Result BodyValue)
  | .arrStrategy => arrStrategy.extractBodyValue
  | .templateVarStrategy => templateVarStrategy.extractBodyValue
  | .constStrategy => constStrategy.extractBodyValue
  | .iso3166Strategy => iso3166Strategy.extractBodyValue GetISO3361CodeCountry
  | .onlynumbersStrategy => onlynumbersStrategy.extractBodyValue
  | .idMerchantTypeStrategy => idMerchantTypeStrategy.extractBodyValue
  | .defaultStrategy => defaultStrategy.extractBodyValue

/-- The `switch` of `extractBodyData`: the strategy for a prefix. -/
def strategyFor (pre : String) : MappingStrategy :=
  if pre = "arr" then .arrStrategy
  else if pre = "templateVar" then .templateVarStrategy
  else if pre = "const" then .constStrategy
  else if pre = "iso3166_1" then .iso3166Strategy
  else if pre = "onlynumbers" then .onlynumbersStrategy
  else if pre = "idMerchantType" then .idMerchantTypeStrategy
  else .defaultStrategy

/-- Method `extractBodyData`: `(bodyKey, bodyValue, nil)` or `(nil, nil, err)`. -/
def extractBodyData (GetISO3361CodeCountry : String → String) (mb : MappingBuilder)
    (mapKey mapValue : String) :
    Except Panic (MappingBuilder × Result (String × BodyValue)) :=
  let pre := getPrefix mapKey ":"
  let bodyKey := TrimPrefix mapKey (pre ++ ":")
  let bodyKey := if pre = "templateVar" then "templateVars" else bodyKey
  let mb := { mb with mappingStrategy := some (strategyFor pre) }
  match (strategyFor pre).extractBodyValue GetISO3361CodeCountry mb mapKey mapValue with
  | .error p => .error p
  | .ok (mb, .failure err) => .ok (mb, .failure err)
  | .ok (mb, .value bodyValue) => .ok (mb, .value (bodyKey, bodyValue))

/-- The loop of `BuildBody` over the entries still to read. -/
def buildEntries (GetISO3361CodeCountry : String → String) :
    List (String × String) → MappingBuilder →
      Except Panic (Result (List (String × BodyValue)))
  | [], mb => .ok (.value mb.body)
  | (mapKey, mapValue) :: rest, mb =>
    match extractBodyData GetISO3361CodeCountry mb mapKey mapValue with
    | .error p => .error p
    | .ok (_, .failure err) => .ok (.failure err)
    | .ok (mb, .value (bodyKey, bodyValue)) =>
      buildEntries GetISO3361CodeCountry rest
        { mb with body := assignKey mb.body bodyKey bodyValue }

/-- Method `BuildBody`: `(mb.body, nil)` or `(nil, err)`. -/
def BuildBody (GetISO3361CodeCountry : String → String) (mb : MappingBuilder) :
    Except Panic (Result (List (String × BodyValue))) :=
  buildEntries GetISO3361CodeCountry mb.mappings mb

/-! ## Vocabulary of the specification -/

/-- The compare operators of the filter grammar (constants `EQ` ... `LE` of the
filter library). -/
def compareOperators : List String :=
  ["eq", "ne", "co", "sw", "ew", "pr", "gt", "ge", "lt", "le"]

/-- The logical operators of the filter grammar (constants `AND`, `OR`). -/
def logicalOperators : List String := ["and", "or"]

/-- The tree uses only operators of the filter grammar. -/
def wellFormed : Expression → Bool
  | .LogicalExpression l op r => decide (op ∈ logicalOperators) && wellFormed l && wellFormed r
  | .AttributeExpression e => decide (e.Operator ∈ compareOperators)
  | .ValuePath _ vf => wellFormed vf
  | .NotExpression x => wellFormed x

/-- The tree is built from logical nodes and attribute leaves only. -/
def isLogicalTree : Expression → Bool
  | .LogicalExpression l _ r => isLogicalTree l && isLogicalTree r
  | .AttributeExpression _ => true
  | _ => false

/-- The attribute leaves of a tree in left-to-right order. -/
def leavesInOrder : Expression → List AttributeExpression
  | .LogicalExpression l _ r => leavesInOrder l ++ leavesInOrder r
  | .AttributeExpression e => [e]
  | .ValuePath _ vf => leavesInOrder vf
  | .NotExpression x => leavesInOrder x

/-- The leaves the visitor hands to `buildAttributeExpression` when the node is
an operand of a logical node, in visiting order: an operand that is neither a
logical node nor a leaf is passed over. -/
def visitedLeaves : Expression → List AttributeExpression
  | .LogicalExpression l _ r => visitedLeaves l ++ visitedLeaves r
  | .AttributeExpression e => [e]
  | _ => []

/-- The leaves compiled for a filter: a value path at the root hands its nested
expression to the visitor. -/
def compiledLeaves : Expression → List AttributeExpression
  | .ValuePath _ vf => visitedLeaves vf
  | t => visitedLeaves t

/-- The string form of a compare value. -/
def stringForm : GoValue → String
  | .string s => s
  | .int i => toString i
  | .int64 i => toString i
  | .bool b => toString b
  | .float64 text => text
  | .nil => "<nil>"

/-- Specification 4.3, the value a leaf binds: `co`, `sw`, `ew` wrap the string
form of the compare value in wildcards, every other operator binds the compare
value (the coercion to the declared type does not change it). -/
def boundValue (e : AttributeExpression) : GoValue :=
  if e.Operator = "co" then .string ("%" ++ stringForm e.CompareValue ++ "%")
  else if e.Operator = "sw" then .string (stringForm e.CompareValue ++ "%")
  else if e.Operator = "ew" then .string ("%" ++ stringForm e.CompareValue)
  else e.CompareValue

/-- The bound values of the leaves that are not presence tests, in order. -/
def boundValues (es : List AttributeExpression) : List GoValue :=
  (es.filter (fun e => e.Operator ≠ "pr")).map boundValue

/-- Values stored under the keys `i, i+1, ...`. -/
def indexedFrom : Nat → List GoValue → List (Int × GoValue)
  | _, [] => []
  | i, v :: vs => ((i : Int), v) :: indexedFrom (i + 1) vs

/-- Binding the values one after the other, each under the key
`len(sq.Parameters)` of its moment. -/
def bindAll (ps : List (Int × GoValue)) (vs : List GoValue) : List (Int × GoValue) :=
  vs.foldl (fun ps v => mapAssign ps ps.length v) ps

/-- Number of `?` in a text. -/
def placeholders (s : String) : Nat := s.data.count '?'

/-! ## The two operand switches of `buildLogicalExpression` -/

/-- The first `switch` of `buildLogicalExpression`, on `pFilter.Left`. -/
def leftOperand (parent : String) (Left : Expression) (Operator : String) (sq : SqlQuery) :
    Except Panic SqlQuery :=
  match Left with
  | .LogicalExpression _ _ _ =>
    match buildLogicalExpression parent Left sq with
    | .error p => .error p
    | .ok sq => WriteString sq (" " ++ Operator ++ " ")
  | .AttributeExpression e => buildAttributeExpression parent e Operator sq
  | _ => .ok sq

/-- The second `switch` of `buildLogicalExpression`, on `pFilter.Right`. -/
def rightOperand (parent : String) (Right : Expression) (sq : SqlQuery) :
    Except Panic SqlQuery :=
  match Right with
  | .LogicalExpression _ _ _ => buildLogicalExpression parent Right sq
  | .AttributeExpression e => buildAttributeExpression parent e " " sq
  | _ => .ok sq

/-- The state after the lookup loop of a leaf: one enumeration is used up. -/
def afterLookup (sq : SqlQuery) : SqlQuery :=
  { sq with fieldMappings := fun n => sq.fieldMappings (n + 1) }

/-- The context `ParseScimParams` hands to `visitList`. -/
def initialQuery (params : ListRequestParams) (fieldMappings : Nat → List MappingEntry)
    (orderField orderDirection : String) : SqlQuery :=
  { fieldMappings := fieldMappings
    Filter := some ""
    Parameters := []
    Error := none
    requestId := ""
    Limit := "limit " ++ Itoa (if params.StartIndex > 0 then
        wrapInt (params.StartIndex * params.Count) else 0) ++ ", " ++ Itoa params.Count
    OrderBy := "order by " ++ orderField ++ " " ++ orderDirection }

/-- The `parent` argument under which the root of the filter is compiled. -/
def parentAt (parentOf : AttributePath → Expression → String) : Expression → String
  | .ValuePath path ValueFilter => parentOf path ValueFilter
  | _ => ""

/-- The node `visitList` dispatches on: the nested expression of a value path,
the root itself otherwise. -/
def operandAt : Expression → Expression
  | .ValuePath _ ValueFilter => ValueFilter
  | t => t

/-- The operators whose leaves bind a value: all compare operators but `pr`. -/
def bindingOperators : List String :=
  ["eq", "ne", "gt", "ge", "lt", "le", "co", "sw", "ew"]

/-- Specification 4.3, the operator table for the operators that bind a value. -/
def operatorTable : List (String × String) :=
  [("eq", "="), ("ne", "!="), ("co", "LIKE"), ("sw", "LIKE"), ("ew", "LIKE"),
   ("gt", ">"), ("ge", ">="), ("lt", "<"), ("le", "<=")]

/-- Placeholders and parameters are aligned: no column of the table holds a
`?`, the parameter keys are `0..n-1`, and the text holds `n` placeholders. -/
def Aligned (sq : SqlQuery) : Prop :=
  (∀ n, ∀ kv ∈ sq.fieldMappings n, placeholders kv.2.MappingValue = 0) ∧
  ∃ vs f, sq.Parameters = indexedFrom 0 vs ∧ sq.Filter = some f ∧
    placeholders f = vs.length

/-- Depth of a tree of logical nodes and leaves: a leaf has depth 1, a logical
node one more than the deeper of its operands. -/
def treeDepth : Expression → Nat
  | .LogicalExpression l _ r => 1 + max (treeDepth l) (treeDepth r)
  | .AttributeExpression _ => 1
  | .ValuePath _ vf => 1 + treeDepth vf
  | .NotExpression x => 1 + treeDepth x

/-- The parentheses of `cs` are balanced and nest exactly `n` deep: every
prefix has at least as many `(` as `)` and at most `n` more, the totals are
equal, and some prefix has exactly `n` more. -/
def NestedParens (n : Nat) (cs : List Char) : Prop :=
  (∀ p, p <+: cs → p.count ')' ≤ p.count '(' ∧ p.count '(' ≤ p.count ')' + n) ∧
  cs.count '(' = cs.count ')' ∧
  ∃ p, p <+: cs ∧ p.count '(' = p.count ')' + n

/-- A text without parentheses. -/
def parenFree (cs : List Char) : Prop := cs.count '(' = 0 ∧ cs.count ')' = 0

/-- No column of the table, in any enumeration, holds a parenthesis. -/
def ColumnsParenFree (sq : SqlQuery) : Prop :=
  ∀ n, ∀ kv ∈ sq.fieldMappings n, parenFree kv.2.MappingValue.data

/-- Compiling one operand on its own: a logical node through
`buildLogicalExpression`, a leaf through `buildAttributeExpression` with the
given trailing token, any other node not at all. -/
def compileOperand (parent token : String) (x : Expression) (sq : SqlQuery) :
    Except Panic SqlQuery :=
  match x with
  | .LogicalExpression _ _ _ => buildLogicalExpression parent x sq
  | .AttributeExpression e => buildAttributeExpression parent e token sq
  | _ => .ok sq

/-- The connective as `buildLogicalExpression` writes it after the left
operand: the upper-cased trailing token of a leaf, the operator between two
blanks after a logical node, nothing after any other node. -/
def connectiveText (Left : Expression) (Operator : String) : String :=
  match Left with
  | .AttributeExpression _ => ToUpper Operator
  | .LogicalExpression _ _ _ => " " ++ Operator ++ " "
  | _ => ""

/-- The blank trailing token written after a right operand that is a leaf. -/
def trailingBlank (Right : Expression) : String :=
  match Right with
  | .AttributeExpression _ => " "
  | _ => ""

/-- The node is a logical node or an attribute leaf. -/
def isLogicalOrLeaf : Expression → Bool
  | .LogicalExpression _ _ _ => true
  | .AttributeExpression _ => true
  | _ => false

/-- The predicate text starts with `f`. -/
def Extends (f : String) (sq : SqlQuery) : Prop := ∃ txt : String, sq.Filter = some (f ++ txt)

/-- The lookup of `path` under `parent` does not depend on the order of the
table: no entry makes the condition of the loop fault, and all entries that
match carry the same column definition (as when at most one entry matches). -/
def Unambiguous (table : List MappingEntry) (parent : String) (path : AttributePath) : Prop :=
  (∀ kv ∈ table, ∃ b, entryMatches parent path kv.1 = .ok b) ∧
  (∀ kv1 ∈ table, ∀ kv2 ∈ table, entryMatches parent path kv1.1 = .ok true →
    entryMatches parent path kv2.1 = .ok true → kv1.2 = kv2.2)

/-- Two contexts of two runs over the same table: equal but for the orders in
which the loops still to run enumerate the table. -/
def SameButOrder (table : List MappingEntry) (s t : SqlQuery) : Prop :=
  s.Filter = t.Filter ∧ s.Parameters = t.Parameters ∧ s.Error = t.Error ∧
  s.requestId = t.requestId ∧ s.Limit = t.Limit ∧ s.OrderBy = t.OrderBy ∧
  (∀ n, (s.fieldMappings n).Perm table) ∧ (∀ n, (t.fieldMappings n).Perm table)

/-- Two runs of a visitor method end alike: in the same panic, or in contexts
that are the same but for the enumeration orders. -/
def SameOutcome (table : List MappingEntry) :
    Except Panic SqlQuery → Except Panic SqlQuery → Prop
  | .error p, .error p2 => p = p2
  | .ok a, .ok b => SameButOrder table a b
  | _, _ => False

/-- What a caller sees of a query: predicate text, parameters, limit and
order-by clause. -/
def observable (q : SqlQuery) : Option String × List (Int × GoValue) × String × String :=
  (q.Filter, q.Parameters, q.Limit, q.OrderBy)

/-- What a caller sees of a call of `ParseScimParams`: the panic, or the
observable part of the query and the error. -/
def outcome (r : Except Panic (Option SqlQuery × Option String)) :
    Except Panic (Option (Option String × List (Int × GoValue) × String × String)
      × Option String) :=
  match r with
  | .error p => .error p
  | .ok (q, err) => .ok (q.map observable, err)

/-- The lookup found a value. -/
def DocLookup.isFound : DocLookup → Bool
  | .found _ => true
  | .missing _ => false

/-- The text a segment of a source expression stands for: the segment without
its leading quote when it starts with a single quote, the string form of the
document value at its dot-separated path otherwise. -/
def segmentText (docJQ : JsonQuery) (seg : String) : String :=
  if HasPrefix seg "'" then String.mk (seg.data.drop 1)
  else
    match docJQ.Interface (Split seg ".") with
    | .found text => text
    | .missing _ => ""

/-- The source expression names, in a segment that is not a literal, a
document path that does not exist. -/
def referencesMissingPath (docJQ : JsonQuery) (expr : String) : Bool :=
  (Split expr "+").any
    (fun seg => !HasPrefix seg "'" && !(docJQ.Interface (Split seg ".")).isFound)

/-- The mapping entry is handled by a strategy that reads the document and
names a document path that does not exist: any expression of the list for
`arr`, the expression itself for the other strategies, never for `const`. -/
def entryReferencesMissingPath (docJQ : JsonQuery) (mapKey mapValue : String) : Bool :=
  match strategyFor (getPrefix mapKey ":") with
  | .constStrategy => false
  | .arrStrategy => (Split mapValue ",").any (referencesMissingPath docJQ)
  | _ => referencesMissingPath docJQ mapValue

/-- The output field under which `extractBodyData` returns the value of a
mapping key. -/
def bodyKeyOf (mapKey : String) : String :=
  if getPrefix mapKey ":" = "templateVar" then "templateVars"
  else TrimPrefix mapKey (getPrefix mapKey ":" ++ ":")

/-- Only entries of the `templateVar` strategy write the output field
`templateVars`. -/
def templateVarsReserved (mappings : List (String × String)) : Prop :=
  ∀ kv ∈ mappings, bodyKeyOf kv.1 = "templateVars" → getPrefix kv.1 ":" = "templateVar"

/-- The body holds under `templateVars`, if anything, a map of template
variables. -/
def TemplateVarsIsMap (body : List (String × BodyValue)) : Prop :=
  ∀ v, lookupKey body "templateVars" = some v → ∃ m, v = .templateVars m

/-! ## Vocabulary of the later claims -/

/-- The key set of the map is exactly `0..n-1` for `n = len(ps)`: the keys are
distinct, and an integer is a key if and only if it lies in that range. -/
def KeysAreRange (ps : List (Int × GoValue)) : Prop :=
  (ps.map Prod.fst).Nodup ∧
  ∀ k : Int, k ∈ ps.map Prod.fst ↔ 0 ≤ k ∧ k < (ps.length : Int)

/-- The context `visitList` holds after its dispatch on the root, before it
looks at `sq.Error`. -/
def visited (parentOf : AttributePath → Expression → String)
    (pFilter : Expression) (sq : SqlQuery) : Except Panic SqlQuery :=
  match pFilter with
  | .LogicalExpression _ _ _ => buildLogicalExpression "" pFilter sq
  | .AttributeExpression e => buildAttributeExpression "" e " " sq
  | .ValuePath path ValueFilter => buildValuePathExpression parentOf path ValueFilter sq
  | .NotExpression _ =>
    .ok { sq with Error := some "I don't know about type *filter.NotExpression!" }

/-- The separator occurs in the source. -/
def Occurs (sep source : String) : Prop := sep.data <:+: source.data

/-- The text `p` is the part of `source` before the first occurrence of `sep`:
an occurrence starts right after `p`, and none starts earlier. -/
def IsPartBeforeFirst (source sep p : String) : Prop :=
  (∃ post, source.data = p.data ++ sep.data ++ post) ∧
  ∀ p2 post2, source.data = p2 ++ sep.data ++ post2 → p.data.length ≤ p2.length

/-- The contract of `getPrefix` in the words of the claim: the part before the
first occurrence of the separator when it occurs, the empty string otherwise. -/
def PrefixContract (source sep result : String) : Prop :=
  (Occurs sep source → IsPartBeforeFirst source sep result) ∧
  (¬ Occurs sep source → result = "")

/-- The output field of a mapping key in the words of the claim: the key
itself when it holds no colon, `templateVars` when the text before the first
colon is `templateVar`, otherwise the text after the first colon. -/
def outputField (k : String) : String :=
  if ':' ∉ k.data then k
  else if String.mk (k.data.takeWhile (fun c => c != ':')) = "templateVar" then "templateVars"
  else String.mk ((k.data.dropWhile (fun c => c != ':')).drop 1)

/-! ## Scenarios of the test file -/

/-- The renderer of the filter library is never consulted on a tree without
value paths; the scenarios use this stand-in. -/
def noParent : AttributePath → Expression → String := fun _ _ => ""

/-- Attribute leaf `name op value` without sub-attribute. -/
def leaf (name op : String) (v : GoValue) : Expression :=
  .AttributeExpression { AttributePath := { AttributeName := name }, Operator := op, CompareValue := v }

/-- The mapping table of `TestProcessor_GetSqlQuery_PathExpr`, enumerated in
source order by every loop. -/
def pathExprMappings : Nat → List MappingEntry := fun _ =>
  [ ({ AttributeName := "id" }, ⟨"tra.id", "int", true⟩),
    ({ AttributeName := "cost" }, ⟨"tra.cost", "int", true⟩),
    ({ AttributeName := "emails" }, ⟨"tra.emails", "string", true⟩),
    ({ AttributeName := "enable" }, ⟨"tra.enable", "bool", true⟩) ]

/-- Filter `id eq 1 and (cost ge 4 or emails co "example.org" or enable eq true)`. -/
def pathExprFilter : Expression :=
  .LogicalExpression (leaf "id" "eq" (.int 1)) "and"
    (.LogicalExpression
      (.LogicalExpression (leaf "cost" "ge" (.int 4)) "or"
        (leaf "emails" "co" (.string "example.org")))
      "or" (leaf "enable" "eq" (.bool true)))

/-- The query `ParseScimParams` returns for `pathExprFilter`. -/
def pathExprQuery : SqlQuery :=
  { fieldMappings := fun _ => []
    Filter := some (" (  (tra.id = ?) AND (  (  (tra.cost >= ?) OR (tra.emails LIKE ?)   )"
      ++ "  or  (tra.enable = ?)   )  ) ")
    Parameters := [(0, .int 1), (1, .int 4), (2, .string "%example.org%"), (3, .bool true)]
    Error := none
    requestId := ""
    Limit := "limit 10, 10"
    OrderBy := "order by tra.id asc" }

/-- The mapping table of `TestProcessor_GetSqlQuery`. -/
def idMappings : Nat → List MappingEntry := fun _ =>
  [ ({ AttributeName := "id" }, ⟨"tra.id", "int", true⟩) ]

/-- The query `ParseScimParams` returns for the filter `id pr`. -/
def idPresentQuery : SqlQuery :=
  { fieldMappings := fun _ => []
    Filter := some " (tra.id IS NOT NULL)  "
    Parameters := []
    Error := none
    requestId := ""
    Limit := "limit 10, 10"
    OrderBy := "order by tra.id asc" }

/-- Filter `id pr and emails[type eq "work"]`: the right operand of the logical
node is a value path. -/
def valuePathOperandFilter : Expression :=
  .LogicalExpression (leaf "id" "pr" .nil) "and"
    (.ValuePath { AttributeName := "emails" } (leaf "type" "eq" (.string "work")))

/-- The query `ParseScimParams` returns for `valuePathOperandFilter`. -/
def valuePathOperandQuery : SqlQuery :=
  { fieldMappings := fun _ => []
    Filter := some " (  (tra.id IS NOT NULL) AND ) "
    Parameters := []
    Error := none
    requestId := ""
    Limit := "limit 10, 10"
    OrderBy := "order by tra.id asc" }

/-- A table with one column of declared type `int64`. -/
def int64Mappings : Nat → List MappingEntry := fun _ =>
  [ ({ AttributeName := "cost" }, ⟨"tra.cost", "int64", true⟩) ]

/-- A table with three integer columns `a`, `b`, `c`. -/
def abcMappings : Nat → List MappingEntry := fun _ =>
  [ ({ AttributeName := "a" }, ⟨"a", "int", true⟩),
    ({ AttributeName := "b" }, ⟨"b", "int", true⟩),
    ({ AttributeName := "c" }, ⟨"c", "int", true⟩) ]

/-- Filter `(a eq 1 and b eq 2) or c eq 3`: the left operand of `or` is a
logical node. -/
def nestedLeftFilter : Expression :=
  .LogicalExpression
    (.LogicalExpression (leaf "a" "eq" (.int 1)) "and" (leaf "b" "eq" (.int 2)))
    "or" (leaf "c" "eq" (.int 3))

/-- The query `ParseScimParams` returns for `nestedLeftFilter`. -/
def nestedLeftQuery : SqlQuery :=
  { fieldMappings := fun _ => []
    Filter := some " (  (  (a = ?) AND (b = ?)   )  or  (c = ?)   ) "
    Parameters := [(0, .int 1), (1, .int 2), (2, .int 3)]
    Error := none
    requestId := ""
    Limit := "limit 10, 10"
    OrderBy := "order by a asc" }

/-- The context `buildLogicalExpression` leaves for `nestedLeftFilter`: three
lookup loops have run. -/
def nestedLeftContext : SqlQuery :=
  { nestedLeftQuery with fieldMappings := fun n => abcMappings (n + 1 + 1 + 1) }

/-- The query `ParseScimParams` returns for a request without filter: the
builder stays nil, nothing is bound. -/
def noFilterQuery (Count StartIndex : Int) (fieldMappings : Nat → List MappingEntry)
    (orderField orderDirection : String) : SqlQuery :=
  { fieldMappings := fieldMappings
    Filter := none
    Parameters := []
    Error := none
    requestId := ""
    Limit := "limit " ++ Itoa (if StartIndex > 0 then wrapInt (StartIndex * Count) else 0)
      ++ ", " ++ Itoa Count
    OrderBy := "order by " ++ orderField ++ " " ++ orderDirection }

/-- A table with one entry for the sub-attribute `name.familyName`; the
sub-attribute of the key is a string allocated with the table (address 1). -/
def subAttributeMappings : Nat → List MappingEntry := fun _ =>
  [ ({ AttributeName := "name", SubAttribute := some ⟨1, "familyName"⟩ },
      ⟨"usr.family_name", "string", true⟩) ]

/-- Filter `name.familyName pr` as the filter parser builds it: the
sub-attribute is a string allocated by the parser (address 2). -/
def subAttributeFilter : Expression :=
  .AttributeExpression
    { AttributePath := { AttributeName := "name", SubAttribute := some ⟨2, "familyName"⟩ },
      Operator := "pr", CompareValue := .nil }

/-- Filter `emails[type eq "work"]`. -/
def emailsTypeFilter : Expression :=
  .ValuePath { AttributeName := "emails" } (leaf "type" "eq" (.string "work"))

/-- A table with the entries `emails` and `emails.type`, enumerated in this
order. -/
def emailsMappings : Nat → List MappingEntry := fun _ =>
  [ ({ AttributeName := "emails" }, ⟨"tra.emails", "string", true⟩),
    ({ AttributeName := "emails", SubAttribute := some ⟨1, "type"⟩ },
      ⟨"tra.email_type", "string", true⟩) ]

/-- The table of the example of C16: the single entry `emails.type`. -/
def emailsTypeMappings : Nat → List MappingEntry := fun _ =>
  [ ({ AttributeName := "emails", SubAttribute := some ⟨1, "type"⟩ },
      ⟨"tra.email_type", "string", true⟩) ]

/-- The map of `TestProcessor_GetParameterList`, enumerated out of key
order. -/
def threeParameters : SqlQuery :=
  { fieldMappings := fun _ => []
    Filter := none
    Parameters := [(2, .string "2"), (0, .string "0"), (1, .string "1")]
    Error := none
    requestId := ""
    Limit := ""
    OrderBy := "" }

/-- A table with two entries for `id`, one keyed with the schema URI and one
without, enumerated in this order. -/
def twoIdMappings : Nat → List MappingEntry := fun _ =>
  [ ({ AttributeName := "id" }, ⟨"tra.id", "int", true⟩),
    ({ URIPrefix := some ⟨1, "urn:ietf:params:scim:schemas:core:2.0:User"⟩,
       AttributeName := "id" }, ⟨"usr.id", "int", true⟩) ]

/-- The table `twoIdMappings` enumerated in the other order. -/
def twoIdMappingsReversed : Nat → List MappingEntry := fun n => (twoIdMappings n).reverse

/-- The paths of the document of `TestMappingBuilder_retrieveValueFromDoc` that
the scenarios read; the text of the lookup error stands for the one of
`JsonQuery`. -/
def retrieveDoc : JsonQuery :=
  { Interface := fun keys =>
      if keys = ["foo"] then .found "1"
      else if keys = ["bar"] then .found "2"
      else if keys = ["test"] then .found "Hello, world!"
      else if keys = ["subobj", "sfoo"] then .found "1"
      else .missing "path not found" }

/-- The paths of the document of `TestMappingBuilder_buildBody` that the
scenarios read. -/
def merchantDoc : JsonQuery :=
  { Interface := fun keys =>
      if keys = ["country"] then .found "Kenya"
      else if keys = ["city"] then .found "Nairobi"
      else if keys = ["contact", "phone"] then .found "(2561 123 123)"
      else .missing "path not found" }

/-- A stand-in for `GetISO3361CodeCountry` on the one country of the tests. -/
def testCountryCode (country : String) : String :=
  if country = "Kenya" then "KE" else ""

/-- Filter `id eq 1 and nope eq 2`: the right leaf names an attribute the
table `idMappings` does not hold. -/
def unmappedRightFilter : Expression :=
  .LogicalExpression (leaf "id" "eq" (.int 1)) "and" (leaf "nope" "eq" (.int 2))

/-- The context the visitor leaves for `unmappedRightFilter`: the left leaf is
written and bound, the error of the right leaf is recorded, the parenthesis is
closed. -/
def unmappedRightContext : SqlQuery :=
  { fieldMappings := fun n => idMappings (n + 1 + 1)
    Filter := some " (  (tra.id = ?) AND ) "
    Parameters := [(0, .int 1)]
    Error := some "invalid/unmapped field supplied"
    requestId := ""
    Limit := "limit 10, 10"
    OrderBy := "order by tra.id asc" }

/-- Filter `emails[type eq "work"] and id pr`: the left operand of the logical
node is a value path over attributes the table `idMappings` does not hold. -/
def valuePathLeftFilter : Expression :=
  .LogicalExpression
    (.ValuePath { AttributeName := "emails" } (leaf "type" "eq" (.string "work")))
    "and" (leaf "id" "pr" .nil)

/-- The context after the right operand of `valuePathLeftFilter`. -/
def valuePathLeftContext : SqlQuery :=
  { fieldMappings := fun n => idMappings (n + 1)
    Filter := some " (  (tra.id IS NOT NULL)  "
    Parameters := []
    Error := none
    requestId := ""
    Limit := "limit 10, 10"
    OrderBy := "order by tra.id asc" }

/-- The context after the left operand of `valuePathOperandFilter`. -/
def valuePathOperandContext : SqlQuery :=
  { fieldMappings := fun n => idMappings (n + 1)
    Filter := some " (  (tra.id IS NOT NULL) AND"
    Parameters := []
    Error := none
    requestId := ""
    Limit := "limit 10, 10"
    OrderBy := "order by tra.id asc" }
/-! ## One step of the visitor -/

theorem WriteString_ok {sq sq1 : SqlQuery} {s : String} (h : WriteString sq s = .ok sq1) :
    ∃ f, sq.Filter = some f ∧ sq1 = { sq with Filter := some (f ++ s) } := by
  unfold WriteString at h
  cases hf : sq.Filter with
  | none => simp [hf] at h
  | some f =>
    simp only [hf, Except.ok.injEq] at h
    exact ⟨f, rfl, h.symm⟩

theorem WriteString_some {sq : SqlQuery} {f : String} (s : String) (h : sq.Filter = some f) :
    WriteString sq s = .ok { sq with Filter := some (f ++ s) } := by
  simp [WriteString, h]

/-- Every way `buildAttributeExpression` can return: the lookup found no
column and the error is recorded; the leaf is a presence test; the leaf binds a
value. -/
theorem buildAttributeExpression_cases {parent token : String} {e : AttributeExpression}
    {sq sq1 : SqlQuery} (h : buildAttributeExpression parent e token sq = .ok sq1) :
    ∃ col typ, findSqlField parent e.AttributePath (sq.fieldMappings 0) = .ok (col, typ) ∧
      ((col = "" ∧
          sq1 = { afterLookup sq with Error := some "invalid/unmapped field supplied" }) ∨
       (col ≠ "" ∧ e.Operator = "pr" ∧ ∃ f, sq.Filter = some f ∧
          sq1 = { afterLookup sq with
            Filter := some (f ++ (" (" ++ col ++ " " ++ scimOpMap (ToLower e.Operator)
                        ++ ") " ++ ToUpper token)) }) ∨
       (col ≠ "" ∧ e.Operator ≠ "pr" ∧ ∃ f val, sq.Filter = some f ∧
          sqlValueOf typ (matchingOpByScimOp (ToLower e.Operator)) e.CompareValue = .ok val ∧
          sq1 = { afterLookup sq with
            Filter := some (f ++ (" (" ++ col ++ " " ++ scimOpMap (ToLower e.Operator)
                        ++ " ?) " ++ ToUpper token))
            Parameters := mapAssign sq.Parameters sq.Parameters.length val })) := by
  unfold buildAttributeExpression at h
  cases hfind : findSqlField parent e.AttributePath (sq.fieldMappings 0) with
  | error p => simp [hfind] at h
  | ok r =>
    obtain ⟨col, typ⟩ := r
    refine ⟨col, typ, rfl, ?_⟩
    simp only [hfind] at h
    by_cases hcol : col = ""
    · left
      simp only [hcol, if_true, Except.ok.injEq] at h
      exact ⟨hcol, h.symm⟩
    · right
      simp only [hcol, if_false] at h
      by_cases hpr : e.Operator = "pr"
      · left
        simp only [hpr, ne_eq, not_true_eq_false, if_false] at h
        obtain ⟨f, hf, hsq⟩ := WriteString_ok h
        refine ⟨hcol, hpr, f, hf, ?_⟩
        rw [hsq, hpr]
        rfl
      · right
        simp only [ne_eq, hpr, not_false_eq_true, if_true] at h
        cases hval : sqlValueOf typ (matchingOpByScimOp (ToLower e.Operator)) e.CompareValue with
        | error p => simp [hval] at h
        | ok val =>
          simp only [hval] at h
          cases hw : WriteString { sq with fieldMappings := fun n => sq.fieldMappings (n + 1) }
              (" (" ++ col ++ " " ++ scimOpMap (ToLower e.Operator) ++ " ?) " ++ ToUpper token) with
          | error p => simp [hw] at h
          | ok sq2 =>
            simp only [hw, Except.ok.injEq] at h
            obtain ⟨f, hf, hsq⟩ := WriteString_ok hw
            refine ⟨hcol, hpr, f, val, hf, rfl, ?_⟩
            rw [← h, hsq]
            rfl

theorem buildLogicalExpression_eq (parent : String) (l r : Expression) (op : String)
    (sq : SqlQuery) :
    buildLogicalExpression parent (.LogicalExpression l op r) sq =
      match WriteString sq " ( " with
      | .error p => .error p
      | .ok sq =>
        match leftOperand parent l op sq with
        | .error p => .error p
        | .ok sq =>
          if sq.Error.isSome then .ok sq
          else
            match rightOperand parent r sq with
            | .error p => .error p
            | .ok sq => WriteString sq " ) " := by
  rw [buildLogicalExpression]
  cases l <;> cases r <;> rfl

/-- How a run of `buildLogicalExpression` on a logical node returns: stopped by
the error check after the left operand, or through both operands. -/
theorem buildLogicalExpression_cases {parent op : String} {l r : Expression}
    {sq sq1 : SqlQuery}
    (h : buildLogicalExpression parent (.LogicalExpression l op r) sq = .ok sq1) :
    ∃ f sL, sq.Filter = some f ∧
      leftOperand parent l op { sq with Filter := some (f ++ " ( ") } = .ok sL ∧
      ((sL.Error.isSome = true ∧ sq1 = sL) ∨
       (sL.Error = none ∧ ∃ sR g, rightOperand parent r sL = .ok sR ∧ sR.Filter = some g ∧
          sq1 = { sR with Filter := some (g ++ " ) ") })) := by
  rw [buildLogicalExpression_eq] at h
  cases hw : WriteString sq " ( " with
  | error p => simp [hw] at h
  | ok s0 =>
    obtain ⟨f, hf, hs0⟩ := WriteString_ok hw
    simp only [hw] at h
    subst hs0
    cases hl : leftOperand parent l op { sq with Filter := some (f ++ " ( ") } with
    | error p => simp [hl] at h
    | ok sL =>
      simp only [hl] at h
      refine ⟨f, sL, hf, hl, ?_⟩
      by_cases hE : sL.Error.isSome = true
      · left
        simp only [hE, if_true, Except.ok.injEq] at h
        exact ⟨hE, h.symm⟩
      · right
        simp only [hE, Bool.false_eq_true, if_false] at h
        cases hr : rightOperand parent r sL with
        | error p => simp [hr] at h
        | ok sR =>
          simp only [hr] at h
          obtain ⟨g, hg, hsq⟩ := WriteString_ok h
          refine ⟨?_, sR, g, rfl, hg, hsq⟩
          cases hErr : sL.Error with
          | none => rfl
          | some e => simp [hErr] at hE

/-- How the left switch returns. -/
theorem leftOperand_cases {parent op : String} {l : Expression} {sq sL : SqlQuery}
    (h : leftOperand parent l op sq = .ok sL) :
    (∃ a o b, l = .LogicalExpression a o b ∧ ∃ s g, rightOperand parent l sq = .ok s ∧
        s.Filter = some g ∧ sL = { s with Filter := some (g ++ (" " ++ op ++ " ")) }) ∨
    (∃ e, l = .AttributeExpression e ∧ buildAttributeExpression parent e op sq = .ok sL) ∨
    (isLogicalOrLeaf l = false ∧ visitedLeaves l = [] ∧ sL = sq) := by
  cases l with
  | LogicalExpression a o b =>
    left
    refine ⟨a, o, b, rfl, ?_⟩
    simp only [leftOperand] at h
    cases hb : buildLogicalExpression parent (.LogicalExpression a o b) sq with
    | error p => simp [hb] at h
    | ok s =>
      simp only [hb] at h
      obtain ⟨g, hg, hs⟩ := WriteString_ok h
      exact ⟨s, g, hb, hg, hs⟩
  | AttributeExpression e =>
    right; left
    exact ⟨e, rfl, h⟩
  | ValuePath p vf =>
    right; right
    simp only [leftOperand, Except.ok.injEq] at h
    exact ⟨rfl, rfl, h.symm⟩
  | NotExpression x =>
    right; right
    simp only [leftOperand, Except.ok.injEq] at h
    exact ⟨rfl, rfl, h.symm⟩

/-- The text a presence leaf writes, with the operator looked up. -/
theorem presence_fragment (col token : String) :
    " (" ++ col ++ " " ++ scimOpMap (ToLower "pr") ++ ") " ++ ToUpper token
      = " (" ++ col ++ " IS NOT NULL) " ++ ToUpper token := by
  have h : scimOpMap (ToLower "pr") = "IS NOT NULL" := by decide
  rw [h, String.append_assoc (" (" ++ col), String.append_assoc (" (" ++ col)]
  rfl

/-! ## Values bound by a leaf -/

theorem ToLower_compareOperator {o : String} (h : o ∈ compareOperators) : ToLower o = o := by
  simp only [compareOperators, List.mem_cons, List.mem_singleton, List.not_mem_nil,
    or_false] at h
  rcases h with h | h | h | h | h | h | h | h | h | h <;> subst h <;> rfl

theorem sqlValueOf_none {typ : String} {v val : GoValue}
    (h : sqlValueOf typ none v = .ok val) : val = v := by
  unfold sqlValueOf at h
  simp only at h
  split_ifs at h
  · cases v <;> simp at h
    simp [← h]
  · cases v <;> simp at h
    simp [← h]
  · cases v <;> simp at h
    simp [← h]
  · simpa using h.symm

theorem sqlValueOf_some {typ : String} {w : String × String} {v val : GoValue}
    (h : sqlValueOf typ (some w) v = .ok val) :
    ∃ s, v = .string s ∧ val = .string (w.1 ++ s ++ w.2) := by
  unfold sqlValueOf at h
  cases v <;> simp at h
  exact ⟨_, rfl, h.symm⟩

/-- The value the code binds for a leaf is the one the specification names. -/
theorem sqlValueOf_boundValue {typ : String} {e : AttributeExpression} {val : GoValue}
    (hop : e.Operator ∈ compareOperators)
    (h : sqlValueOf typ (matchingOpByScimOp (ToLower e.Operator)) e.CompareValue = .ok val) :
    val = boundValue e := by
  rw [ToLower_compareOperator hop] at h
  simp only [compareOperators, List.mem_cons, List.mem_singleton, List.not_mem_nil,
    or_false] at hop
  unfold boundValue
  rcases hop with ho | ho | ho | ho | ho | ho | ho | ho | ho | ho <;> rw [ho] at h ⊢
  case inr.inr.inl =>
    obtain ⟨s, hv, hval⟩ := sqlValueOf_some (w := ("%", "%")) h
    simp [hv, hval, stringForm]
  case inr.inr.inr.inl =>
    obtain ⟨s, hv, hval⟩ := sqlValueOf_some (w := ("", "%")) h
    simp [hv, hval, stringForm]
  case inr.inr.inr.inr.inl =>
    obtain ⟨s, hv, hval⟩ := sqlValueOf_some (w := ("%", "")) h
    simp [hv, hval, stringForm]
  all_goals
    have h2 := sqlValueOf_none h
    simpa using h2

theorem boundValues_append (a b : List AttributeExpression) :
    boundValues (a ++ b) = boundValues a ++ boundValues b := by
  simp [boundValues]

theorem bindAll_append (ps : List (Int × GoValue)) (a b : List GoValue) :
    bindAll ps (a ++ b) = bindAll (bindAll ps a) b := by
  simp [bindAll]

theorem buildAttributeExpression_params {parent token : String} {e : AttributeExpression}
    {sq sq1 : SqlQuery} (hop : e.Operator ∈ compareOperators)
    (h : buildAttributeExpression parent e token sq = .ok sq1) (hE : sq1.Error = none) :
    sq1.Parameters = bindAll sq.Parameters (boundValues [e]) := by
  obtain ⟨col, typ, -, hc | hc | hc⟩ := buildAttributeExpression_cases h
  · obtain ⟨-, hsq⟩ := hc
    rw [hsq] at hE
    simp at hE
  · obtain ⟨-, hpr, f, -, hsq⟩ := hc
    rw [hsq]
    simp [boundValues, hpr, bindAll, afterLookup]
  · obtain ⟨-, hpr, f, val, -, hval, hsq⟩ := hc
    rw [hsq, sqlValueOf_boundValue hop hval]
    simp [boundValues, hpr, bindAll]

/-- Parameters after an operand compiled without error: the bound values of
its visited leaves, appended in visiting order. -/
theorem rightOperand_params {parent : String} : ∀ (x : Expression) (s s1 : SqlQuery),
    wellFormed x = true → rightOperand parent x s = .ok s1 → s1.Error = none →
    s1.Parameters = bindAll s.Parameters (boundValues (visitedLeaves x)) := by
  intro x
  induction x with
  | AttributeExpression e =>
    intro s s1 hwf h hE
    simp only [wellFormed, decide_eq_true_eq] at hwf
    exact buildAttributeExpression_params hwf h hE
  | ValuePath p vf _ =>
    intro s s1 _ h _
    simp only [rightOperand, Except.ok.injEq] at h
    simp [← h, visitedLeaves, boundValues, bindAll]
  | NotExpression x _ =>
    intro s s1 _ h _
    simp only [rightOperand, Except.ok.injEq] at h
    simp [← h, visitedLeaves, boundValues, bindAll]
  | LogicalExpression l op r ihl ihr =>
    intro s s1 hwf h hE
    simp only [wellFormed, Bool.and_eq_true, decide_eq_true_eq] at hwf
    obtain ⟨⟨-, hwl⟩, hwr⟩ := hwf
    obtain ⟨f, sL, hf, hl, hstop | hgo⟩ := buildLogicalExpression_cases h
    · obtain ⟨hsome, hsq⟩ := hstop
      rw [← hsq, hE] at hsome
      simp at hsome
    · obtain ⟨hLE, sR, g, hr, hg, hsq⟩ := hgo
      have hRE : sR.Error = none := by rw [hsq] at hE; exact hE
      have hR := ihr sL sR hwr hr hRE
      have hL : sL.Parameters = bindAll s.Parameters (boundValues (visitedLeaves l)) := by
        rcases leftOperand_cases hl with ⟨a, o, b, hlog, s2, g2, hrun, hg2, hs2⟩ | ⟨e, hle, hrun⟩ | ⟨-, hnil, hs⟩
        · have hE2 : s2.Error = none := by rw [hs2] at hLE; exact hLE
          have := ihl _ s2 hwl hrun hE2
          rw [hs2]
          simpa using this
        · subst hle
          simp only [wellFormed, decide_eq_true_eq] at hwl
          have := buildAttributeExpression_params hwl hrun hLE
          simpa [visitedLeaves] using this
        · rw [hs, hnil]
          simp [boundValues, bindAll]
      rw [hsq]
      simp only [visitedLeaves, boundValues_append, bindAll_append]
      rw [← hL]
      exact hR

/-! ## From `ParseScimParams` to the visitor -/

theorem visitList_ok {parentOf : AttributePath → Expression → String} {t : Expression}
    {sq q : SqlQuery} (h : visitList parentOf t sq = .ok (some q, none)) :
    rightOperand (parentAt parentOf t) (operandAt t) sq = .ok q ∧ q.Error = none := by
  unfold visitList at h
  cases t with
  | LogicalExpression l op r =>
    simp only [parentAt, operandAt, rightOperand] at h ⊢
    cases hb : buildLogicalExpression "" (.LogicalExpression l op r) sq with
    | error p => simp [hb] at h
    | ok s =>
      simp only [hb] at h
      cases hE : s.Error with
      | some err => simp [hE] at h
      | none =>
        simp only [hE, Except.ok.injEq, Prod.mk.injEq, Option.some.injEq, and_true] at h
        subst h
        exact ⟨rfl, hE⟩
  | AttributeExpression e =>
    simp only [parentAt, operandAt, rightOperand] at h ⊢
    cases hb : buildAttributeExpression "" e " " sq with
    | error p => simp [hb] at h
    | ok s =>
      simp only [hb] at h
      cases hE : s.Error with
      | some err => simp [hE] at h
      | none =>
        simp only [hE, Except.ok.injEq, Prod.mk.injEq, Option.some.injEq, and_true] at h
        subst h
        exact ⟨rfl, hE⟩
  | ValuePath p vf =>
    simp only [parentAt, operandAt] at h ⊢
    have hbv : buildValuePathExpression parentOf p vf sq = rightOperand (parentOf p vf) vf sq := by
      cases vf <;> rfl
    rw [hbv] at h
    cases hb : rightOperand (parentOf p vf) vf sq with
    | error p => simp [hb] at h
    | ok s =>
      simp only [hb] at h
      cases hE : s.Error with
      | some err => simp [hE] at h
      | none =>
        simp only [hE, Except.ok.injEq, Prod.mk.injEq, Option.some.injEq, and_true] at h
        subst h
        exact ⟨rfl, hE⟩
  | NotExpression x =>
    simp at h

/-- A successful call of `ParseScimParams` on a request with a filter: the
visitor ran on the root from the fresh context and left no error. -/
theorem ParseScimParams_ok {parentOf : AttributePath → Expression → String}
    {params : ListRequestParams} {fieldMappings : Nat → List MappingEntry}
    {orderField orderDirection : String} {t : Expression} {q : SqlQuery}
    (hf : params.Filter = some t)
    (h : ParseScimParams parentOf params fieldMappings orderField orderDirection
          = .ok (some q, none)) :
    ∃ sq1, rightOperand (parentAt parentOf t) (operandAt t)
        (initialQuery params fieldMappings orderField orderDirection) = .ok sq1 ∧
      sq1.Error = none ∧ q = { sq1 with fieldMappings := fun _ => [] } := by
  unfold ParseScimParams at h
  simp only [hf] at h
  cases hv : visitList parentOf t
      { fieldMappings := fieldMappings, Filter := some "", Parameters := [], Error := none,
        requestId := "",
        Limit := "limit " ++ Itoa (if params.StartIndex > 0 then
          wrapInt (params.StartIndex * params.Count) else 0) ++ ", " ++ Itoa params.Count,
        OrderBy := "order by " ++ orderField ++ " " ++ orderDirection } with
  | error p => simp [hv] at h
  | ok r =>
    obtain ⟨a, b⟩ := r
    cases a with
    | none => simp [hv] at h
    | some resp =>
      cases b with
      | some err => simp [hv] at h
      | none =>
        simp only [hv, Except.ok.injEq, Prod.mk.injEq, Option.some.injEq, and_true] at h
        obtain ⟨hrun, hE⟩ := visitList_ok hv
        exact ⟨resp, hrun, hE, h.symm⟩

/-! ## The parameter map and `GetParameterList` -/

theorem mapAssign_fresh : ∀ (ps : List (Int × GoValue)) (k : Int) (v : GoValue),
    (∀ kv ∈ ps, kv.1 ≠ k) → mapAssign ps k v = ps ++ [(k, v)] := by
  intro ps
  induction ps with
  | nil => intro k v _; rfl
  | cons hd tl ih =>
    intro k v hfresh
    obtain ⟨k0, v0⟩ := hd
    have h0 : k0 ≠ k := hfresh (k0, v0) (List.mem_cons_self _ _)
    have htl : ∀ kv ∈ tl, kv.1 ≠ k := fun kv hkv => hfresh kv (List.mem_cons_of_mem _ hkv)
    simp [mapAssign, h0, ih k v htl]

theorem indexedFrom_length : ∀ (vs : List GoValue) (i : Nat),
    (indexedFrom i vs).length = vs.length := by
  intro vs
  induction vs with
  | nil => intro i; rfl
  | cons v vs ih => intro i; simp [indexedFrom, ih]

theorem indexedFrom_key_lt : ∀ (vs : List GoValue) (i : Nat) (kv : Int × GoValue),
    kv ∈ indexedFrom i vs → kv.1 < ((i + vs.length : Nat) : Int) := by
  intro vs
  induction vs with
  | nil => intro i kv h; simp [indexedFrom] at h
  | cons v vs ih =>
    intro i kv h
    simp only [indexedFrom, List.mem_cons] at h
    rcases h with h | h
    · subst h
      simp only [List.length_cons]
      omega
    · have := ih (i + 1) kv h
      simp only [List.length_cons]
      omega

theorem indexedFrom_snoc : ∀ (vs : List GoValue) (i : Nat) (v : GoValue),
    indexedFrom i (vs ++ [v]) = indexedFrom i vs ++ [(((i + vs.length : Nat) : Int), v)] := by
  intro vs
  induction vs with
  | nil => intro i v; simp [indexedFrom]
  | cons w vs ih =>
    intro i v
    have harith : i + 1 + vs.length = i + (vs.length + 1) := by omega
    simp [indexedFrom, ih, harith]

/-- Binding on top of keys `0..n-1` extends them to `0..n+m-1`. -/
theorem bindAll_indexedFrom : ∀ (ws vs : List GoValue),
    bindAll (indexedFrom 0 vs) ws = indexedFrom 0 (vs ++ ws) := by
  intro ws
  induction ws with
  | nil => intro vs; simp [bindAll]
  | cons w ws ih =>
    intro vs
    have hstep : mapAssign (indexedFrom 0 vs) ((indexedFrom 0 vs).length : Nat) w
        = indexedFrom 0 (vs ++ [w]) := by
      rw [indexedFrom_snoc, indexedFrom_length, mapAssign_fresh]
      · simp
      · intro kv hkv
        have := indexedFrom_key_lt vs 0 kv hkv
        omega
    have : bindAll (indexedFrom 0 vs) (w :: ws)
        = bindAll (mapAssign (indexedFrom 0 vs) ((indexedFrom 0 vs).length : Nat) w) ws := by
      simp [bindAll]
    rw [this, hstep, ih]
    simp

theorem set_length_append (pre : List GoValue) (x v : GoValue) (rest : List GoValue) :
    (pre ++ x :: rest).set pre.length v = pre ++ v :: rest := by
  induction pre with
  | nil => rfl
  | cons a pre ih => simp [ih]

theorem fill_indexedFrom : ∀ (vs pre : List GoValue),
    (indexedFrom pre.length vs).foldlM
      (fun (params : List GoValue) (kv : Int × GoValue) =>
        if 0 ≤ kv.1 ∧ kv.1 < (params.length : Int) then
          (Except.ok (params.set kv.1.toNat kv.2) : Except Panic (List GoValue))
        else .error "index out of range")
      (pre ++ List.replicate vs.length GoValue.nil) = .ok (pre ++ vs) := by
  intro vs
  induction vs with
  | nil => intro pre; simp [indexedFrom, pure, Except.pure]
  | cons v vs ih =>
    intro pre
    have hlt : (pre.length : Int) < ((pre ++ List.replicate (v :: vs).length GoValue.nil).length : Int) := by
      simp only [List.length_append, List.length_replicate, List.length_cons]
      omega
    have hset : (pre ++ List.replicate (v :: vs).length GoValue.nil).set pre.length v
        = (pre ++ [v]) ++ List.replicate vs.length GoValue.nil := by
      simp only [List.length_cons, List.replicate_succ]
      rw [set_length_append]
      simp
    have hih := ih (pre ++ [v])
    simp only [List.length_append, List.length_singleton] at hih
    simp only [indexedFrom, List.foldlM_cons, Int.natCast_nonneg, hlt, and_self, if_true,
      Int.toNat_ofNat, hset, bind, Except.bind]
    rw [hih]
    simp

/-- With keys `0..n-1` the slice is the values in key order. -/
theorem GetParameterList_indexedFrom {sq : SqlQuery} {vs : List GoValue}
    (h : sq.Parameters = indexedFrom 0 vs) : GetParameterList sq = .ok vs := by
  unfold GetParameterList
  rw [h, indexedFrom_length]
  have := fill_indexedFrom vs []
  simpa using this

/-! ## Parameters of a compiled filter -/

theorem compiledLeaves_of_isLogicalTree {t : Expression} (h : isLogicalTree t = true) :
    compiledLeaves t = leavesInOrder t := by
  have key : ∀ x : Expression, isLogicalTree x = true → visitedLeaves x = leavesInOrder x := by
    intro x
    induction x with
    | LogicalExpression l op r ihl ihr =>
      intro hx
      simp only [isLogicalTree, Bool.and_eq_true] at hx
      simp [visitedLeaves, leavesInOrder, ihl hx.1, ihr hx.2]
    | AttributeExpression e => intro _; rfl
    | ValuePath p vf _ => intro hx; simp [isLogicalTree] at hx
    | NotExpression x _ => intro hx; simp [isLogicalTree] at hx
  cases t with
  | LogicalExpression l op r => exact key _ h
  | AttributeExpression e => rfl
  | ValuePath p vf => simp [isLogicalTree] at h
  | NotExpression x => simp [isLogicalTree] at h

theorem wellFormed_operandAt {t : Expression} (h : wellFormed t = true) :
    wellFormed (operandAt t) = true := by
  cases t <;> simpa [operandAt, wellFormed] using h

theorem compiledLeaves_eq (t : Expression) : compiledLeaves t = visitedLeaves (operandAt t) := by
  cases t <;> rfl

theorem visitedLeaves_operator : ∀ (x : Expression), wellFormed x = true →
    ∀ e ∈ visitedLeaves x, e.Operator ∈ compareOperators := by
  intro x
  induction x with
  | LogicalExpression l op r ihl ihr =>
    intro hx e he
    simp only [wellFormed, Bool.and_eq_true, decide_eq_true_eq] at hx
    simp only [visitedLeaves, List.mem_append] at he
    rcases he with he | he
    · exact ihl hx.1.2 e he
    · exact ihr hx.2 e he
  | AttributeExpression a =>
    intro hx e he
    simp only [wellFormed, decide_eq_true_eq] at hx
    simp only [visitedLeaves, List.mem_singleton] at he
    rw [he]; exact hx
  | ValuePath p vf _ => intro _ e he; simp [visitedLeaves] at he
  | NotExpression x _ => intro _ e he; simp [visitedLeaves] at he

/-- The parameter map of a compiled filter: the bound values of the compiled
leaves under the keys `0, 1, ...`. -/
theorem ParseScimParams_parameters {parentOf : AttributePath → Expression → String}
    {params : ListRequestParams} {fieldMappings : Nat → List MappingEntry}
    {orderField orderDirection : String} {t : Expression} {q : SqlQuery}
    (hf : params.Filter = some t) (hwf : wellFormed t = true)
    (h : ParseScimParams parentOf params fieldMappings orderField orderDirection
          = .ok (some q, none)) :
    q.Parameters = indexedFrom 0 (boundValues (compiledLeaves t)) := by
  obtain ⟨sq1, hrun, hE, hq⟩ := ParseScimParams_ok hf h
  have hp := rightOperand_params _ _ _ (wellFormed_operandAt hwf) hrun hE
  rw [hq, compiledLeaves_eq]
  simp only [hp, initialQuery]
  have := bindAll_indexedFrom (boundValues (visitedLeaves (operandAt t))) []
  simpa [indexedFrom] using this

theorem binding_iff_not_pr {o : String} (h : o ∈ compareOperators) :
    o ∈ bindingOperators ↔ o ≠ "pr" := by
  simp only [compareOperators, List.mem_cons, List.mem_singleton, List.not_mem_nil,
    or_false] at h
  rcases h with h | h | h | h | h | h | h | h | h | h <;> subst h <;> decide

theorem boundValues_length {es : List AttributeExpression}
    (h : ∀ e ∈ es, e.Operator ∈ compareOperators) :
    (boundValues es).length
      = es.countP (fun e => decide (e.Operator ∈ bindingOperators)) := by
  unfold boundValues
  rw [List.length_map, ← List.countP_eq_length_filter]
  apply List.countP_congr
  intro e he
  simp only [decide_eq_true_eq]
  exact (binding_iff_not_pr (h e he)).symm

/-! ## A mapped leaf returns -/

theorem buildAttributeExpression_presence {parent token col typ f : String}
    {e : AttributeExpression} {sq : SqlQuery}
    (hmap : findSqlField parent e.AttributePath (sq.fieldMappings 0) = .ok (col, typ))
    (hcol : col ≠ "") (hf : sq.Filter = some f) (hpr : e.Operator = "pr") :
    buildAttributeExpression parent e token sq
      = .ok { afterLookup sq with
          Filter := some (f ++ (" (" ++ col ++ " IS NOT NULL) " ++ ToUpper token)) } := by
  unfold buildAttributeExpression
  simp only [hmap, hcol, if_false, hpr, ne_eq, not_true_eq_false]
  rw [WriteString_some _ (f := f) (by exact hf), presence_fragment]
  rfl

theorem buildAttributeExpression_binding {parent token col typ f : String}
    {e : AttributeExpression} {sq : SqlQuery} {val : GoValue}
    (hmap : findSqlField parent e.AttributePath (sq.fieldMappings 0) = .ok (col, typ))
    (hcol : col ≠ "") (hf : sq.Filter = some f) (hpr : e.Operator ≠ "pr")
    (hval : sqlValueOf typ (matchingOpByScimOp (ToLower e.Operator)) e.CompareValue = .ok val) :
    buildAttributeExpression parent e token sq
      = .ok { afterLookup sq with
          Filter := some (f ++ (" (" ++ col ++ " " ++ scimOpMap (ToLower e.Operator)
                      ++ " ?) " ++ ToUpper token))
          Parameters := mapAssign sq.Parameters sq.Parameters.length val } := by
  unfold buildAttributeExpression
  simp only [hmap, hcol, if_false, hpr, ne_eq, not_false_eq_true, if_true, hval]
  rw [WriteString_some _ (f := f) (by exact hf)]
  rfl

theorem operatorTable_scimOpMap {o s : String} (h : (o, s) ∈ operatorTable) :
    scimOpMap (ToLower o) = s ∧ o ≠ "pr" := by
  simp only [operatorTable, List.mem_cons, List.mem_singleton, Prod.mk.injEq,
    List.not_mem_nil, or_false] at h
  rcases h with h | h | h | h | h | h | h | h | h <;> obtain ⟨ho, hs⟩ := h <;>
    subst ho <;> subst hs <;> decide

/-! ## Invariants of the visitor -/

/-- A property of the context that every write of a delimiter or connective
and every leaf keeps is kept by the whole visit of an operand, whether the
visit ends with an error recorded or not. -/
theorem rightOperand_invariant {I : SqlQuery → Prop} {parent : String}
    (hw : ∀ (sq : SqlQuery) (f s : String), s ∈ [" ( ", " ) ", " and ", " or "] → I sq →
      sq.Filter = some f → I { sq with Filter := some (f ++ s) })
    (hleaf : ∀ (e : AttributeExpression) (token : String) (sq sq1 : SqlQuery),
      token ∈ [" ", "and", "or"] → e.Operator ∈ compareOperators → I sq →
      buildAttributeExpression parent e token sq = .ok sq1 → I sq1) :
    ∀ (x : Expression) (s s1 : SqlQuery), wellFormed x = true → I s →
      rightOperand parent x s = .ok s1 → I s1 := by
  intro x
  induction x with
  | AttributeExpression e =>
    intro s s1 hwf hI h
    simp only [wellFormed, decide_eq_true_eq] at hwf
    exact hleaf e " " s s1 (by simp) hwf hI h
  | ValuePath p vf _ =>
    intro s s1 _ hI h
    simp only [rightOperand, Except.ok.injEq] at h
    exact h ▸ hI
  | NotExpression x _ =>
    intro s s1 _ hI h
    simp only [rightOperand, Except.ok.injEq] at h
    exact h ▸ hI
  | LogicalExpression l op r ihl ihr =>
    intro s s1 hwf hI h
    simp only [wellFormed, Bool.and_eq_true, decide_eq_true_eq] at hwf
    obtain ⟨⟨hop, hwl⟩, hwr⟩ := hwf
    simp only [logicalOperators, List.mem_cons, List.mem_singleton, List.not_mem_nil,
      or_false] at hop
    obtain ⟨f, sL, hf, hl, hrest⟩ := buildLogicalExpression_cases h
    have hI0 := hw s f " ( " (by simp) hI hf
    have hIL : I sL := by
      rcases leftOperand_cases hl with ⟨a, o, b, -, s2, g2, hrun, hg2, hs2⟩ | ⟨e, hle, hrun⟩ | ⟨-, -, hs⟩
      · have hI2 := ihl _ s2 hwl hI0 hrun
        rw [hs2]
        rcases hop with hop | hop <;> subst hop
        · exact hw s2 g2 " and " (by simp) hI2 hg2
        · exact hw s2 g2 " or " (by simp) hI2 hg2
      · subst hle
        simp only [wellFormed, decide_eq_true_eq] at hwl
        refine hleaf e op _ sL ?_ hwl hI0 hrun
        rcases hop with hop | hop <;> subst hop <;> simp
      · exact hs ▸ hI0
    rcases hrest with ⟨-, hsq⟩ | ⟨-, sR, g, hr, hg, hsq⟩
    · exact hsq ▸ hIL
    · have hIR := ihr sL sR hwr hIL hr
      rw [hsq]
      exact hw sR g " ) " (by simp) hIR hg

theorem placeholders_append (a b : String) :
    placeholders (a ++ b) = placeholders a + placeholders b := by
  simp [placeholders, String.data_append, List.count_append]

theorem placeholders_scimOpMap (o : String) : placeholders (scimOpMap o) = 0 := by
  unfold scimOpMap
  split_ifs <;> decide

/-- The column found by the lookup loop is empty or the column of an entry. -/
theorem findSqlField_mem {parent : String} {path : AttributePath} :
    ∀ (entries : List MappingEntry) (col typ : String),
      findSqlField parent path entries = .ok (col, typ) →
      col = "" ∨ ∃ kv ∈ entries, kv.2.MappingValue = col ∧ kv.2.DataType = typ := by
  intro entries
  induction entries with
  | nil =>
    intro col typ h
    simp only [findSqlField, Except.ok.injEq, Prod.mk.injEq] at h
    exact Or.inl h.1.symm
  | cons hd tl ih =>
    intro col typ h
    obtain ⟨k, v⟩ := hd
    simp only [findSqlField] at h
    cases hm : entryMatches parent path k with
    | error p => simp [hm] at h
    | ok b =>
      cases b with
      | true =>
        simp only [hm, Except.ok.injEq, Prod.mk.injEq] at h
        exact Or.inr ⟨(k, v), List.mem_cons_self _ _, h.1, h.2⟩
      | false =>
        simp only [hm] at h
        rcases ih col typ h with h0 | ⟨kv, hkv, hcol⟩
        · exact Or.inl h0
        · exact Or.inr ⟨kv, List.mem_cons_of_mem _ hkv, hcol⟩

theorem Aligned_write (sq : SqlQuery) (f s : String)
    (hs : s ∈ [" ( ", " ) ", " and ", " or "]) (hI : Aligned sq) (hf : sq.Filter = some f) :
    Aligned { sq with Filter := some (f ++ s) } := by
  obtain ⟨hcols, vs, f0, hps, hf0, hcount⟩ := hI
  have hff : f0 = f := by rw [hf0] at hf; exact Option.some.inj hf
  subst hff
  have hzero : placeholders s = 0 := by
    simp only [List.mem_cons, List.mem_singleton, List.not_mem_nil, or_false] at hs
    rcases hs with h | h | h | h <;> subst h <;> decide
  refine ⟨hcols, vs, f0 ++ s, hps, rfl, ?_⟩
  rw [placeholders_append, hzero, hcount]
  rfl

theorem Aligned_leaf {parent : String} (e : AttributeExpression) (token : String)
    (sq sq1 : SqlQuery) (ht : token ∈ [" ", "and", "or"]) (_ : e.Operator ∈ compareOperators)
    (hI : Aligned sq) (h : buildAttributeExpression parent e token sq = .ok sq1) :
    Aligned sq1 := by
  obtain ⟨hcols, vs, f0, hps, hf0, hcount⟩ := hI
  have htok : placeholders (ToUpper token) = 0 := by
    simp only [List.mem_cons, List.mem_singleton, List.not_mem_nil, or_false] at ht
    rcases ht with h | h | h <;> subst h <;> decide
  have hshift : ∀ n, ∀ kv ∈ (afterLookup sq).fieldMappings n,
      placeholders kv.2.MappingValue = 0 := fun n kv hkv => hcols (n + 1) kv hkv
  have h1 : placeholders " (" = 0 := by decide
  have h2 : placeholders " " = 0 := by decide
  have h3 : placeholders ") " = 0 := by decide
  have h4 : placeholders " ?) " = 1 := by decide
  obtain ⟨col, typ, hfind, hc | hc | hc⟩ := buildAttributeExpression_cases h
  · obtain ⟨-, hsq⟩ := hc
    rw [hsq]
    exact ⟨hshift, vs, f0, hps, hf0, hcount⟩
  · obtain ⟨hcol, -, f, hf, hsq⟩ := hc
    have hff : f0 = f := by rw [hf0] at hf; exact Option.some.inj hf
    subst hff
    have hcolq : placeholders col = 0 := by
      rcases findSqlField_mem _ _ _ hfind with h0 | ⟨kv, hkv, hkc, -⟩
      · exact absurd h0 hcol
      · rw [← hkc]; exact hcols 0 kv hkv
    rw [hsq]
    refine ⟨hshift, vs, _, hps, rfl, ?_⟩
    simp only [placeholders_append, hcolq, htok, placeholders_scimOpMap, hcount]
    omega
  · obtain ⟨hcol, -, f, val, hf, -, hsq⟩ := hc
    have hff : f0 = f := by rw [hf0] at hf; exact Option.some.inj hf
    subst hff
    have hcolq : placeholders col = 0 := by
      rcases findSqlField_mem _ _ _ hfind with h0 | ⟨kv, hkv, hkc, -⟩
      · exact absurd h0 hcol
      · rw [← hkc]; exact hcols 0 kv hkv
    rw [hsq]
    refine ⟨hshift, vs ++ [val], _, ?_, rfl, ?_⟩
    · have := bindAll_indexedFrom [val] vs
      simp only [bindAll, List.foldl_cons, List.foldl_nil] at this
      simpa [hps] using this
    · simp only [placeholders_append, hcolq, htok, placeholders_scimOpMap, hcount,
        List.length_append, List.length_singleton]
      omega

/-! ## Nesting of parentheses -/

theorem prefix_append_cases {p a b : List Char} (h : p <+: a ++ b) :
    p <+: a ∨ ∃ q, q <+: b ∧ p = a ++ q := by
  rcases List.prefix_or_prefix_of_prefix h (List.prefix_append a b) with hpa | hap
  · exact Or.inl hpa
  · obtain ⟨q, hq⟩ := hap
    right
    refine ⟨q, ?_, hq.symm⟩
    rw [← hq] at h
    exact (List.prefix_append_right_inj a).mp h

theorem parenFree_prefix {p x : List Char} (hx : parenFree x) (hp : p <+: x) : parenFree p := by
  have h1 := hp.count_le '('
  have h2 := hp.count_le ')'
  unfold parenFree at *
  omega

theorem parenFree_append {x y : List Char} (hx : parenFree x) (hy : parenFree y) :
    parenFree (x ++ y) := by
  unfold parenFree at *
  simp only [List.count_append]
  omega

theorem NestedParens_parenFree {x : List Char} (hx : parenFree x) : NestedParens 0 x := by
  refine ⟨?_, ?_, [], List.nil_prefix, rfl⟩
  · intro p hp
    have := parenFree_prefix hx hp
    unfold parenFree at this
    omega
  · unfold parenFree at hx
    omega

theorem NestedParens_plain_left {n : Nat} {x a : List Char} (hx : parenFree x)
    (ha : NestedParens n a) : NestedParens n (x ++ a) := by
  obtain ⟨hpre, htot, p0, hp0, hmax⟩ := ha
  have hx0 := hx
  unfold parenFree at hx0
  refine ⟨?_, ?_, x ++ p0, (List.prefix_append_right_inj x).mpr hp0, ?_⟩
  · intro p hp
    rcases prefix_append_cases hp with h | ⟨q, hq, rfl⟩
    · have := parenFree_prefix hx h
      unfold parenFree at this
      omega
    · have := hpre q hq
      simp only [List.count_append]
      omega
  · simp only [List.count_append]
    omega
  · simp only [List.count_append]
    omega

theorem NestedParens_plain_right {n : Nat} {x a : List Char} (hx : parenFree x)
    (ha : NestedParens n a) : NestedParens n (a ++ x) := by
  obtain ⟨hpre, htot, p0, hp0, hmax⟩ := ha
  have hx0 := hx
  unfold parenFree at hx0
  refine ⟨?_, ?_, p0, hp0.trans (List.prefix_append a x), hmax⟩
  · intro p hp
    rcases prefix_append_cases hp with h | ⟨q, hq, rfl⟩
    · exact hpre p h
    · have := parenFree_prefix hx hq
      unfold parenFree at this
      simp only [List.count_append]
      omega
  · simp only [List.count_append]
    omega

theorem NestedParens_append {m n : Nat} {a b : List Char} (ha : NestedParens m a)
    (hb : NestedParens n b) : NestedParens (max m n) (a ++ b) := by
  obtain ⟨hprea, htota, pa, hpa, hmaxa⟩ := ha
  obtain ⟨hpreb, htotb, pb, hpb, hmaxb⟩ := hb
  refine ⟨?_, ?_, ?_⟩
  · intro p hp
    rcases prefix_append_cases hp with h | ⟨q, hq, rfl⟩
    · have := hprea p h
      omega
    · have := hpreb q hq
      simp only [List.count_append]
      omega
  · simp only [List.count_append]
    omega
  · rcases Nat.le_total m n with hmn | hnm
    · refine ⟨a ++ pb, (List.prefix_append_right_inj a).mpr hpb, ?_⟩
      simp only [List.count_append]
      omega
    · refine ⟨pa, hpa.trans (List.prefix_append a b), ?_⟩
      omega

theorem NestedParens_wrap {n : Nat} {a : List Char} (ha : NestedParens n a) :
    NestedParens (n + 1) ('(' :: (a ++ [')'])) := by
  obtain ⟨hpre, htot, p0, hp0, hmax⟩ := ha
  have hopen : List.count '(' ['('] = 1 ∧ List.count ')' ['('] = 0 := by decide
  have hclose : List.count '(' [')'] = 0 ∧ List.count ')' [')'] = 1 := by decide
  have hshape : ∀ l : List Char, '(' :: l = ['('] ++ l := fun _ => rfl
  refine ⟨?_, ?_, '(' :: p0, ?_, ?_⟩
  · intro p hp
    rw [hshape] at hp
    rcases prefix_append_cases hp with h | ⟨q, hq, rfl⟩
    · have h1 := h.count_le '('
      have h2 := h.count_le ')'
      omega
    · rcases prefix_append_cases hq with h | ⟨r, hr, rfl⟩
      · have := hpre q h
        simp only [List.count_append]
        omega
      · have h1 := hr.count_le '('
        have h2 := hr.count_le ')'
        simp only [List.count_append]
        omega
  · rw [hshape]
    simp only [List.count_append]
    omega
  · exact (List.prefix_cons_inj '(').mpr (hp0.trans (List.prefix_append a [')']))
  · rw [hshape]
    simp only [List.count_append]
    omega

theorem parenFree_scimOpMap (o : String) : parenFree (scimOpMap o).data := by
  unfold scimOpMap
  split_ifs <;> exact ⟨by decide, by decide⟩

theorem parenFree_token {token : String} (h : token ∈ [" ", "and", "or"]) :
    parenFree (ToUpper token).data := by
  simp only [List.mem_cons, List.mem_singleton, List.not_mem_nil, or_false] at h
  rcases h with h | h | h <;> subst h <;> exact ⟨by decide, by decide⟩

/-- Both fragments a leaf can write nest one deep. -/
theorem NestedParens_fragment {col sqlop tail : String} (mark : List Char)
    (hcol : parenFree col.data) (hop : parenFree sqlop.data) (htail : parenFree tail.data)
    (hmark : parenFree mark) (text : String)
    (htext : text.data
      = [' ', '('] ++ col.data ++ [' '] ++ sqlop.data ++ mark ++ [')', ' '] ++ tail.data) :
    NestedParens 1 text.data := by
  have hblank : parenFree [' '] := ⟨by decide, by decide⟩
  have hinner : parenFree (col.data ++ [' '] ++ sqlop.data ++ mark) :=
    parenFree_append (parenFree_append (parenFree_append hcol hblank) hop) hmark
  have hwrap := NestedParens_wrap (NestedParens_parenFree hinner)
  have h1 := NestedParens_plain_left hblank hwrap
  have h2 := NestedParens_plain_right (parenFree_append hblank htail) h1
  have hshape : text.data
      = [' '] ++ ('(' :: (col.data ++ [' '] ++ sqlop.data ++ mark ++ [')'])) ++ ([' '] ++ tail.data) := by
    rw [htext]
    simp
  rw [hshape]
  simpa using h2

theorem ColumnsParenFree_write (sq : SqlQuery) (f s : String)
    (_ : s ∈ [" ( ", " ) ", " and ", " or "]) (hI : ColumnsParenFree sq)
    (_ : sq.Filter = some f) : ColumnsParenFree { sq with Filter := some (f ++ s) } := hI

theorem ColumnsParenFree_leaf {parent : String} (e : AttributeExpression) (token : String)
    (sq sq1 : SqlQuery) (_ : token ∈ [" ", "and", "or"]) (_ : e.Operator ∈ compareOperators)
    (hI : ColumnsParenFree sq) (h : buildAttributeExpression parent e token sq = .ok sq1) :
    ColumnsParenFree sq1 := by
  have hshift : ColumnsParenFree (afterLookup sq) := fun n kv hkv => hI (n + 1) kv hkv
  obtain ⟨col, typ, -, hc | hc | hc⟩ := buildAttributeExpression_cases h
  · rw [hc.2]; exact hshift
  · obtain ⟨-, -, f, -, hsq⟩ := hc
    rw [hsq]; exact hshift
  · obtain ⟨-, -, f, val, -, -, hsq⟩ := hc
    rw [hsq]; exact hshift

/-- The text of a leaf compiled without error nests one deep. -/
theorem buildAttributeExpression_nested {parent token f : String} {e : AttributeExpression}
    {sq sq1 : SqlQuery} (ht : token ∈ [" ", "and", "or"]) (hI : ColumnsParenFree sq)
    (hf : sq.Filter = some f) (h : buildAttributeExpression parent e token sq = .ok sq1)
    (hE : sq1.Error = none) :
    ∃ txt : String, sq1.Filter = some (f ++ txt) ∧ NestedParens 1 txt.data := by
  obtain ⟨col, typ, hfind, hc | hc | hc⟩ := buildAttributeExpression_cases h
  · rw [hc.2] at hE
    simp at hE
  · obtain ⟨hcol, -, f2, hf2, hsq⟩ := hc
    have hff : f2 = f := by rw [hf2] at hf; exact Option.some.inj hf
    subst hff
    have hcolp : parenFree col.data := by
      rcases findSqlField_mem _ _ _ hfind with h0 | ⟨kv, hkv, hkc, -⟩
      · exact absurd h0 hcol
      · rw [← hkc]; exact hI 0 kv hkv
    refine ⟨_, by rw [hsq], ?_⟩
    refine NestedParens_fragment [] hcolp (parenFree_scimOpMap (ToLower e.Operator)) (parenFree_token ht)
      ⟨by decide, by decide⟩ _ ?_
    simp [String.data_append]
  · obtain ⟨hcol, -, f2, val, hf2, -, hsq⟩ := hc
    have hff : f2 = f := by rw [hf2] at hf; exact Option.some.inj hf
    subst hff
    have hcolp : parenFree col.data := by
      rcases findSqlField_mem _ _ _ hfind with h0 | ⟨kv, hkv, hkc, -⟩
      · exact absurd h0 hcol
      · rw [← hkc]; exact hI 0 kv hkv
    refine ⟨_, by rw [hsq], ?_⟩
    refine NestedParens_fragment [' ', '?'] hcolp (parenFree_scimOpMap (ToLower e.Operator)) (parenFree_token ht)
      ⟨by decide, by decide⟩ _ ?_
    simp [String.data_append]

theorem leftOperand_invariant {I : SqlQuery → Prop} {parent : String}
    (hw : ∀ (sq : SqlQuery) (f s : String), s ∈ [" ( ", " ) ", " and ", " or "] → I sq →
      sq.Filter = some f → I { sq with Filter := some (f ++ s) })
    (hleaf : ∀ (e : AttributeExpression) (token : String) (sq sq1 : SqlQuery),
      token ∈ [" ", "and", "or"] → e.Operator ∈ compareOperators → I sq →
      buildAttributeExpression parent e token sq = .ok sq1 → I sq1)
    {l : Expression} {op : String} {s sL : SqlQuery} (hop : op ∈ logicalOperators)
    (hwl : wellFormed l = true) (hI : I s) (h : leftOperand parent l op s = .ok sL) : I sL := by
  simp only [logicalOperators, List.mem_cons, List.mem_singleton, List.not_mem_nil,
    or_false] at hop
  rcases leftOperand_cases h with ⟨a, o, b, -, s2, g2, hrun, hg2, hs2⟩ | ⟨e, hle, hrun⟩ | ⟨-, -, hs⟩
  · have hI2 := rightOperand_invariant hw hleaf _ _ s2 hwl hI hrun
    rw [hs2]
    rcases hop with hop | hop <;> subst hop
    · exact hw s2 g2 " and " (by simp) hI2 hg2
    · exact hw s2 g2 " or " (by simp) hI2 hg2
  · subst hle
    simp only [wellFormed, decide_eq_true_eq] at hwl
    refine hleaf e op _ sL ?_ hwl hI hrun
    rcases hop with hop | hop <;> subst hop <;> simp
  · exact hs ▸ hI

/-- The text of an operand compiled without error has balanced parentheses
nested as deep as the operand. -/
theorem rightOperand_nested {parent : String} : ∀ (x : Expression) (s s1 : SqlQuery)
    (f : String), isLogicalTree x = true → wellFormed x = true → ColumnsParenFree s →
    s.Filter = some f → rightOperand parent x s = .ok s1 → s1.Error = none →
    ∃ txt : String, s1.Filter = some (f ++ txt) ∧ NestedParens (treeDepth x) txt.data := by
  intro x
  induction x with
  | AttributeExpression e =>
    intro s s1 f _ _ hI hf h hE
    exact buildAttributeExpression_nested (by simp) hI hf h hE
  | ValuePath p vf _ => intro s s1 f ht; simp [isLogicalTree] at ht
  | NotExpression x _ => intro s s1 f ht; simp [isLogicalTree] at ht
  | LogicalExpression l op r ihl ihr =>
    intro s s1 f ht hwf hI hf h hE
    simp only [isLogicalTree, Bool.and_eq_true] at ht
    simp only [wellFormed, Bool.and_eq_true, decide_eq_true_eq] at hwf
    obtain ⟨⟨hop, hwl⟩, hwr⟩ := hwf
    obtain ⟨f2, sL, hf2, hl, hstop | hgo⟩ := buildLogicalExpression_cases h
    · obtain ⟨hsome, hsq⟩ := hstop
      rw [← hsq, hE] at hsome
      simp at hsome
    · obtain ⟨hLE, sR, g, hr, hg, hsq⟩ := hgo
      have hff : f2 = f := by rw [hf2] at hf; exact Option.some.inj hf
      subst hff
      have hI0 : ColumnsParenFree { s with Filter := some (f2 ++ " ( ") } := hI
      have hop2 := hop
      simp only [logicalOperators, List.mem_cons, List.mem_singleton, List.not_mem_nil,
        or_false] at hop2
      -- the left operand and the connective
      have hleft : ∃ tl : String, sL.Filter = some (f2 ++ " ( " ++ tl) ∧
          NestedParens (treeDepth l) tl.data := by
        rcases leftOperand_cases hl with ⟨a, o, b, -, s2, g2, hrun, hg2, hs2⟩ | ⟨e, hle, hrun⟩ | ⟨hnot, -, -⟩
        · have hE2 : s2.Error = none := by rw [hs2] at hLE; exact hLE
          obtain ⟨tl, htl, hnest⟩ := ihl _ s2 (f2 ++ " ( ") ht.1 hwl hI0 rfl hrun hE2
          have hgg : g2 = f2 ++ " ( " ++ tl := by rw [hg2] at htl; exact Option.some.inj htl
          refine ⟨tl ++ (" " ++ op ++ " "), ?_, ?_⟩
          · rw [hs2, hgg]
            simp only [String.append_assoc]
          · rw [String.data_append]
            refine NestedParens_plain_right ?_ hnest
            rcases hop2 with hop2 | hop2 <;> subst hop2 <;> exact ⟨by decide, by decide⟩
        · subst hle
          have htok : op ∈ [" ", "and", "or"] := by
            rcases hop2 with hop2 | hop2 <;> subst hop2 <;> simp
          exact buildAttributeExpression_nested htok hI0 rfl hrun hLE
        · have ht1 := ht.1
          cases l <;> simp [isLogicalOrLeaf, isLogicalTree] at hnot ht1
      obtain ⟨tl, htl, hnl⟩ := hleft
      have hIL : ColumnsParenFree sL :=
        leftOperand_invariant ColumnsParenFree_write ColumnsParenFree_leaf hop hwl hI0 hl
      have hRE : sR.Error = none := by rw [hsq] at hE; exact hE
      obtain ⟨tr, htr, hnr⟩ := ihr sL sR _ ht.2 hwr hIL htl hr hRE
      have hgg : g = f2 ++ " ( " ++ tl ++ tr := by rw [hg] at htr; exact Option.some.inj htr
      refine ⟨" ( " ++ (tl ++ tr) ++ " ) ", ?_, ?_⟩
      · rw [hsq, hgg]
        simp only [String.append_assoc]
      · have hblank : parenFree [' '] := ⟨by decide, by decide⟩
        have hboth := NestedParens_append hnl hnr
        have hin := NestedParens_plain_right hblank (NestedParens_plain_left hblank hboth)
        have hwrap := NestedParens_wrap hin
        have hout := NestedParens_plain_right hblank (NestedParens_plain_left hblank hwrap)
        have hshape : (" ( " ++ (tl ++ tr) ++ " ) ").data
            = [' '] ++ ('(' :: ([' '] ++ (tl.data ++ tr.data) ++ [' '] ++ [')'])) ++ [' '] := by
          simp [String.data_append]
        rw [hshape]
        have hdepth : treeDepth (.LogicalExpression l op r)
            = max (treeDepth l) (treeDepth r) + 1 := by
          simp only [treeDepth]; omega
        rw [hdepth]
        exact hout

/-! ## Text of a logical node -/

theorem Extends_write (f0 : String) (sq : SqlQuery) (f s : String)
    (_ : s ∈ [" ( ", " ) ", " and ", " or "]) (hI : Extends f0 sq) (hf : sq.Filter = some f) :
    Extends f0 { sq with Filter := some (f ++ s) } := by
  obtain ⟨txt, htxt⟩ := hI
  have hff : f = f0 ++ txt := by rw [hf] at htxt; exact Option.some.inj htxt
  exact ⟨txt ++ s, by simp [hff, String.append_assoc]⟩

theorem Extends_leaf (f0 : String) {parent : String} (e : AttributeExpression) (token : String)
    (sq sq1 : SqlQuery) (_ : token ∈ [" ", "and", "or"]) (_ : e.Operator ∈ compareOperators)
    (hI : Extends f0 sq) (h : buildAttributeExpression parent e token sq = .ok sq1) :
    Extends f0 sq1 := by
  obtain ⟨txt, htxt⟩ := hI
  obtain ⟨col, typ, -, hc | hc | hc⟩ := buildAttributeExpression_cases h
  · rw [hc.2]; exact ⟨txt, htxt⟩
  · obtain ⟨-, -, f, hf, hsq⟩ := hc
    have hff : f = f0 ++ txt := by rw [hf] at htxt; exact Option.some.inj htxt
    rw [hsq, hff]
    exact ⟨txt ++ (" (" ++ col ++ " " ++ scimOpMap (ToLower e.Operator) ++ ") " ++ ToUpper token),
      by simp only [String.append_assoc]⟩
  · obtain ⟨-, -, f, val, hf, -, hsq⟩ := hc
    have hff : f = f0 ++ txt := by rw [hf] at htxt; exact Option.some.inj htxt
    rw [hsq, hff]
    exact ⟨txt ++ (" (" ++ col ++ " " ++ scimOpMap (ToLower e.Operator) ++ " ?) " ++ ToUpper token),
      by simp only [String.append_assoc]⟩

/-- A leaf compiled without error under the trailing token `token` is the leaf
compiled under the empty token, followed by the upper-cased token. -/
theorem buildAttributeExpression_token {parent token f : String} {e : AttributeExpression}
    {sq sq1 : SqlQuery} (hf : sq.Filter = some f)
    (h : buildAttributeExpression parent e token sq = .ok sq1) (hE : sq1.Error = none) :
    ∃ (s0 : SqlQuery) (txt : String), buildAttributeExpression parent e "" sq = .ok s0 ∧
      s0.Filter = some (f ++ txt) ∧
      sq1 = { s0 with Filter := some (f ++ txt ++ ToUpper token) } := by
  have hempty : ToUpper "" = "" := rfl
  obtain ⟨col, typ, hfind, hc | hc | hc⟩ := buildAttributeExpression_cases h
  · rw [hc.2] at hE
    simp at hE
  · obtain ⟨hcol, hpr, f2, hf2, hsq⟩ := hc
    have hff : f2 = f := by rw [hf2] at hf; exact Option.some.inj hf
    subst hff
    refine ⟨_, " (" ++ col ++ " IS NOT NULL) ", buildAttributeExpression_presence hfind hcol hf hpr,
      ?_, ?_⟩
    · simp [hempty]
    · rw [hsq, hpr, presence_fragment]
      simp [String.append_assoc]
  · obtain ⟨hcol, hpr, f2, val, hf2, hval, hsq⟩ := hc
    have hff : f2 = f := by rw [hf2] at hf; exact Option.some.inj hf
    subst hff
    refine ⟨_, " (" ++ col ++ " " ++ scimOpMap (ToLower e.Operator) ++ " ?) ",
      buildAttributeExpression_binding hfind hcol hf hpr hval, ?_, ?_⟩
    · simp [hempty]
    · rw [hsq]
      simp [String.append_assoc]

/-! ## What the visitor leaves untouched -/

/-- A property of the context kept by every write and by every leaf, whatever
the text and the trailing token, is kept by the visit of any operand. -/
theorem rightOperand_preserves {I : SqlQuery → Prop} {parent : String}
    (hw : ∀ (sq : SqlQuery) (f s : String), I sq → sq.Filter = some f →
      I { sq with Filter := some (f ++ s) })
    (hleaf : ∀ (e : AttributeExpression) (token : String) (sq sq1 : SqlQuery), I sq →
      buildAttributeExpression parent e token sq = .ok sq1 → I sq1) :
    ∀ (x : Expression) (s s1 : SqlQuery), I s → rightOperand parent x s = .ok s1 → I s1 := by
  intro x
  induction x with
  | AttributeExpression e =>
    intro s s1 hI h
    exact hleaf e " " s s1 hI h
  | ValuePath p vf _ =>
    intro s s1 hI h
    simp only [rightOperand, Except.ok.injEq] at h
    exact h ▸ hI
  | NotExpression x _ =>
    intro s s1 hI h
    simp only [rightOperand, Except.ok.injEq] at h
    exact h ▸ hI
  | LogicalExpression l op r ihl ihr =>
    intro s s1 hI h
    obtain ⟨f, sL, hf, hl, hrest⟩ := buildLogicalExpression_cases h
    have hI0 := hw s f " ( " hI hf
    have hIL : I sL := by
      rcases leftOperand_cases hl with ⟨a, o, b, -, s2, g2, hrun, hg2, hs2⟩ | ⟨e, hle, hrun⟩ | ⟨-, -, hs⟩
      · have hI2 := ihl _ s2 hI0 hrun
        rw [hs2]
        exact hw s2 g2 _ hI2 hg2
      · subst hle
        exact hleaf e op _ sL hI0 hrun
      · exact hs ▸ hI0
    rcases hrest with ⟨-, hsq⟩ | ⟨-, sR, g, hr, hg, hsq⟩
    · exact hsq ▸ hIL
    · have hIR := ihr sL sR hIL hr
      rw [hsq]
      exact hw sR g " ) " hIR hg

/-- The visitor never touches the pagination and order clauses. -/
theorem rightOperand_clauses {parent : String} {x : Expression} {s s1 : SqlQuery}
    (h : rightOperand parent x s = .ok s1) :
    s1.Limit = s.Limit ∧ s1.OrderBy = s.OrderBy := by
  refine rightOperand_preserves (I := fun sq => sq.Limit = s.Limit ∧ sq.OrderBy = s.OrderBy)
    ?_ ?_ x s s1 ⟨rfl, rfl⟩ h
  · intro sq f str hI _
    exact hI
  · intro e token sq sq1 hI hrun
    obtain ⟨col, typ, -, hc | hc | hc⟩ := buildAttributeExpression_cases hrun
    · rw [hc.2]; exact hI
    · obtain ⟨-, -, f, -, hsq⟩ := hc
      rw [hsq]; exact hI
    · obtain ⟨-, -, f, val, -, -, hsq⟩ := hc
      rw [hsq]; exact hI

/-- The pagination and order clauses of every query `ParseScimParams` returns
are those of the fresh context. -/
theorem ParseScimParams_clauses {parentOf : AttributePath → Expression → String}
    {params : ListRequestParams} {fieldMappings : Nat → List MappingEntry}
    {orderField orderDirection : String} {q : SqlQuery}
    (h : ParseScimParams parentOf params fieldMappings orderField orderDirection
          = .ok (some q, none)) :
    q.Limit = (initialQuery params fieldMappings orderField orderDirection).Limit ∧
      q.OrderBy = (initialQuery params fieldMappings orderField orderDirection).OrderBy := by
  cases hfilter : params.Filter with
  | none =>
    simp only [ParseScimParams, hfilter, Except.ok.injEq, Prod.mk.injEq, Option.some.injEq,
      and_true] at h
    subst h
    exact ⟨rfl, rfl⟩
  | some t =>
    obtain ⟨sq1, hrun, -, hq⟩ := ParseScimParams_ok hfilter h
    have := rightOperand_clauses hrun
    rw [hq]
    exact this

theorem wrapInt_of_fits {x : Int} (h : -(2 ^ 63) ≤ x ∧ x < 2 ^ 63) : wrapInt x = x := by
  unfold wrapInt
  have h1 : (x + 2 ^ 63) % 2 ^ 64 = x + 2 ^ 63 := by
    apply Int.emod_eq_of_lt <;> omega
  rw [h1]
  omega

/-! ## `GetParameterList` on any enumeration of the map -/

/-- The loop of `GetParameterList` over pairs with distinct keys inside the
slice: every pair lands at its key, every other position is left alone. -/
theorem fill_distinct_keys : ∀ (ps : List (Int × GoValue)) (acc : List GoValue),
    (∀ kv ∈ ps, 0 ≤ kv.1 ∧ kv.1 < (acc.length : Int)) → (ps.map Prod.fst).Nodup →
    ∃ out, ps.foldlM
        (fun (params : List GoValue) (kv : Int × GoValue) =>
          if 0 ≤ kv.1 ∧ kv.1 < (params.length : Int) then
            (Except.ok (params.set kv.1.toNat kv.2) : Except Panic (List GoValue))
          else .error "index out of range") acc = .ok out ∧
      out.length = acc.length ∧
      (∀ kv ∈ ps, out[kv.1.toNat]? = some kv.2) ∧
      (∀ j : Nat, (∀ kv ∈ ps, kv.1.toNat ≠ j) → out[j]? = acc[j]?) := by
  intro ps
  induction ps with
  | nil =>
    intro acc _ _
    exact ⟨acc, rfl, rfl, by simp, fun _ _ => rfl⟩
  | cons hd tl ih =>
    intro acc hrange hnodup
    obtain ⟨k, v⟩ := hd
    have hk := hrange (k, v) (List.mem_cons_self _ _)
    simp only [List.map_cons, List.nodup_cons, List.mem_map, not_exists, not_and] at hnodup
    obtain ⟨hfresh, hnodup⟩ := hnodup
    have hrange2 : ∀ kv ∈ tl, 0 ≤ kv.1 ∧ kv.1 < ((acc.set k.toNat v).length : Int) := by
      intro kv hkv
      rw [List.length_set]
      exact hrange kv (List.mem_cons_of_mem _ hkv)
    obtain ⟨out, hout, hlen, hin, hother⟩ := ih (acc.set k.toNat v) hrange2 hnodup
    have hdiff : ∀ kv ∈ tl, kv.1.toNat ≠ k.toNat := by
      intro kv hkv heq
      have h1 := (hrange kv (List.mem_cons_of_mem _ hkv)).1
      have h2 := hk.1
      apply hfresh kv hkv
      show kv.1 = k
      omega
    refine ⟨out, ?_, ?_, ?_, ?_⟩
    · simp only [List.foldlM_cons, hk, and_self, if_true, bind, Except.bind]
      exact hout
    · rw [hlen, List.length_set]
    · intro kv hkv
      rcases List.mem_cons.mp hkv with h | h
      · subst h
        rw [hother k.toNat hdiff]
        have hlt : k.toNat < acc.length := by omega
        simp [hlt]
      · exact hin kv h
    · intro j hj
      have hjk : k.toNat ≠ j := hj (k, v) (List.mem_cons_self _ _)
      rw [hother j (fun kv hkv => hj kv (List.mem_cons_of_mem _ hkv))]
      simp [hjk]

/-! ## Runs that enumerate the table in different orders -/

theorem findSqlField_no_match {parent : String} {path : AttributePath} :
    ∀ (l : List MappingEntry), (∀ kv ∈ l, entryMatches parent path kv.1 = .ok false) →
      findSqlField parent path l = .ok ("", "") := by
  intro l
  induction l with
  | nil => intro _; rfl
  | cons hd tl ih =>
    intro h
    obtain ⟨k, v⟩ := hd
    have hk := h (k, v) (List.mem_cons_self _ _)
    simp only at hk
    simp only [findSqlField, hk]
    exact ih (fun kv hkv => h kv (List.mem_cons_of_mem _ hkv))

theorem findSqlField_match {parent : String} {path : AttributePath} :
    ∀ (l : List MappingEntry), (∀ kv ∈ l, ∃ b, entryMatches parent path kv.1 = .ok b) →
      (∀ kv1 ∈ l, ∀ kv2 ∈ l, entryMatches parent path kv1.1 = .ok true →
        entryMatches parent path kv2.1 = .ok true → kv1.2 = kv2.2) →
      ∀ kv ∈ l, entryMatches parent path kv.1 = .ok true →
        findSqlField parent path l = .ok (kv.2.MappingValue, kv.2.DataType) := by
  intro l
  induction l with
  | nil => intro _ _ kv hkv; simp at hkv
  | cons hd tl ih =>
    intro hok hsame kv hkv hm
    obtain ⟨k, v⟩ := hd
    obtain ⟨b, hb⟩ := hok (k, v) (List.mem_cons_self _ _)
    simp only at hb
    cases b with
    | true =>
      have := hsame (k, v) (List.mem_cons_self _ _) kv hkv hb hm
      simp only at this
      simp only [findSqlField, hb, this]
    | false =>
      have hkv2 : kv ∈ tl := by
        rcases List.mem_cons.mp hkv with h | h
        · subst h
          simp only at hm
          rw [hb] at hm
          simp at hm
        · exact h
      simp only [findSqlField, hb]
      exact ih (fun x hx => hok x (List.mem_cons_of_mem _ hx))
        (fun x hx y hy => hsame x (List.mem_cons_of_mem _ hx) y (List.mem_cons_of_mem _ hy))
        kv hkv2 hm

/-- Under `Unambiguous` the lookup loop gives the same answer on every
enumeration of the table. -/
theorem findSqlField_order {table l1 l2 : List MappingEntry} {parent : String}
    {path : AttributePath} (hu : Unambiguous table parent path)
    (h1 : l1.Perm table) (h2 : l2.Perm table) :
    findSqlField parent path l1 = findSqlField parent path l2 := by
  obtain ⟨hok, hsame⟩ := hu
  by_cases hex : ∃ kv ∈ table, entryMatches parent path kv.1 = .ok true
  · obtain ⟨kv, hkv, hm⟩ := hex
    rw [findSqlField_match l1 (fun x hx => hok x (h1.mem_iff.mp hx))
          (fun x hx y hy => hsame x (h1.mem_iff.mp hx) y (h1.mem_iff.mp hy))
          kv (h1.mem_iff.mpr hkv) hm,
        findSqlField_match l2 (fun x hx => hok x (h2.mem_iff.mp hx))
          (fun x hx y hy => hsame x (h2.mem_iff.mp hx) y (h2.mem_iff.mp hy))
          kv (h2.mem_iff.mpr hkv) hm]
  · have hnone : ∀ kv ∈ table, entryMatches parent path kv.1 = .ok false := by
      intro kv hkv
      obtain ⟨b, hb⟩ := hok kv hkv
      cases b with
      | false => exact hb
      | true => exact absurd ⟨kv, hkv, hb⟩ hex
    rw [findSqlField_no_match l1 (fun x hx => hnone x (h1.mem_iff.mp hx)),
        findSqlField_no_match l2 (fun x hx => hnone x (h2.mem_iff.mp hx))]

theorem SameOutcome_WriteString {table : List MappingEntry} {s t : SqlQuery} (str : String)
    (h : SameButOrder table s t) : SameOutcome table (WriteString s str) (WriteString t str) := by
  obtain ⟨hF, hP, hE, hR, hL, hO, h1, h2⟩ := h
  unfold WriteString
  rw [← hF]
  cases s.Filter with
  | none => exact rfl
  | some f => exact ⟨rfl, hP, hE, hR, hL, hO, h1, h2⟩

theorem SameOutcome_bind {table : List MappingEntry} {r r2 : Except Panic SqlQuery}
    {k k2 : SqlQuery → Except Panic SqlQuery} (h : SameOutcome table r r2)
    (hk : ∀ a b, SameButOrder table a b → SameOutcome table (k a) (k2 b)) :
    SameOutcome table (r >>= k) (r2 >>= k2) := by
  cases r with
  | error p =>
    cases r2 with
    | error p2 => exact h
    | ok b => exact h.elim
  | ok a =>
    cases r2 with
    | error p2 => exact h.elim
    | ok b => exact hk a b h

theorem SameOutcome_leaf {table : List MappingEntry} {parent token : String}
    {e : AttributeExpression} {s t : SqlQuery}
    (hu : Unambiguous table parent e.AttributePath) (h : SameButOrder table s t) :
    SameOutcome table (buildAttributeExpression parent e token s)
      (buildAttributeExpression parent e token t) := by
  obtain ⟨hF, hP, hE, hR, hL, hO, h1, h2⟩ := h
  have hfind := findSqlField_order hu (h1 0) (h2 0)
  have hs1 : ∀ n, ((fun n => s.fieldMappings (n + 1)) n).Perm table := fun n => h1 (n + 1)
  have hs2 : ∀ n, ((fun n => t.fieldMappings (n + 1)) n).Perm table := fun n => h2 (n + 1)
  unfold buildAttributeExpression
  rw [← hfind]
  cases findSqlField parent e.AttributePath (s.fieldMappings 0) with
  | error p => exact rfl
  | ok r =>
    obtain ⟨col, typ⟩ := r
    simp only
    by_cases hcol : col = ""
    · simp only [hcol, if_true]
      exact ⟨hF, hP, rfl, hR, hL, hO, hs1, hs2⟩
    · simp only [hcol, if_false]
      by_cases hpr : e.Operator = "pr"
      · simp only [hpr, ne_eq, not_true_eq_false, if_false]
        exact SameOutcome_WriteString _ ⟨hF, hP, hE, hR, hL, hO, hs1, hs2⟩
      · simp only [ne_eq, hpr, not_false_eq_true, if_true]
        cases sqlValueOf typ (matchingOpByScimOp (ToLower e.Operator)) e.CompareValue with
        | error p => exact rfl
        | ok val =>
          simp only [WriteString, ← hF, ← hP]
          cases s.Filter with
          | none => exact rfl
          | some f => exact ⟨rfl, rfl, hE, hR, hL, hO, hs1, hs2⟩

/-- The body of `buildLogicalExpression` as a chain of steps. -/
theorem buildLogicalExpression_bind (parent : String) (l r : Expression) (op : String)
    (sq : SqlQuery) :
    buildLogicalExpression parent (.LogicalExpression l op r) sq =
      (WriteString sq " ( " >>= fun s0 =>
        leftOperand parent l op s0 >>= fun sL =>
          if sL.Error.isSome then .ok sL
          else rightOperand parent r sL >>= fun sR => WriteString sR " ) ") := by
  rw [buildLogicalExpression_eq]
  cases WriteString sq " ( " with
  | error p => rfl
  | ok s0 =>
    simp only [bind, Except.bind]
    cases leftOperand parent l op s0 with
    | error p => rfl
    | ok sL =>
      simp only
      split_ifs
      · rfl
      · cases rightOperand parent r sL <;> rfl

/-- Two runs over the same table end alike on every operand whose leaves have
an unambiguous lookup. -/
theorem SameOutcome_rightOperand {table : List MappingEntry} {parent : String} :
    ∀ (x : Expression) (s t : SqlQuery),
      (∀ e ∈ visitedLeaves x, Unambiguous table parent e.AttributePath) →
      SameButOrder table s t →
      SameOutcome table (rightOperand parent x s) (rightOperand parent x t) := by
  intro x
  induction x with
  | AttributeExpression e =>
    intro s t hu h
    exact SameOutcome_leaf (hu e (by simp [visitedLeaves])) h
  | ValuePath p vf _ => intro s t _ h; exact h
  | NotExpression x _ => intro s t _ h; exact h
  | LogicalExpression l op r ihl ihr =>
    intro s t hu h
    have hul : ∀ e ∈ visitedLeaves l, Unambiguous table parent e.AttributePath :=
      fun e he => hu e (by simp [visitedLeaves, he])
    have hur : ∀ e ∈ visitedLeaves r, Unambiguous table parent e.AttributePath :=
      fun e he => hu e (by simp [visitedLeaves, he])
    have hleft : ∀ a b, SameButOrder table a b →
        SameOutcome table (leftOperand parent l op a) (leftOperand parent l op b) := by
      intro a b hab
      cases l with
      | LogicalExpression l1 o l2 =>
        have hb : ∀ sq, leftOperand parent (.LogicalExpression l1 o l2) op sq
            = (rightOperand parent (.LogicalExpression l1 o l2) sq >>= fun s2 =>
                WriteString s2 (" " ++ op ++ " ")) := by
          intro sq
          simp only [leftOperand, rightOperand, bind, Except.bind]
          cases buildLogicalExpression parent (.LogicalExpression l1 o l2) sq <;> rfl
        rw [hb a, hb b]
        exact SameOutcome_bind (ihl a b hul hab) (fun a2 b2 h2 => SameOutcome_WriteString _ h2)
      | AttributeExpression e =>
        exact SameOutcome_leaf (hul e (by simp [visitedLeaves])) hab
      | ValuePath p vf => exact hab
      | NotExpression y => exact hab
    show SameOutcome table (buildLogicalExpression parent (.LogicalExpression l op r) s)
      (buildLogicalExpression parent (.LogicalExpression l op r) t)
    rw [buildLogicalExpression_bind, buildLogicalExpression_bind]
    refine SameOutcome_bind (SameOutcome_WriteString _ h) (fun a b hab => ?_)
    refine SameOutcome_bind (hleft a b hab) (fun a2 b2 h2 => ?_)
    have hE : a2.Error = b2.Error := h2.2.2.1
    rw [hE]
    by_cases hsome : b2.Error.isSome = true
    · simp only [hsome, if_true]
      exact h2
    · simp only [hsome, Bool.false_eq_true, if_false]
      exact SameOutcome_bind (ihr a2 b2 hur h2) (fun a3 b3 h3 => SameOutcome_WriteString _ h3)

/-- The dispatch of `visitList` on a root that is not a negation. -/
theorem visitList_eq (parentOf : AttributePath → Expression → String) (t : Expression)
    (sq : SqlQuery) (hnot : ∀ x, t ≠ .NotExpression x) :
    visitList parentOf t sq =
      match rightOperand (parentAt parentOf t) (operandAt t) sq with
      | .error p => .error p
      | .ok s =>
        match s.Error with
        | some err => .ok (none, some err)
        | none => .ok (some s, none) := by
  cases t with
  | LogicalExpression l op r => rfl
  | AttributeExpression e => rfl
  | ValuePath p vf => cases vf <;> rfl
  | NotExpression x => exact absurd rfl (hnot x)

/-! ## The mapping builder -/

theorem join_foldl : ∀ (l : List String) (acc : String),
    l.foldl (fun r s => r ++ s) acc = acc ++ String.join l := by
  intro l
  induction l with
  | nil => intro acc; simp [String.join]
  | cons a l ih =>
    intro acc
    have h1 := ih (acc ++ a)
    have h2 := ih ("" ++ a)
    simp only [List.foldl_cons, String.join] at h1 h2 ⊢
    rw [h1, h2]
    simp [String.append_assoc]

theorem join_cons (a : String) (l : List String) :
    String.join (a :: l) = a ++ String.join l := by
  have := join_foldl l ("" ++ a)
  simp only [String.join, List.foldl_cons] at this ⊢
  rw [this]
  simp

/-- The loop of `retrieveValueFromDoc` when every path exists: the text built
so far, followed by the texts of the segments in order. -/
theorem retrieveSegments_found (docJQ : JsonQuery) : ∀ (segs : List String) (acc : String),
    (∀ seg ∈ segs, HasPrefix seg "'" = false →
      (docJQ.Interface (Split seg ".")).isFound = true) →
    retrieveSegments docJQ segs acc
      = .value (acc ++ String.join (segs.map (segmentText docJQ))) := by
  intro segs
  induction segs with
  | nil => intro acc _; simp [retrieveSegments, String.join]
  | cons seg rest ih =>
    intro acc hall
    have hrest : ∀ s ∈ rest, HasPrefix s "'" = false →
        (docJQ.Interface (Split s ".")).isFound = true :=
      fun s hs => hall s (List.mem_cons_of_mem _ hs)
    rw [List.map_cons, join_cons]
    by_cases hq : HasPrefix seg "'" = true
    · simp only [retrieveSegments, hq, if_true, segmentText, TrimLeftChars]
      rw [ih _ hrest, String.append_assoc]
    · have hq2 : HasPrefix seg "'" = false := by simpa using hq
      have hfound := hall seg (List.mem_cons_self _ _) hq2
      simp only [retrieveSegments, hq2, Bool.false_eq_true, if_false, segmentText]
      cases hi : docJQ.Interface (Split seg ".") with
      | missing err => simp [hi, DocLookup.isFound] at hfound
      | found text =>
        simp only
        rw [ih _ hrest, String.append_assoc]

/-- The loop of `retrieveValueFromDoc` fails when a segment that is not a
literal names a path that does not exist. -/
theorem retrieveSegments_missing (docJQ : JsonQuery) : ∀ (segs : List String) (acc : String),
    segs.any (fun seg => !HasPrefix seg "'" && !(docJQ.Interface (Split seg ".")).isFound)
      = true →
    ∃ err, retrieveSegments docJQ segs acc = .failure err := by
  intro segs
  induction segs with
  | nil => intro acc h; simp at h
  | cons seg rest ih =>
    intro acc h
    simp only [List.any_cons, Bool.or_eq_true, Bool.and_eq_true, Bool.not_eq_true'] at h
    by_cases hq : HasPrefix seg "'" = true
    · simp only [retrieveSegments, hq, if_true]
      rcases h with h | h
      · rw [hq] at h; simp at h
      · exact ih _ (by simpa using h)
    · have hq2 : HasPrefix seg "'" = false := by simpa using hq
      simp only [retrieveSegments, hq2, Bool.false_eq_true, if_false]
      cases hi : docJQ.Interface (Split seg ".") with
      | missing err => exact ⟨err, rfl⟩
      | found text =>
        simp only
        rcases h with h | h
        · rw [hi] at h; simp [DocLookup.isFound] at h
        · exact ih _ (by simpa using h)

theorem retrieveValueFromDoc_missing {mb : MappingBuilder} {expr : String}
    (h : referencesMissingPath mb.docJQ expr = true) :
    ∃ err, retrieveValueFromDoc mb expr = .failure err :=
  retrieveSegments_missing mb.docJQ _ _ h

theorem arrElements_missing (mb : MappingBuilder) : ∀ (elems arr : List String),
    elems.any (referencesMissingPath mb.docJQ) = true →
    ∃ err, arrElements mb elems arr = .failure err := by
  intro elems
  induction elems with
  | nil => intro arr h; simp at h
  | cons elem rest ih =>
    intro arr h
    simp only [List.any_cons, Bool.or_eq_true] at h
    simp only [arrElements]
    cases hr : retrieveValueFromDoc mb elem with
    | failure err => exact ⟨_, rfl⟩
    | value found =>
      simp only
      rcases h with h | h
      · obtain ⟨err, herr⟩ := retrieveValueFromDoc_missing h
        rw [herr] at hr
        simp at hr
      · exact ih _ h

theorem lookupKey_assignKey {α : Type} : ∀ (l : List (String × α)) (k k2 : String) (v : α),
    lookupKey (assignKey l k v) k2 = if k = k2 then some v else lookupKey l k2 := by
  intro l
  induction l with
  | nil => intro k k2 v; simp [assignKey, lookupKey]
  | cons hd tl ih =>
    intro k k2 v
    obtain ⟨k0, v0⟩ := hd
    by_cases h0 : k0 = k
    · subst h0
      by_cases h2 : k0 = k2 <;> simp [assignKey, lookupKey, h2]
    · by_cases h2 : k0 = k2
      · subst h2
        have hne : ¬ k = k0 := fun h => h0 h.symm
        simp [assignKey, lookupKey, h0, hne]
      · simp [assignKey, lookupKey, h0, h2, ih]

/-- The `templateVar` strategy when the expression can be read and the body is
in order: no panic, the value is a map, the body stays in order. -/
theorem templateVarStrategy_value {mb : MappingBuilder} (mapKey : String)
    {mapValue valT : String} (hbody : TemplateVarsIsMap mb.body)
    (hval : retrieveValueFromDoc mb mapValue = .value valT) :
    ∃ (body : List (String × BodyValue)) (m : List (String × String)),
      templateVarStrategy.extractBodyValue mb mapKey mapValue
        = .ok ({ mb with body := body }, .value (.templateVars m)) ∧
      TemplateVarsIsMap body := by
  unfold templateVarStrategy.extractBodyValue
  simp only [hval]
  cases hl : lookupKey mb.body "templateVars" with
  | none =>
    simp only [lookupKey_assignKey, if_true]
    refine ⟨_, _, rfl, ?_⟩
    intro v hv
    simp only [lookupKey_assignKey, if_true, Option.some.injEq] at hv
    exact ⟨_, hv.symm⟩
  | some v0 =>
    obtain ⟨m0, hm0⟩ := hbody v0 hl
    subst hm0
    simp only [hl]
    refine ⟨_, _, rfl, ?_⟩
    intro v hv
    simp only [lookupKey_assignKey, if_true, Option.some.injEq] at hv
    exact ⟨_, hv.symm⟩

/-- What a strategy does when it returns: the document is the same, the body
changes under the `templateVar` strategy only, whose value is a map. -/
theorem extractBodyValue_cases {iso : String → String} {st : MappingStrategy}
    {mb mb2 : MappingBuilder} {mapKey mapValue : String} {r : Result BodyValue}
    (h : st.extractBodyValue iso mb mapKey mapValue = .ok (mb2, r)) :
    mb2.docJQ = mb.docJQ ∧
      (st ≠ .templateVarStrategy → mb2.body = mb.body) ∧
      (st = .templateVarStrategy → TemplateVarsIsMap mb.body →
        TemplateVarsIsMap mb2.body ∧ ∀ v, r = .value v → ∃ m, v = .templateVars m) := by
  cases st with
  | templateVarStrategy =>
    simp only [MappingStrategy.extractBodyValue] at h
    refine ⟨?_, fun hne => absurd rfl hne, ?_⟩
    · unfold templateVarStrategy.extractBodyValue at h
      cases hv : retrieveValueFromDoc mb mapValue with
      | failure err =>
        simp only [hv, Except.ok.injEq, Prod.mk.injEq] at h
        rw [← h.1]
      | value valT =>
        simp only [hv] at h
        split at h
        · simp only [Except.ok.injEq, Prod.mk.injEq] at h
          rw [← h.1]
        · simp at h
    · intro _ hbody
      cases hv : retrieveValueFromDoc mb mapValue with
      | failure err =>
        simp only [templateVarStrategy.extractBodyValue, hv, Except.ok.injEq,
          Prod.mk.injEq] at h
        rw [← h.1, ← h.2]
        exact ⟨hbody, fun v hv2 => by simp at hv2⟩
      | value valT =>
        obtain ⟨body, m, hrun, hok⟩ :=
          templateVarStrategy_value mapKey hbody hv
        rw [hrun] at h
        simp only [Except.ok.injEq, Prod.mk.injEq] at h
        rw [← h.1, ← h.2]
        exact ⟨hok, fun v hv2 => ⟨m, by simpa using hv2.symm⟩⟩
  | arrStrategy =>
    simp only [MappingStrategy.extractBodyValue, arrStrategy.extractBodyValue] at h
    refine ⟨?_, fun _ => ?_, fun hst => by simp at hst⟩ <;>
      (split at h <;> simp only [Except.ok.injEq, Prod.mk.injEq] at h <;> rw [← h.1])
  | constStrategy =>
    simp only [MappingStrategy.extractBodyValue, constStrategy.extractBodyValue,
      Except.ok.injEq, Prod.mk.injEq] at h
    exact ⟨by rw [← h.1], fun _ => by rw [← h.1], fun hst => by simp at hst⟩
  | iso3166Strategy =>
    simp only [MappingStrategy.extractBodyValue, iso3166Strategy.extractBodyValue] at h
    refine ⟨?_, fun _ => ?_, fun hst => by simp at hst⟩ <;>
      (split at h <;> simp only [Except.ok.injEq, Prod.mk.injEq] at h <;> rw [← h.1])
  | onlynumbersStrategy =>
    simp only [MappingStrategy.extractBodyValue, onlynumbersStrategy.extractBodyValue] at h
    refine ⟨?_, fun _ => ?_, fun hst => by simp at hst⟩ <;>
      (split at h <;> simp only [Except.ok.injEq, Prod.mk.injEq] at h <;> rw [← h.1])
  | idMerchantTypeStrategy =>
    simp only [MappingStrategy.extractBodyValue, idMerchantTypeStrategy.extractBodyValue] at h
    refine ⟨?_, fun _ => ?_, fun hst => by simp at hst⟩ <;>
      (split at h <;> simp only [Except.ok.injEq, Prod.mk.injEq] at h <;> rw [← h.1])
  | defaultStrategy =>
    simp only [MappingStrategy.extractBodyValue, defaultStrategy.extractBodyValue] at h
    refine ⟨?_, fun _ => ?_, fun hst => by simp at hst⟩ <;>
      (split at h <;> simp only [Except.ok.injEq, Prod.mk.injEq] at h <;> rw [← h.1])

/-- A strategy that reads the document fails on a path that does not exist. -/
theorem extractBodyValue_missing (iso : String → String) {st : MappingStrategy}
    (mb : MappingBuilder) (mapKey : String) {mapValue : String}
    (h : (match st with
          | .constStrategy => false
          | .arrStrategy => (Split mapValue ",").any (referencesMissingPath mb.docJQ)
          | _ => referencesMissingPath mb.docJQ mapValue) = true) :
    ∃ err, st.extractBodyValue iso mb mapKey mapValue = .ok (mb, .failure err) := by
  cases st with
  | constStrategy => simp at h
  | arrStrategy =>
    obtain ⟨err, herr⟩ := arrElements_missing mb (Split mapValue ",") [] h
    exact ⟨err, by simp only [MappingStrategy.extractBodyValue, arrStrategy.extractBodyValue, herr]⟩
  | templateVarStrategy =>
    obtain ⟨err, herr⟩ := retrieveValueFromDoc_missing h
    exact ⟨err, by
      simp only [MappingStrategy.extractBodyValue, templateVarStrategy.extractBodyValue, herr]⟩
  | iso3166Strategy =>
    obtain ⟨err, herr⟩ := retrieveValueFromDoc_missing h
    exact ⟨err, by
      simp only [MappingStrategy.extractBodyValue, iso3166Strategy.extractBodyValue, herr]⟩
  | onlynumbersStrategy =>
    obtain ⟨err, herr⟩ := retrieveValueFromDoc_missing h
    exact ⟨"onlynumbersStrategy error: " ++ err, by
      simp only [MappingStrategy.extractBodyValue, onlynumbersStrategy.extractBodyValue, herr]⟩
  | idMerchantTypeStrategy =>
    obtain ⟨err, herr⟩ := retrieveValueFromDoc_missing h
    exact ⟨err, by
      simp only [MappingStrategy.extractBodyValue, idMerchantTypeStrategy.extractBodyValue,
        herr]⟩
  | defaultStrategy =>
    obtain ⟨err, herr⟩ := retrieveValueFromDoc_missing h
    exact ⟨err, by
      simp only [MappingStrategy.extractBodyValue, defaultStrategy.extractBodyValue, herr]⟩

/-- With the body in order no strategy panics. -/
theorem extractBodyValue_returns (iso : String → String) (st : MappingStrategy)
    (mb : MappingBuilder) (mapKey mapValue : String) (hbody : TemplateVarsIsMap mb.body) :
    ∃ mb2 r, st.extractBodyValue iso mb mapKey mapValue = .ok (mb2, r) := by
  cases st with
  | templateVarStrategy =>
    cases hv : retrieveValueFromDoc mb mapValue with
    | failure err =>
      exact ⟨mb, .failure err, by
        simp only [MappingStrategy.extractBodyValue, templateVarStrategy.extractBodyValue, hv]⟩
    | value valT =>
      obtain ⟨body, m, hrun, -⟩ := templateVarStrategy_value mapKey hbody hv
      exact ⟨_, _, hrun⟩
  | arrStrategy =>
    simp only [MappingStrategy.extractBodyValue, arrStrategy.extractBodyValue]
    cases arrElements mb (Split mapValue ",") [] <;> exact ⟨_, _, rfl⟩
  | constStrategy => exact ⟨_, _, rfl⟩
  | iso3166Strategy =>
    simp only [MappingStrategy.extractBodyValue, iso3166Strategy.extractBodyValue]
    cases retrieveValueFromDoc mb mapValue <;> exact ⟨_, _, rfl⟩
  | onlynumbersStrategy =>
    simp only [MappingStrategy.extractBodyValue, onlynumbersStrategy.extractBodyValue]
    cases retrieveValueFromDoc mb mapValue <;> exact ⟨_, _, rfl⟩
  | idMerchantTypeStrategy =>
    simp only [MappingStrategy.extractBodyValue, idMerchantTypeStrategy.extractBodyValue]
    cases retrieveValueFromDoc mb mapValue <;> exact ⟨_, _, rfl⟩
  | defaultStrategy =>
    simp only [MappingStrategy.extractBodyValue, defaultStrategy.extractBodyValue]
    cases retrieveValueFromDoc mb mapValue <;> exact ⟨_, _, rfl⟩

/-- Method `extractBodyData` in terms of the strategy it selects. -/
theorem extractBodyData_eq (iso : String → String) (mb : MappingBuilder)
    (mapKey mapValue : String) :
    extractBodyData iso mb mapKey mapValue =
      match (strategyFor (getPrefix mapKey ":")).extractBodyValue iso
          { mb with mappingStrategy := some (strategyFor (getPrefix mapKey ":")) }
          mapKey mapValue with
      | .error p => .error p
      | .ok (mb2, .failure err) => .ok (mb2, .failure err)
      | .ok (mb2, .value bodyValue) => .ok (mb2, .value (bodyKeyOf mapKey, bodyValue)) := by
  unfold extractBodyData bodyKeyOf
  rfl

theorem extractBodyData_missing (iso : String → String) {mb : MappingBuilder}
    {mapKey mapValue : String}
    (h : entryReferencesMissingPath mb.docJQ mapKey mapValue = true) :
    ∃ mb2 err, extractBodyData iso mb mapKey mapValue = .ok (mb2, .failure err) := by
  rw [extractBodyData_eq]
  obtain ⟨err, herr⟩ := extractBodyValue_missing iso
    { mb with mappingStrategy := some (strategyFor (getPrefix mapKey ":")) } mapKey h
  rw [herr]
  exact ⟨_, err, rfl⟩

/-- What `extractBodyData` does when it returns a value. -/
theorem extractBodyData_value {iso : String → String} {mb mb2 : MappingBuilder}
    {mapKey mapValue bodyKey : String} {bodyValue : BodyValue}
    (h : extractBodyData iso mb mapKey mapValue = .ok (mb2, .value (bodyKey, bodyValue))) :
    mb2.docJQ = mb.docJQ ∧ bodyKey = bodyKeyOf mapKey ∧
      (TemplateVarsIsMap mb.body → TemplateVarsIsMap mb2.body ∧
        (getPrefix mapKey ":" = "templateVar" → ∃ m, bodyValue = .templateVars m)) := by
  rw [extractBodyData_eq] at h
  cases hst : (strategyFor (getPrefix mapKey ":")).extractBodyValue iso
      { mb with mappingStrategy := some (strategyFor (getPrefix mapKey ":")) }
      mapKey mapValue with
  | error p => simp [hst] at h
  | ok res =>
    obtain ⟨mb3, r⟩ := res
    obtain ⟨hdoc, hsame, htv⟩ := extractBodyValue_cases hst
    cases r with
    | failure err => simp [hst] at h
    | value v =>
      simp only [hst, Except.ok.injEq, Prod.mk.injEq, Result.value.injEq] at h
      obtain ⟨h1, h2, h3⟩ := h
      subst h1 h3
      refine ⟨hdoc, h2.symm, fun hbody => ?_⟩
      by_cases hpre : getPrefix mapKey ":" = "templateVar"
      · have hs : strategyFor (getPrefix mapKey ":") = .templateVarStrategy := by
          rw [hpre]; rfl
        obtain ⟨hb, hm⟩ := htv hs hbody
        exact ⟨hb, fun _ => hm v rfl⟩
      · have hs : strategyFor (getPrefix mapKey ":") ≠ .templateVarStrategy := by
          unfold strategyFor
          split_ifs <;> simp
        have := hsame hs
        refine ⟨?_, fun hp => absurd hp hpre⟩
        rw [this]
        exact hbody

theorem extractBodyData_returns (iso : String → String) {mb : MappingBuilder}
    (mapKey mapValue : String) (hbody : TemplateVarsIsMap mb.body) :
    ∃ mb2 r, extractBodyData iso mb mapKey mapValue = .ok (mb2, r) := by
  rw [extractBodyData_eq]
  obtain ⟨mb2, r, hr⟩ := extractBodyValue_returns iso
    (strategyFor (getPrefix mapKey ":"))
    { mb with mappingStrategy := some (strategyFor (getPrefix mapKey ":")) } mapKey mapValue
    hbody
  rw [hr]
  cases r with
  | failure err => exact ⟨_, _, rfl⟩
  | value v => exact ⟨_, _, rfl⟩

/-- The loop of `BuildBody` never returns a body when an entry still to read
names a path that does not exist. -/
theorem buildEntries_no_body {iso : String → String} {doc : JsonQuery} :
    ∀ (l : List (String × String)) (mb : MappingBuilder), mb.docJQ = doc →
      (∃ kv ∈ l, entryReferencesMissingPath doc kv.1 kv.2 = true) →
      ∀ body, buildEntries iso l mb ≠ .ok (.value body) := by
  intro l
  induction l with
  | nil => intro mb _ h; simp at h
  | cons hd tl ih =>
    intro mb hdoc hmiss body
    obtain ⟨k, v⟩ := hd
    simp only [buildEntries]
    cases hx : extractBodyData iso mb k v with
    | error p => simp
    | ok res =>
      obtain ⟨mb2, r⟩ := res
      cases r with
      | failure err => simp
      | value kv =>
        obtain ⟨bk, bv⟩ := kv
        simp only
        obtain ⟨hdoc2, -, -⟩ := extractBodyData_value hx
        have hrest : ∃ kv ∈ tl, entryReferencesMissingPath doc kv.1 kv.2 = true := by
          obtain ⟨kv, hkv, hm⟩ := hmiss
          rcases List.mem_cons.mp hkv with h | h
          · subst h
            rw [← hdoc] at hm
            obtain ⟨mb3, err, herr⟩ := extractBodyData_missing iso hm
            rw [herr] at hx
            simp at hx
          · exact ⟨kv, h, hm⟩
        exact ih _ (by simp only [hdoc2, hdoc]) hrest body

/-- The loop of `BuildBody` returns an error when an entry still to read names
a path that does not exist, the body is in order and `templateVars` is
reserved. -/
theorem buildEntries_fails {iso : String → String} {doc : JsonQuery} :
    ∀ (l : List (String × String)) (mb : MappingBuilder), mb.docJQ = doc →
      TemplateVarsIsMap mb.body → templateVarsReserved l →
      (∃ kv ∈ l, entryReferencesMissingPath doc kv.1 kv.2 = true) →
      ∃ err, buildEntries iso l mb = .ok (.failure err) := by
  intro l
  induction l with
  | nil => intro mb _ _ _ h; simp at h
  | cons hd tl ih =>
    intro mb hdoc hbody hres hmiss
    obtain ⟨k, v⟩ := hd
    simp only [buildEntries]
    obtain ⟨mb2, r, hx⟩ := extractBodyData_returns iso k v hbody
    rw [hx]
    cases r with
    | failure err => exact ⟨err, rfl⟩
    | value kv =>
      obtain ⟨bk, bv⟩ := kv
      simp only
      obtain ⟨hdoc2, hbk, htv⟩ := extractBodyData_value hx
      obtain ⟨hbody2, hmap⟩ := htv hbody
      have hrest : ∃ kv ∈ tl, entryReferencesMissingPath doc kv.1 kv.2 = true := by
        obtain ⟨kv, hkv, hm⟩ := hmiss
        rcases List.mem_cons.mp hkv with h | h
        · subst h
          rw [← hdoc] at hm
          obtain ⟨mb3, err, herr⟩ := extractBodyData_missing iso hm
          rw [herr] at hx
          simp at hx
        · exact ⟨kv, h, hm⟩
      refine ih _ (by simp only [hdoc2, hdoc]) ?_
        (fun kv hkv => hres kv (List.mem_cons_of_mem _ hkv)) hrest
      intro val hval
      simp only [lookupKey_assignKey] at hval
      by_cases hkey : bk = "templateVars"
      · simp only [hkey, if_true, Option.some.injEq] at hval
        have hpre := hres (k, v) (List.mem_cons_self _ _) (by simp only [← hbk, hkey])
        obtain ⟨m, hm⟩ := hmap hpre
        exact ⟨m, by rw [← hval, hm]⟩
      · simp only [hkey, if_false] at hval
        exact hbody2 val hval

/-! ## Keys of the parameter map, operands passed over, output fields -/

theorem visitList_visited (parentOf : AttributePath → Expression → String)
    (t : Expression) (sq : SqlQuery) :
    visitList parentOf t sq =
      match visited parentOf t sq with
      | .error p => .error p
      | .ok s =>
        match s.Error with
        | some err => .ok (none, some err)
        | none => .ok (some s, none) := by
  cases t <;> rfl

theorem visited_eq (parentOf : AttributePath → Expression → String) (t : Expression)
    (sq : SqlQuery) (hnot : ∀ x, t ≠ .NotExpression x) :
    visited parentOf t sq = rightOperand (parentAt parentOf t) (operandAt t) sq := by
  cases t with
  | LogicalExpression l op r => rfl
  | AttributeExpression e => rfl
  | ValuePath p vf => cases vf <;> rfl
  | NotExpression x => exact absurd rfl (hnot x)

theorem indexedFrom_keys : ∀ (vs : List GoValue) (i : Nat),
    (indexedFrom i vs).map Prod.fst = (List.range' i vs.length).map Int.ofNat := by
  intro vs
  induction vs with
  | nil => intro i; rfl
  | cons v vs ih => intro i; simp [indexedFrom, ih, List.range']

theorem KeysAreRange_indexedFrom (vs : List GoValue) : KeysAreRange (indexedFrom 0 vs) := by
  unfold KeysAreRange
  rw [indexedFrom_keys, indexedFrom_length]
  constructor
  · exact (List.nodup_range' 0 vs.length).map (fun a b h => Int.ofNat.inj h)
  · intro k
    simp only [List.mem_map, List.mem_range'_1]
    constructor
    · rintro ⟨a, ha, rfl⟩
      constructor
      · exact Int.ofNat_nonneg a
      · have : a < vs.length := by omega
        exact Int.ofNat_lt.mpr this
    · rintro ⟨h0, hlt⟩
      refine ⟨k.toNat, ⟨by omega, by omega⟩, ?_⟩
      exact Int.toNat_of_nonneg h0

/-- Every run of the visitor keeps the keys of `Parameters` at `0..n-1`,
whether it ends with or without a recorded error. -/
theorem rightOperand_keys {parent : String} {x : Expression} {s s1 : SqlQuery}
    (hs : ∃ vs, s.Parameters = indexedFrom 0 vs) (h : rightOperand parent x s = .ok s1) :
    ∃ vs, s1.Parameters = indexedFrom 0 vs := by
  refine rightOperand_preserves (I := fun sq => ∃ vs, sq.Parameters = indexedFrom 0 vs)
    ?_ ?_ x s s1 hs h
  · intro sq f str hI _
    exact hI
  · intro e token sq sq1 hI hrun
    obtain ⟨vs, hvs⟩ := hI
    obtain ⟨col, typ, -, hc | hc | hc⟩ := buildAttributeExpression_cases hrun
    · rw [hc.2]; exact ⟨vs, hvs⟩
    · obtain ⟨-, -, f, -, hsq⟩ := hc
      rw [hsq]; exact ⟨vs, hvs⟩
    · obtain ⟨-, -, f, val, -, -, hsq⟩ := hc
      refine ⟨vs ++ [val], ?_⟩
      rw [hsq]
      show mapAssign sq.Parameters sq.Parameters.length val = _
      rw [hvs, indexedFrom_snoc, indexedFrom_length, mapAssign_fresh]
      · simp
      · intro kv hkv
        have := indexedFrom_key_lt vs 0 kv hkv
        omega

theorem visited_keys {parentOf : AttributePath → Expression → String} {t : Expression}
    {s s1 : SqlQuery} (hs : ∃ vs, s.Parameters = indexedFrom 0 vs)
    (h : visited parentOf t s = .ok s1) : ∃ vs, s1.Parameters = indexedFrom 0 vs := by
  by_cases hnot : ∀ x, t ≠ .NotExpression x
  · rw [visited_eq parentOf t s hnot] at h
    exact rightOperand_keys hs h
  · push_neg at hnot
    obtain ⟨x, rfl⟩ := hnot
    simp only [visited, Except.ok.injEq] at h
    rw [← h]
    exact hs

theorem getElem_indexedFrom_mem : ∀ (vs : List GoValue) (j i : Nat) (h : i < vs.length),
    (((j + i : Nat) : Int), vs[i]) ∈ indexedFrom j vs := by
  intro vs
  induction vs with
  | nil => intro j i h; simp at h
  | cons v vs ih =>
    intro j i h
    cases i with
    | zero => simp [indexedFrom]
    | succ i =>
      have h2 : i < vs.length := by simpa using h
      have := ih (j + 1) i h2
      simp only [indexedFrom, List.mem_cons, List.getElem_cons_succ]
      right
      have e : j + 1 + i = j + (i + 1) := by omega
      rw [e] at this
      exact this

theorem buildAttributeExpression_filter {parent token : String} {e : AttributeExpression}
    {sq sq1 : SqlQuery} (hs : sq.Filter.isSome = true)
    (hrun : buildAttributeExpression parent e token sq = .ok sq1) :
    sq1.Filter.isSome = true := by
  obtain ⟨col, typ, -, hc | hc | hc⟩ := buildAttributeExpression_cases hrun
  · rw [hc.2]; exact hs
  · obtain ⟨-, -, f, -, hsq⟩ := hc
    rw [hsq]; rfl
  · obtain ⟨-, -, f, val, -, -, hsq⟩ := hc
    rw [hsq]; rfl

/-- The visitor never drops the builder. -/
theorem rightOperand_filter {parent : String} {x : Expression} {s s1 : SqlQuery}
    (hs : s.Filter.isSome = true) (h : rightOperand parent x s = .ok s1) :
    s1.Filter.isSome = true := by
  refine rightOperand_preserves (I := fun sq => sq.Filter.isSome = true)
    ?_ ?_ x s s1 hs h
  · intro sq f str _ _
    rfl
  · intro e token sq sq1 hI hrun
    exact buildAttributeExpression_filter hI hrun

theorem leftOperand_filter {parent op : String} {x : Expression} {s s1 : SqlQuery}
    (hs : s.Filter.isSome = true) (h : leftOperand parent x op s = .ok s1) :
    s1.Filter.isSome = true := by
  rcases leftOperand_cases h with ⟨a, o, b, -, s2, g2, -, -, hs2⟩ | ⟨e, -, hrun⟩ | ⟨-, -, hsq⟩
  · rw [hs2]; rfl
  · exact buildAttributeExpression_filter hs hrun
  · rw [hsq]; exact hs

theorem leftOperand_skipped {parent op : String} {l : Expression} (sq : SqlQuery)
    (h : isLogicalOrLeaf l = false) : leftOperand parent l op sq = .ok sq := by
  cases l with
  | LogicalExpression a o b => simp [isLogicalOrLeaf] at h
  | AttributeExpression e => simp [isLogicalOrLeaf] at h
  | ValuePath p vf => rfl
  | NotExpression x => rfl

theorem rightOperand_skipped {parent : String} {r : Expression} (sq : SqlQuery)
    (h : isLogicalOrLeaf r = false) : rightOperand parent r sq = .ok sq := by
  cases r with
  | LogicalExpression a o b => simp [isLogicalOrLeaf] at h
  | AttributeExpression e => simp [isLogicalOrLeaf] at h
  | ValuePath p vf => rfl
  | NotExpression x => rfl

/-- The call of `ParseScimParams` on a root that is not a negation, when the
visitor returns without a recorded error. -/
theorem ParseScimParams_of_run {parentOf : AttributePath → Expression → String}
    {params : ListRequestParams} {fieldMappings : Nat → List MappingEntry}
    {orderField orderDirection : String} {t : Expression} {s : SqlQuery}
    (hf : params.Filter = some t) (hnot : ∀ x, t ≠ .NotExpression x)
    (hrun : rightOperand (parentAt parentOf t) (operandAt t)
      (initialQuery params fieldMappings orderField orderDirection) = .ok s)
    (hE : s.Error = none) :
    ParseScimParams parentOf params fieldMappings orderField orderDirection
      = .ok (some { s with fieldMappings := fun _ => [] }, none) := by
  have hv := visitList_eq parentOf t
    (initialQuery params fieldMappings orderField orderDirection) hnot
  rw [hrun] at hv
  simp only [hE] at hv
  unfold ParseScimParams
  simp only [hf]
  unfold initialQuery at hv
  rw [hv]

theorem splitAux_ne_nil (sep : List Char) : ∀ (s : List Char) (skip : Nat) (cur : List Char),
    splitAux sep s skip cur ≠ [] := by
  intro s
  induction s with
  | nil => intro skip cur; simp [splitAux]
  | cons c cs ih =>
    intro skip cur
    cases skip with
    | succ n => rw [splitAux]; exact ih n cur
    | zero =>
      rw [splitAux]
      split_ifs
      · simp
      · exact ih 0 _

/-- Without an occurrence of the separator the text is one piece. -/
theorem splitAux_absent (sep : List Char) : ∀ (s cur : List Char), ¬ sep <:+: s →
    splitAux sep s 0 cur = [cur.reverse ++ s] := by
  intro s
  induction s with
  | nil => intro cur _; simp [splitAux]
  | cons c cs ih =>
    intro cur h
    have hpre : sep.isPrefixOf (c :: cs) = false := by
      cases hp : sep.isPrefixOf (c :: cs) with
      | false => rfl
      | true =>
        exact absurd (List.IsPrefix.isInfix (List.isPrefixOf_iff_prefix.mp hp)) h
    have htail : ¬ sep <:+: cs := fun hin => h (hin.trans (List.suffix_cons c cs).isInfix)
    rw [splitAux, hpre]
    simp only [Bool.false_eq_true, if_false]
    rw [ih (c :: cur) htail]
    simp

/-- With an occurrence of the separator the first piece is the text before the
first occurrence, and more pieces follow. -/
theorem splitAux_first (sep : List Char) (hsep : sep ≠ []) :
    ∀ (pre post cur : List Char),
      (∀ p2 post2, pre ++ sep ++ post = p2 ++ sep ++ post2 → pre.length ≤ p2.length) →
      ∃ second rest, splitAux sep (pre ++ sep ++ post) 0 cur
        = (cur.reverse ++ pre) :: second :: rest := by
  intro pre
  induction pre with
  | nil =>
    intro post cur _
    obtain ⟨c, cs, hc⟩ := List.exists_cons_of_ne_nil hsep
    have hpre : sep.isPrefixOf (c :: (cs ++ post)) = true := by
      rw [List.isPrefixOf_iff_prefix, hc]
      exact ⟨post, by simp⟩
    have hs : [] ++ sep ++ post = c :: (cs ++ post) := by simp [hc]
    rw [hs, splitAux, hpre]
    simp only [if_true, List.append_nil]
    obtain ⟨second, rest, hr⟩ := List.exists_cons_of_ne_nil
      (splitAux_ne_nil sep (cs ++ post) (sep.length - 1) [])
    exact ⟨second, rest, by rw [hr]⟩
  | cons p pre ih =>
    intro post cur hmin
    have hpre : sep.isPrefixOf (p :: (pre ++ sep ++ post)) = false := by
      cases hp : sep.isPrefixOf (p :: (pre ++ sep ++ post)) with
      | false => rfl
      | true =>
        obtain ⟨t, ht⟩ := List.isPrefixOf_iff_prefix.mp hp
        have := hmin [] t (by simp [ht])
        simp at this
    have hmin2 : ∀ p2 post2, pre ++ sep ++ post = p2 ++ sep ++ post2 →
        pre.length ≤ p2.length := by
      intro p2 post2 h
      have := hmin (p :: p2) post2 (by simp [← h])
      simpa using this
    have hs : (p :: pre) ++ sep ++ post = p :: (pre ++ sep ++ post) := by simp
    rw [hs, splitAux, hpre]
    simp only [Bool.false_eq_true, if_false]
    obtain ⟨second, rest, hr⟩ := ih post (p :: cur) hmin2
    exact ⟨second, rest, by rw [hr]; simp⟩

/-- An occurrence of the separator has a first one. -/
theorem exists_first_occurrence (sep : List Char) : ∀ (s : List Char), sep <:+: s →
    ∃ pre post, s = pre ++ sep ++ post ∧
      ∀ p2 post2, s = p2 ++ sep ++ post2 → pre.length ≤ p2.length := by
  intro s
  induction s with
  | nil =>
    intro h
    have hnil : sep = [] := List.eq_nil_of_infix_nil h
    exact ⟨[], [], by simp [hnil], fun p2 post2 _ => Nat.zero_le _⟩
  | cons c cs ih =>
    intro h
    by_cases hp : sep <+: c :: cs
    · obtain ⟨t, ht⟩ := hp
      exact ⟨[], t, by simp [ht], fun p2 post2 _ => Nat.zero_le _⟩
    · have htail : sep <:+: cs := by
        rcases List.infix_cons_iff.mp h with h1 | h1
        · exact absurd h1 hp
        · exact h1
      obtain ⟨pre, post, hs, hmin⟩ := ih htail
      refine ⟨c :: pre, post, by simp [hs], ?_⟩
      intro p2 post2 h2
      cases p2 with
      | nil => exact absurd ⟨post2, by simpa using h2.symm⟩ hp
      | cons d p2 =>
        simp only [List.cons_append, List.cons.injEq] at h2
        have := hmin p2 post2 (by simpa using h2.2)
        simpa using this

theorem getPrefix_contract (source sep : String) (hsep : sep ≠ "") :
    PrefixContract source sep (getPrefix source sep) := by
  have hdata : sep.data ≠ [] := by
    intro h
    apply hsep
    cases sep
    simp_all
  have hsplit : Split source sep = (splitAux sep.data source.data 0 []).map String.mk := by
    simp [Split, hdata]
  constructor
  · intro hocc
    obtain ⟨pre, post, hs, hmin⟩ := exists_first_occurrence sep.data source.data hocc
    obtain ⟨second, rest, hr⟩ := splitAux_first sep.data hdata pre post [] (by
      intro p2 post2 h2
      exact hmin p2 post2 (by rw [hs]; exact h2))
    have hget : getPrefix source sep = String.mk pre := by
      unfold getPrefix
      rw [hsplit, hs, hr]
      rfl
    rw [hget]
    exact ⟨⟨post, hs⟩, hmin⟩
  · intro hocc
    unfold getPrefix
    rw [hsplit, splitAux_absent sep.data source.data [] hocc]
    rfl

theorem colon_infix_iff (s : List Char) : [':'] <:+: s ↔ ':' ∈ s := by
  constructor
  · rintro ⟨a, b, h⟩
    rw [← h]
    simp
  · intro h
    obtain ⟨a, b, hab⟩ := List.append_of_mem h
    exact ⟨a, b, by simp [hab]⟩

/-- A text with a colon is the text before the first colon, the colon and the
text after it. -/
theorem colon_decomposition : ∀ (s : List Char), ':' ∈ s →
    s = s.takeWhile (fun c => c != ':') ++ [':']
          ++ (s.dropWhile (fun c => c != ':')).drop 1 := by
  intro s
  induction s with
  | nil => intro h; simp at h
  | cons c cs ih =>
    intro h
    by_cases hc : c = ':'
    · subst hc
      simp [List.takeWhile, List.dropWhile]
    · have hmem : ':' ∈ cs := by
        rcases List.mem_cons.mp h with h1 | h1
        · exact absurd h1.symm hc
        · exact h1
      have hne : (c != ':') = true := by simpa using hc
      have := ih hmem
      simp only [List.takeWhile, List.dropWhile, hne, List.cons_append, List.cons.injEq,
        true_and]
      simpa using this

theorem colon_first : ∀ (s p2 post2 : List Char), s = p2 ++ [':'] ++ post2 →
    (s.takeWhile (fun c => c != ':')).length ≤ p2.length := by
  intro s
  induction s with
  | nil => intro p2 post2 _; simp
  | cons c cs ih =>
    intro p2 post2 h
    by_cases hc : c = ':'
    · subst hc
      simp [List.takeWhile]
    · have hne : (c != ':') = true := by simpa using hc
      cases p2 with
      | nil =>
        simp only [List.nil_append, List.singleton_append, List.cons.injEq] at h
        exact absurd h.1 hc
      | cons d p2 =>
        simp only [List.cons_append, List.cons.injEq] at h
        have := ih p2 post2 (by simpa using h.2)
        simp only [List.takeWhile, hne, List.length_cons]
        omega

theorem getPrefix_colon (k : String) :
    getPrefix k ":" =
      if ':' ∈ k.data then String.mk (k.data.takeWhile (fun c => c != ':')) else "" := by
  have hsplit : Split k ":" = (splitAux [':'] k.data 0 []).map String.mk := rfl
  unfold getPrefix
  rw [hsplit]
  by_cases h : ':' ∈ k.data
  · obtain ⟨second, rest, hr⟩ := splitAux_first [':'] (by simp)
      (k.data.takeWhile (fun c => c != ':')) ((k.data.dropWhile (fun c => c != ':')).drop 1) []
      (by
        intro p2 post2 h2
        rw [← colon_decomposition k.data h] at h2
        exact colon_first k.data p2 post2 h2)
    rw [← colon_decomposition k.data h] at hr
    rw [hr, if_pos h]
    rfl
  · rw [splitAux_absent [':'] k.data [] (fun hin => h ((colon_infix_iff _).mp hin)), if_neg h]
    rfl

/-- The output field the code computes is the one the claim describes. -/
theorem bodyKeyOf_eq_outputField (k : String) : bodyKeyOf k = outputField k := by
  unfold bodyKeyOf outputField
  rw [getPrefix_colon]
  by_cases h : ':' ∈ k.data
  · rw [if_pos h, if_neg (not_not.mpr h)]
    by_cases ht : String.mk (k.data.takeWhile (fun c => c != ':')) = "templateVar"
    · rw [if_pos ht, if_pos ht]
    · rw [if_neg ht, if_neg ht]
      have hdec := colon_decomposition k.data h
      have hpre : HasPrefix k (String.mk (k.data.takeWhile (fun c => c != ':')) ++ ":")
          = true := by
        unfold HasPrefix
        rw [List.isPrefixOf_iff_prefix]
        refine ⟨(k.data.dropWhile (fun c => c != ':')).drop 1, ?_⟩
        simp only [String.data_append]
        exact hdec.symm
      unfold TrimPrefix
      rw [hpre, if_pos rfl]
      congr 1
      have hd : (String.mk (k.data.takeWhile (fun c => c != ':')) ++ ":").data
          = k.data.takeWhile (fun c => c != ':') ++ [':'] := by
        simp only [String.data_append]
      rw [hd]
      generalize hrest : (k.data.dropWhile (fun c => c != ':')).drop 1 = rest at hdec ⊢
      generalize htw : k.data.takeWhile (fun c => c != ':') = tw at hdec ⊢
      rw [hdec]
      exact List.drop_left' rfl
  · rw [if_neg h, if_pos h]
    have hne : ("" : String) ≠ "templateVar" := by decide
    rw [if_neg hne]
    have hpre : HasPrefix k ("" ++ ":") = false := by
      unfold HasPrefix
      cases hd : k.data with
      | nil => rfl
      | cons c cs =>
        have hc : c ≠ ':' := by
          intro hc
          apply h
          rw [hd, hc]
          simp
        have e : ("" ++ ":" : String).data = [':'] := rfl
        rw [e]
        simp [List.isPrefixOf, hc.symm]
    unfold TrimPrefix
    rw [hpre]
    rfl

/-- A strategy never takes a field out of the body. -/
theorem extractBodyValue_keys {iso : String → String} {st : MappingStrategy}
    {mb mb2 : MappingBuilder} {mapKey mapValue : String} {r : Result BodyValue}
    (h : st.extractBodyValue iso mb mapKey mapValue = .ok (mb2, r)) (key : String)
    (hkey : (lookupKey mb.body key).isSome = true) : (lookupKey mb2.body key).isSome = true := by
  by_cases hst : st = .templateVarStrategy
  · subst hst
    simp only [MappingStrategy.extractBodyValue, templateVarStrategy.extractBodyValue] at h
    cases hv : retrieveValueFromDoc mb mapValue with
    | failure err =>
      simp only [hv, Except.ok.injEq, Prod.mk.injEq] at h
      rw [← h.1]
      exact hkey
    | value valT =>
      simp only [hv] at h
      split at h
      · simp only [Except.ok.injEq, Prod.mk.injEq] at h
        rw [← h.1]
        simp only [lookupKey_assignKey]
        split_ifs
        · rfl
        · split
          · simp only [lookupKey_assignKey]
            split_ifs
            exact hkey
          · exact hkey
      · simp at h
  · rw [(extractBodyValue_cases h).2.1 hst]
    exact hkey

theorem extractBodyData_keys {iso : String → String} {mb mb2 : MappingBuilder}
    {mapKey mapValue : String} {r : Result (String × BodyValue)}
    (h : extractBodyData iso mb mapKey mapValue = .ok (mb2, r)) (key : String)
    (hkey : (lookupKey mb.body key).isSome = true) : (lookupKey mb2.body key).isSome = true := by
  rw [extractBodyData_eq] at h
  cases hst : (strategyFor (getPrefix mapKey ":")).extractBodyValue iso
      { mb with mappingStrategy := some (strategyFor (getPrefix mapKey ":")) }
      mapKey mapValue with
  | error p => simp [hst] at h
  | ok res =>
    obtain ⟨mb3, r3⟩ := res
    have hk := extractBodyValue_keys hst key hkey
    cases r3 with
    | failure err =>
      simp only [hst, Except.ok.injEq, Prod.mk.injEq] at h
      rw [← h.1]
      exact hk
    | value v =>
      simp only [hst, Except.ok.injEq, Prod.mk.injEq] at h
      rw [← h.1]
      exact hk

/-- The body `BuildBody` returns keeps every field it had and holds the output
field of every entry read. -/
theorem buildEntries_keys {iso : String → String} :
    ∀ (l : List (String × String)) (mb : MappingBuilder) (body : List (String × BodyValue)),
      buildEntries iso l mb = .ok (.value body) →
      (∀ key, (lookupKey mb.body key).isSome = true → (lookupKey body key).isSome = true) ∧
      ∀ kv ∈ l, (lookupKey body (outputField kv.1)).isSome = true := by
  intro l
  induction l with
  | nil =>
    intro mb body h
    simp only [buildEntries, Except.ok.injEq, Result.value.injEq] at h
    subst h
    exact ⟨fun _ hk => hk, fun kv hkv => by simp at hkv⟩
  | cons hd tl ih =>
    intro mb body h
    obtain ⟨mapKey, mapValue⟩ := hd
    rw [buildEntries] at h
    cases hx : extractBodyData iso mb mapKey mapValue with
    | error p => simp [hx] at h
    | ok res =>
      obtain ⟨mb2, r⟩ := res
      cases r with
      | failure err => simp [hx] at h
      | value kv =>
        obtain ⟨bodyKey, bodyValue⟩ := kv
        simp only [hx] at h
        obtain ⟨hkeep, hall⟩ := ih _ body h
        have hbk : bodyKey = outputField mapKey := by
          rw [← bodyKeyOf_eq_outputField]
          exact (extractBodyData_value hx).2.1
        have hstep : ∀ key, (lookupKey mb2.body key).isSome = true →
            (lookupKey (assignKey mb2.body bodyKey bodyValue) key).isSome = true := by
          intro key hk
          rw [lookupKey_assignKey]
          split_ifs
          · rfl
          · exact hk
        refine ⟨fun key hk => hkeep key (hstep key (extractBodyData_keys hx key hk)), ?_⟩
        intro kv hkv
        rcases List.mem_cons.mp hkv with h1 | h1
        · subst h1
          apply hkeep
          show (lookupKey (assignKey mb2.body bodyKey bodyValue) (outputField mapKey)).isSome
            = true
          rw [lookupKey_assignKey, if_pos hbk]
          rfl
        · exact hall kv h1
/-! ## Parameter order (C1) -/

/-- C1. For every filter tree built from logical nodes and attribute leaves
that `ParseScimParams` compiles without error, `GetParameterList` of the result
is the list of the bound values of the leaves that are not `pr`, in
left-to-right order of the tree. -/
theorem parameters_follow_leaf_order (parentOf : AttributePath → Expression → String)
    (params : ListRequestParams) (fieldMappings : Nat → List MappingEntry)
    (orderField orderDirection : String) (t : Expression) (q : SqlQuery)
    (hfilter : params.Filter = some t) (htree : isLogicalTree t = true)
    (hops : wellFormed t = true)
    (hok : ParseScimParams parentOf params fieldMappings orderField orderDirection
            = .ok (some q, none)) :
    GetParameterList q = .ok (boundValues (leavesInOrder t)) := by
  apply GetParameterList_indexedFrom
  rw [← compiledLeaves_of_isLogicalTree htree]
  exact ParseScimParams_parameters hfilter hops hok

/-- The scenario of C1: `id eq 1 and (cost ge 4 or emails co "example.org" or
enable eq true)` compiles and binds `[1, 4, "%example.org%", true]`. -/
theorem parameters_follow_leaf_order_witness :
    ParseScimParams noParent ⟨10, some pathExprFilter, 1⟩ pathExprMappings "tra.id" "asc"
        = .ok (some pathExprQuery, none) ∧
      GetParameterList pathExprQuery
        = .ok [.int 1, .int 4, .string "%example.org%", .bool true] :=
  ⟨rfl, parameters_follow_leaf_order noParent ⟨10, some pathExprFilter, 1⟩ pathExprMappings
    "tra.id" "asc" pathExprFilter pathExprQuery rfl (by decide) (by decide) rfl⟩

/-! ## Parameter count (C5) -/

/-- C5. For every successfully compiled filter tree the length of the
parameter sequence is the number of compiled leaves whose operator is one of
eq, ne, gt, ge, lt, le, co, sw, ew; a leaf with the presence operator `pr`
leaves the parameters as they are and writes the presence fragment, which has
no placeholder. -/
theorem parameter_count_is_binding_leaves (parentOf : AttributePath → Expression → String)
    (params : ListRequestParams) (fieldMappings : Nat → List MappingEntry)
    (orderField orderDirection : String) (t : Expression) (q : SqlQuery)
    (hfilter : params.Filter = some t) (hops : wellFormed t = true)
    (hok : ParseScimParams parentOf params fieldMappings orderField orderDirection
            = .ok (some q, none)) :
    q.Parameters.length
        = (compiledLeaves t).countP (fun e => decide (e.Operator ∈ bindingOperators)) ∧
      Except.map List.length (GetParameterList q)
        = .ok ((compiledLeaves t).countP (fun e => decide (e.Operator ∈ bindingOperators))) ∧
      ∀ (parent token : String) (e : AttributeExpression) (sq sq1 : SqlQuery),
        e.Operator = "pr" → buildAttributeExpression parent e token sq = .ok sq1 →
        sq1.Parameters = sq.Parameters ∧
          (sq1.Filter = sq.Filter ∨
            ∃ f col, sq.Filter = some f ∧
              sq1.Filter = some (f ++ (" (" ++ col ++ " IS NOT NULL) " ++ ToUpper token))) := by
  have hp := ParseScimParams_parameters hfilter hops hok
  have hleaves : ∀ e ∈ compiledLeaves t, e.Operator ∈ compareOperators := by
    rw [compiledLeaves_eq]
    exact visitedLeaves_operator _ (wellFormed_operandAt hops)
  refine ⟨?_, ?_, ?_⟩
  · rw [hp, indexedFrom_length, boundValues_length hleaves]
  · rw [GetParameterList_indexedFrom hp, ← boundValues_length hleaves]
    rfl
  · intro parent token e sq sq1 hpr hrun
    obtain ⟨col, typ, -, hc | hc | hc⟩ := buildAttributeExpression_cases hrun
    · obtain ⟨-, hsq⟩ := hc
      rw [hsq]
      exact ⟨rfl, Or.inl rfl⟩
    · obtain ⟨-, -, f, hf, hsq⟩ := hc
      rw [hsq, hpr]
      exact ⟨rfl, Or.inr ⟨f, col, hf, congrArg (fun x => some (f ++ x)) (presence_fragment col token)⟩⟩
    · exact absurd hpr hc.2.1

/-- The scenario of C5: `id pr` with `id` mapped to `(tra.id, int)`,
`startIndex = 1`, `count = 10` compiles with zero parameters. -/
theorem parameter_count_is_binding_leaves_witness :
    ParseScimParams noParent ⟨10, some (leaf "id" "pr" .nil), 1⟩ idMappings "tra.id" "asc"
        = .ok (some idPresentQuery, none) ∧
      idPresentQuery.Parameters.length = 0 ∧
      Except.map List.length (GetParameterList idPresentQuery) = .ok 0 :=
  have h := parameter_count_is_binding_leaves noParent ⟨10, some (leaf "id" "pr" .nil), 1⟩
    idMappings "tra.id" "asc" (leaf "id" "pr" .nil) idPresentQuery rfl (by decide) rfl
  ⟨rfl, h.1, h.2.1⟩

/-! ## Text of a leaf (C8) -/

/-- C8 as stated fails at the leaf `id eq "abc"` with `id` mapped to
`(tra.id, int)`: the leaf is mapped and `eq` is in the operator table, but the
compare value is not of the declared type, the call ends in the fault of the
type assertion, and no context with the text ` (tra.id = ?)  ` comes back. -/
theorem mistyped_mapped_leaf_appends_nothing :
    findSqlField "" { AttributeName := "id" }
        ((initialQuery ⟨10, none, 1⟩ idMappings "tra.id" "asc").fieldMappings 0)
      = .ok ("tra.id", "int") ∧
    ("eq", "=") ∈ operatorTable ∧
    buildAttributeExpression "" ⟨{ AttributeName := "id" }, "eq", .string "abc"⟩ " "
        (initialQuery ⟨10, none, 1⟩ idMappings "tra.id" "asc")
      = .error "interface conversion: value is not int" ∧
    Except.map SqlQuery.Filter
        (buildAttributeExpression "" ⟨{ AttributeName := "id" }, "eq", .string "abc"⟩ " "
          (initialQuery ⟨10, none, 1⟩ idMappings "tra.id" "asc"))
      ≠ .ok (some ("" ++ " " ++ ("(" ++ "tra.id" ++ " " ++ "=" ++ " ?) " ++ ToUpper " "))) :=
  ⟨rfl, by decide, rfl, fun h => by cases h⟩

/-- C8, amended. For a mapped attribute leaf with column `c`, operator `o` and
trailing token `t`, `buildAttributeExpression` appends, after one leading
blank, `(c IS NOT NULL) ` and the upper-cased token when `o` is `pr`, and
`(c sql(o) ?) ` and the upper-cased token when `o` is in the operator table and
the compare value passes the type assertion of the leaf (a string for `co`,
`sw`, `ew`; a value of the declared type for a column declared `int`, `int64`
or `bool`; any value otherwise). -/
theorem leaf_fragment_text (parent t : String) (e : AttributeExpression) (sq : SqlQuery)
    (c typ f : String)
    (hmap : findSqlField parent e.AttributePath (sq.fieldMappings 0) = .ok (c, typ))
    (hc : c ≠ "") (hf : sq.Filter = some f) :
    (e.Operator = "pr" →
      Except.map SqlQuery.Filter (buildAttributeExpression parent e t sq)
        = .ok (some (f ++ " " ++ ("(" ++ c ++ " IS NOT NULL) " ++ ToUpper t)))) ∧
    (∀ s val, (e.Operator, s) ∈ operatorTable →
      sqlValueOf typ (matchingOpByScimOp (ToLower e.Operator)) e.CompareValue = .ok val →
      Except.map SqlQuery.Filter (buildAttributeExpression parent e t sq)
        = .ok (some (f ++ " " ++ ("(" ++ c ++ " " ++ s ++ " ?) " ++ ToUpper t)))) := by
  have hparen : (" (" : String) = " " ++ "(" := rfl
  constructor
  · intro hpr
    rw [buildAttributeExpression_presence hmap hc hf hpr, hparen]
    simp only [Except.map, String.append_assoc]
  · intro s val hs hval
    obtain ⟨hsql, hpr⟩ := operatorTable_scimOpMap hs
    rw [buildAttributeExpression_binding hmap hc hf hpr hval, hsql, hparen]
    simp only [Except.map, String.append_assoc]

/-- The scenario `cost eq 300` with `cost` mapped to `(tra.cost, int)`: the
leaf compiled at the root writes ` (tra.cost = ?)  `. -/
theorem leaf_fragment_text_witness :
    Except.map SqlQuery.Filter
        (buildAttributeExpression ""
          ⟨{ AttributeName := "cost" }, "eq", .int 300⟩ " "
          (initialQuery ⟨10, none, 1⟩ pathExprMappings "tra.id" "asc"))
      = .ok (some (" (tra.cost = ?)  ")) :=
  (leaf_fragment_text "" " " ⟨{ AttributeName := "cost" }, "eq", .int 300⟩
    (initialQuery ⟨10, none, 1⟩ pathExprMappings "tra.id" "asc") "tra.cost" "int" ""
    rfl (by decide) rfl).2 "=" (.int 300) (by decide) rfl

/-! ## Placeholders and parameters (C2) -/

/-- C2. For every filter tree and every mapping table whose column names hold
no `?`, after `ParseScimParams` succeeds the number of `?` in the predicate text
equals the length of the parameter sequence, which is also the length of
`GetParameterList()`. -/
theorem placeholders_match_parameters (parentOf : AttributePath → Expression → String)
    (params : ListRequestParams) (fieldMappings : Nat → List MappingEntry)
    (orderField orderDirection : String) (q : SqlQuery)
    (hops : ∀ t, params.Filter = some t → wellFormed t = true)
    (hcols : ∀ n, ∀ kv ∈ fieldMappings n, '?' ∉ kv.2.MappingValue.data)
    (hok : ParseScimParams parentOf params fieldMappings orderField orderDirection
            = .ok (some q, none)) :
    placeholders (q.Filter.getD "") = q.Parameters.length ∧
      Except.map List.length (GetParameterList q) = .ok q.Parameters.length := by
  cases hfilter : params.Filter with
  | none =>
    simp only [ParseScimParams, hfilter, Except.ok.injEq, Prod.mk.injEq, Option.some.injEq,
      and_true] at hok
    subst hok
    exact ⟨rfl, rfl⟩
  | some t =>
    obtain ⟨sq1, hrun, -, hq⟩ := ParseScimParams_ok hfilter hok
    have hstart : Aligned (initialQuery params fieldMappings orderField orderDirection) := by
      refine ⟨?_, [], "", rfl, rfl, rfl⟩
      intro n kv hkv
      exact List.count_eq_zero.mpr (hcols n kv hkv)
    have hend : Aligned sq1 :=
      rightOperand_invariant Aligned_write Aligned_leaf _ _ _
        (wellFormed_operandAt (hops t hfilter)) hstart hrun
    obtain ⟨-, vs, f, hps, hf, hcount⟩ := hend
    have hqp : q.Parameters = indexedFrom 0 vs := by rw [hq]; exact hps
    have hqf : q.Filter = some f := by rw [hq]; exact hf
    refine ⟨?_, ?_⟩
    · rw [hqf, hqp, indexedFrom_length]
      exact hcount
    · rw [GetParameterList_indexedFrom hqp, hqp, indexedFrom_length]
      rfl

/-- The scenario `id eq 1 and (cost ge 4 or emails co "example.org" or enable eq
true)`: four placeholders, four parameters. -/
theorem placeholders_match_parameters_witness :
    ParseScimParams noParent ⟨10, some pathExprFilter, 1⟩ pathExprMappings "tra.id" "asc"
        = .ok (some pathExprQuery, none) ∧
      placeholders (pathExprQuery.Filter.getD "") = 4 ∧
      Except.map List.length (GetParameterList pathExprQuery) = .ok 4 :=
  ⟨rfl, placeholders_match_parameters noParent ⟨10, some pathExprFilter, 1⟩ pathExprMappings
    "tra.id" "asc" pathExprQuery (fun t ht => by cases ht; decide)
    (fun n kv hkv => by
      simp only [pathExprMappings, List.mem_cons, List.mem_singleton, List.not_mem_nil,
        or_false] at hkv
      rcases hkv with h | h | h | h <;> subst h <;> decide)
    rfl⟩

/-! ## Unmapped attributes (C3) -/

/-- C3, evaluated at `id pr and emails[type eq "work"]` with a table that maps
only `id`: the value path is an operand of a logical node, the second switch of
`buildLogicalExpression` has no case for it, and the call returns a query and no
error although `emails` and `type` are unmapped. This holds whatever the filter
library renders for the value path. -/
theorem unmapped_leaf_in_value_path_operand_compiles
    (parentOf : AttributePath → Expression → String) :
    ParseScimParams parentOf ⟨10, some valuePathOperandFilter, 1⟩ idMappings "tra.id" "asc"
      = .ok (some valuePathOperandQuery, none) := rfl

/-- The scenario of C3 holds: `count pr` with a table that maps only `id` gives
an error and no query. -/
theorem unmapped_root_leaf_is_rejected (parentOf : AttributePath → Expression → String) :
    ParseScimParams parentOf ⟨10, some (leaf "count" "pr" .nil), 1⟩ idMappings "tra.id" "asc"
      = .ok (none, some "invalid/unmapped field supplied") := rfl

/-! ## Type assertions of a leaf (C4, C6, C7) -/

/-- C4, evaluated at `emails co 5`: the compare value is an integer, the
assertion `.(string)` fails and the call ends in a panic instead of binding
`"%5%"`. -/
theorem pattern_operator_on_integer_panics
    (parentOf : AttributePath → Expression → String) :
    ParseScimParams parentOf ⟨10, some (leaf "emails" "co" (.int 5)), 1⟩ pathExprMappings
        "tra.id" "asc"
      = .error "interface conversion: value is not string" := rfl

/-- For a string compare value the wrapped values are as C4 states. -/
theorem pattern_operator_on_string (typ s : String) :
    sqlValueOf typ (matchingOpByScimOp (ToLower "co")) (.string s) = .ok (.string ("%" ++ s ++ "%")) ∧
    sqlValueOf typ (matchingOpByScimOp (ToLower "sw")) (.string s) = .ok (.string ("" ++ s ++ "%")) ∧
    sqlValueOf typ (matchingOpByScimOp (ToLower "ew")) (.string s) = .ok (.string ("%" ++ s ++ "")) :=
  ⟨rfl, rfl, rfl⟩

/-- C6, evaluated at `cost eq 300` with `cost` declared `int64`: the parsed
value is an `int`, the assertion `.(int64)` fails and the call ends in a panic
instead of binding the 64-bit integer 300. -/
theorem int64_column_with_parsed_integer_panics
    (parentOf : AttributePath → Expression → String) :
    ParseScimParams parentOf ⟨10, some (leaf "cost" "eq" (.int 300)), 1⟩ int64Mappings
        "tra.id" "asc"
      = .error "interface conversion: value is not int64" := rfl

/-- The type switch returns the compare value itself whenever it returns. -/
theorem coercion_keeps_value (typ : String) (v val : GoValue)
    (h : sqlValueOf typ none v = .ok val) : val = v :=
  sqlValueOf_none h

/-- C7, evaluated at `id eq "abc"` with `id` declared `int`: the assertion
`.(int)` fails and the call ends in a panic, not in an error value. -/
theorem mistyped_compare_value_panics
    (parentOf : AttributePath → Expression → String) :
    ParseScimParams parentOf ⟨10, some (leaf "id" "eq" (.string "abc")), 1⟩ idMappings
        "tra.id" "asc"
      = .error "interface conversion: value is not int" := rfl

/-! ## Parentheses of the predicate text (C10) -/

/-- C10. For every filter tree of logical nodes and attribute leaves that
compiles without error against a table whose column names hold no parentheses,
the predicate text has balanced parentheses (every prefix has at least as many
`(` as `)`, the totals are equal) and its deepest nesting equals the depth of
the tree (no prefix is more than `treeDepth t` open, one prefix is exactly
`treeDepth t` open). -/
theorem predicate_parentheses_follow_tree (parentOf : AttributePath → Expression → String)
    (params : ListRequestParams) (fieldMappings : Nat → List MappingEntry)
    (orderField orderDirection : String) (t : Expression) (q : SqlQuery)
    (hfilter : params.Filter = some t) (htree : isLogicalTree t = true)
    (hops : wellFormed t = true)
    (hcols : ∀ n, ∀ kv ∈ fieldMappings n,
      '(' ∉ kv.2.MappingValue.data ∧ ')' ∉ kv.2.MappingValue.data)
    (hok : ParseScimParams parentOf params fieldMappings orderField orderDirection
            = .ok (some q, none)) :
    q.Filter.isSome = true ∧ NestedParens (treeDepth t) (q.Filter.getD "").data := by
  obtain ⟨sq1, hrun, hE, hq⟩ := ParseScimParams_ok hfilter hok
  have hroot : operandAt t = t := by
    cases t with
    | ValuePath p vf => simp [isLogicalTree] at htree
    | _ => rfl
  rw [hroot] at hrun
  have hstart : ColumnsParenFree (initialQuery params fieldMappings orderField orderDirection) :=
    fun n kv hkv =>
      ⟨List.count_eq_zero.mpr (hcols n kv hkv).1, List.count_eq_zero.mpr (hcols n kv hkv).2⟩
  obtain ⟨txt, htxt, hnest⟩ := rightOperand_nested t _ sq1 "" htree hops hstart rfl hrun hE
  have hqf : q.Filter = some txt := by
    rw [hq]
    simpa using htxt
  rw [hqf]
  exact ⟨rfl, hnest⟩

/-- The scenario `id eq 1 and (cost ge 4 or emails co "example.org" or enable eq
true)`, a tree of depth 4: the text is balanced and nests four deep. -/
theorem predicate_parentheses_follow_tree_witness :
    ParseScimParams noParent ⟨10, some pathExprFilter, 1⟩ pathExprMappings "tra.id" "asc"
        = .ok (some pathExprQuery, none) ∧
      NestedParens 4 (pathExprQuery.Filter.getD "").data :=
  ⟨rfl, (predicate_parentheses_follow_tree noParent ⟨10, some pathExprFilter, 1⟩
    pathExprMappings "tra.id" "asc" pathExprFilter pathExprQuery rfl (by decide) (by decide)
    (fun n kv hkv => by
      simp only [pathExprMappings, List.mem_cons, List.mem_singleton, List.not_mem_nil,
        or_false] at hkv
      rcases hkv with h | h | h | h <;> subst h <;> decide)
    rfl).2⟩

/-! ## Text of a logical node (C9) -/

/-- C9, evaluated at `(a eq 1 and b eq 2) or c eq 3`: after the left operand,
a logical node, the connective is written as ` or `, in the case the tree
carries it; the text holds no `OR`, while the connective after the leaf
`a eq 1` is written `AND` in the same predicate. -/
theorem connective_after_logical_operand_keeps_case :
    ParseScimParams noParent ⟨10, some nestedLeftFilter, 1⟩ abcMappings "a" "asc"
        = .ok (some nestedLeftQuery, none) ∧
      nestedLeftQuery.Filter = some " (  (  (a = ?) AND (b = ?)   )  or  (c = ?)   ) " ∧
      ¬ ("OR".data <:+: (nestedLeftQuery.Filter.getD "").data) ∧
      " (  (  (a = ?) AND (b = ?)   )  or ".data <+: (nestedLeftQuery.Filter.getD "").data :=
  ⟨rfl, rfl, by decide, by decide⟩

/-- The text of a logical node as the code writes it. A logical node with
connective `op` whose operands `l` and `r` are logical nodes or leaves and
which compiles without error writes: ` ( `, the
text of `l`, the connective once (the upper-cased operator right after a leaf,
the operator as the tree carries it between two blanks after a logical node),
the text of `r` (followed by the blank trailing token when `r` is a leaf) and
no connective after it, then ` ) `. The text of an operand is what compiling
it on its own, with an empty trailing token, appends. -/
theorem logical_node_text (parent op : String) (l r : Expression) (sq sq1 : SqlQuery)
    (f : String) (hops : wellFormed (.LogicalExpression l op r) = true)
    (hl : isLogicalOrLeaf l = true) (hr : isLogicalOrLeaf r = true)
    (hf : sq.Filter = some f)
    (hrun : buildLogicalExpression parent (.LogicalExpression l op r) sq = .ok sq1)
    (hE : sq1.Error = none) :
    ∃ (sL sR : SqlQuery) (tL tR : String),
      compileOperand parent "" l { sq with Filter := some (f ++ " ( ") } = .ok sL ∧
      sL.Filter = some (f ++ " ( " ++ tL) ∧
      compileOperand parent "" r
          { sL with Filter := some (f ++ " ( " ++ tL ++ connectiveText l op) } = .ok sR ∧
      sR.Filter = some (f ++ " ( " ++ tL ++ connectiveText l op ++ tR) ∧
      sq1.Filter
        = some (f ++ " ( " ++ tL ++ connectiveText l op ++ tR ++ trailingBlank r ++ " ) ") := by
  simp only [wellFormed, Bool.and_eq_true, decide_eq_true_eq] at hops
  obtain ⟨⟨-, hwl⟩, hwr⟩ := hops
  obtain ⟨f2, sLreal, hf2, hleft, hstop | hgo⟩ := buildLogicalExpression_cases hrun
  · obtain ⟨hsome, hsq⟩ := hstop
    rw [← hsq, hE] at hsome
    simp at hsome
  obtain ⟨hLE, sRreal, g, hright, hg, hsq⟩ := hgo
  have hff : f2 = f := by rw [hf2] at hf; exact Option.some.inj hf
  subst hff
  have hRE : sRreal.Error = none := by rw [hsq] at hE; exact hE
  -- the left operand
  have HL : ∃ (sL : SqlQuery) (tL : String),
      compileOperand parent "" l { sq with Filter := some (f2 ++ " ( ") } = .ok sL ∧
      sL.Filter = some (f2 ++ " ( " ++ tL) ∧
      sLreal = { sL with Filter := some (f2 ++ " ( " ++ tL ++ connectiveText l op) } := by
    rcases leftOperand_cases hleft with ⟨a, o, b, hlog, s2, g2, hrun2, hg2, hs2⟩ | ⟨e, hle, hrun2⟩ | ⟨hnot, -, -⟩
    · have hext : Extends (f2 ++ " ( ") s2 :=
        rightOperand_invariant (Extends_write _) (Extends_leaf _) _ _ s2 hwl
          ⟨"", by simp⟩ hrun2
      obtain ⟨tL, htL⟩ := hext
      have hgg : g2 = f2 ++ " ( " ++ tL := by rw [hg2] at htL; exact Option.some.inj htL
      subst hlog
      exact ⟨s2, tL, hrun2, htL, by rw [hs2, hgg]; rfl⟩
    · subst hle
      obtain ⟨s0, txt, hrun0, hs0, hreal⟩ :=
        buildAttributeExpression_token (f := f2 ++ " ( ") rfl hrun2 hLE
      exact ⟨s0, txt, hrun0, hs0, hreal⟩
    · rw [hl] at hnot
      simp at hnot
  obtain ⟨sL, tL, hcl, hsLf, hsLreal⟩ := HL
  have hFreal : sLreal.Filter = some (f2 ++ " ( " ++ tL ++ connectiveText l op) := by
    rw [hsLreal]
  -- the right operand
  cases r with
  | LogicalExpression a o b =>
    have hext : Extends (f2 ++ " ( " ++ tL ++ connectiveText l op) sRreal :=
      rightOperand_invariant (Extends_write _) (Extends_leaf _) _ _ sRreal hwr
        ⟨"", by simp [hFreal]⟩ hright
    obtain ⟨tR, htR⟩ := hext
    have hgg : g = f2 ++ " ( " ++ tL ++ connectiveText l op ++ tR := by
      rw [hg] at htR; exact Option.some.inj htR
    refine ⟨sL, sRreal, tL, tR, hcl, hsLf, ?_, htR, ?_⟩
    · rw [← hsLreal]; exact hright
    · rw [hsq, hgg]
      simp [trailingBlank]
  | AttributeExpression e =>
    obtain ⟨s0, txt, hrun0, hs0, hreal⟩ :=
      buildAttributeExpression_token hFreal hright hRE
    have hgg : g = f2 ++ " ( " ++ tL ++ connectiveText l op ++ txt ++ ToUpper " " := by
      rw [hreal] at hg; exact (Option.some.inj hg).symm
    refine ⟨sL, s0, tL, txt, hcl, hsLf, ?_, hs0, ?_⟩
    · rw [← hsLreal]; exact hrun0
    · rw [hsq, hgg]
      rfl
  | ValuePath p vf => simp [isLogicalOrLeaf] at hr
  | NotExpression x => simp [isLogicalOrLeaf] at hr

/-- The amended C9 at `(a eq 1 and b eq 2) or c eq 3`, compiled from the fresh
context. -/
theorem logical_node_text_witness :
    buildLogicalExpression "" nestedLeftFilter
        (initialQuery ⟨10, some nestedLeftFilter, 1⟩ abcMappings "a" "asc")
        = .ok nestedLeftContext ∧
      ∃ (sL sR : SqlQuery) (tL tR : String),
        compileOperand "" ""
            (.LogicalExpression (leaf "a" "eq" (.int 1)) "and" (leaf "b" "eq" (.int 2)))
            { initialQuery ⟨10, some nestedLeftFilter, 1⟩ abcMappings "a" "asc" with
              Filter := some ("" ++ " ( ") } = .ok sL ∧
        sL.Filter = some ("" ++ " ( " ++ tL) ∧
        compileOperand "" "" (leaf "c" "eq" (.int 3))
            { sL with Filter := some ("" ++ " ( " ++ tL ++ " or ") } = .ok sR ∧
        sR.Filter = some ("" ++ " ( " ++ tL ++ " or " ++ tR) ∧
        nestedLeftContext.Filter = some ("" ++ " ( " ++ tL ++ " or " ++ tR ++ " " ++ " ) ") :=
  ⟨rfl, logical_node_text "" "or"
    (.LogicalExpression (leaf "a" "eq" (.int 1)) "and" (leaf "b" "eq" (.int 2)))
    (leaf "c" "eq" (.int 3))
    (initialQuery ⟨10, some nestedLeftFilter, 1⟩ abcMappings "a" "asc") nestedLeftContext ""
    (by decide) rfl rfl rfl rfl rfl⟩

/-! ## Pagination and ordering (C11, C12) -/

/-- C11. For all integers `startIndex` and `count` whose product fits the
64-bit machine integer, every query `ParseScimParams` returns, with or without
a filter, has `Limit = "limit " ++ decimal(offset) ++ ", " ++ decimal(count)`
with `offset = startIndex * count` when `startIndex > 0` and `offset = 0`
otherwise; without a filter the call always returns such a query. -/
theorem limit_clause (parentOf : AttributePath → Expression → String)
    (params : ListRequestParams) (fieldMappings : Nat → List MappingEntry)
    (orderField orderDirection : String)
    (hfit : -(2 ^ 63) ≤ params.StartIndex * params.Count ∧
      params.StartIndex * params.Count < 2 ^ 63) :
    (∀ q, ParseScimParams parentOf params fieldMappings orderField orderDirection
            = .ok (some q, none) →
        q.Limit = "limit " ++
          Itoa (if params.StartIndex > 0 then params.StartIndex * params.Count else 0)
          ++ ", " ++ Itoa params.Count) ∧
    (params.Filter = none →
      ∃ q, ParseScimParams parentOf params fieldMappings orderField orderDirection
            = .ok (some q, none)) := by
  constructor
  · intro q hok
    rw [(ParseScimParams_clauses hok).1]
    simp only [initialQuery, wrapInt_of_fits hfit]
  · intro hnone
    exact ⟨noFilterQuery params.Count params.StartIndex fieldMappings orderField orderDirection,
      by simp only [ParseScimParams, hnone, noFilterQuery]⟩

/-- The scenario of C11: `startIndex = 1`, `count = 10` gives offset 10. -/
theorem limit_clause_witness :
    ParseScimParams noParent ⟨10, some (leaf "id" "pr" .nil), 1⟩ idMappings "tra.id" "asc"
        = .ok (some idPresentQuery, none) ∧
      idPresentQuery.Limit = "limit 10, 10" :=
  ⟨rfl, (limit_clause noParent ⟨10, some (leaf "id" "pr" .nil), 1⟩ idMappings "tra.id" "asc"
    (by decide)).1 idPresentQuery rfl⟩

/-- C12 as stated fails at `orderDirection = "sideways"`: the call is not
rejected, the value is interpolated into the order-by clause. -/
theorem order_direction_is_not_checked :
    "sideways" ∉ ["asc", "desc"] ∧
      ParseScimParams noParent ⟨10, none, 1⟩ idMappings "tra.id" "sideways"
        = .ok (some (noFilterQuery 10 1 idMappings "tra.id" "sideways"), none) ∧
      (noFilterQuery 10 1 idMappings "tra.id" "sideways").OrderBy
        = "order by tra.id sideways" :=
  ⟨by decide, rfl, rfl⟩

/-- C12, amended. `ParseScimParams` does not check `orderDirection`: for every
value, in `asc`, `desc` or not, a returned query has
`OrderBy = "order by " ++ orderField ++ " " ++ orderDirection`, and a request
without filter returns a query whatever the value is. -/
theorem order_clause (parentOf : AttributePath → Expression → String)
    (params : ListRequestParams) (fieldMappings : Nat → List MappingEntry)
    (orderField orderDirection : String) :
    (∀ q, ParseScimParams parentOf params fieldMappings orderField orderDirection
            = .ok (some q, none) →
        q.OrderBy = "order by " ++ orderField ++ " " ++ orderDirection) ∧
    (params.Filter = none →
      ∃ q, ParseScimParams parentOf params fieldMappings orderField orderDirection
            = .ok (some q, none)) := by
  constructor
  · intro q hok
    rw [(ParseScimParams_clauses hok).2]
    rfl
  · intro hnone
    exact ⟨noFilterQuery params.Count params.StartIndex fieldMappings orderField orderDirection,
      by simp only [ParseScimParams, hnone, noFilterQuery]⟩

/-- The amended C12 at `desc`. -/
theorem order_clause_witness :
    ParseScimParams noParent ⟨10, some (leaf "id" "pr" .nil), 1⟩ idMappings "tra.id" "desc"
        = .ok (some { idPresentQuery with OrderBy := "order by tra.id desc" }, none) ∧
      ({ idPresentQuery with OrderBy := "order by tra.id desc" } : SqlQuery).OrderBy
        = "order by " ++ "tra.id" ++ " " ++ "desc" :=
  ⟨rfl, (order_clause noParent ⟨10, some (leaf "id" "pr" .nil), 1⟩ idMappings "tra.id" "desc").1
    _ rfl⟩

/-! ## Requests without filter and unknown root nodes (C13, C14) -/

/-- C13 as stated fails at the request without filter of the tests
(`Count = 10`, `StartIndex = 1`, table `idMappings`): the query returned holds
no empty predicate text but no builder at all, `Filter` is nil, and a write
to it faults where a write to an empty text goes through. -/
theorem no_filter_query_has_nil_builder :
    ParseScimParams noParent ⟨10, none, 1⟩ idMappings "tra.id" "asc"
        = .ok (some (noFilterQuery 10 1 idMappings "tra.id" "asc"), none) ∧
      (noFilterQuery 10 1 idMappings "tra.id" "asc").Filter ≠ some "" ∧
      WriteString (noFilterQuery 10 1 idMappings "tra.id" "asc") ""
        = .error "invalid memory address or nil pointer dereference" ∧
      Except.map SqlQuery.Filter
          (WriteString { noFilterQuery 10 1 idMappings "tra.id" "asc" with Filter := some "" } "")
        = .ok (some "") :=
  ⟨rfl, (fun h => by cases h), rfl, rfl⟩

/-- C13, amended. When the request carries no filter, `ParseScimParams`
returns, for every mapping table, order pair, `startIndex` and `count`, a query
and no error; the query holds no predicate text, not even the empty one (the
builder `Filter` is nil), no parameter (`GetParameterList() = []`), and the
`Limit` and `OrderBy` clauses computed from the pagination and order inputs. -/
theorem no_filter_returns_query (parentOf : AttributePath → Expression → String)
    (Count StartIndex : Int) (fieldMappings : Nat → List MappingEntry)
    (orderField orderDirection : String) :
    ParseScimParams parentOf ⟨Count, none, StartIndex⟩ fieldMappings orderField orderDirection
        = .ok (some (noFilterQuery Count StartIndex fieldMappings orderField orderDirection),
            none) ∧
      (noFilterQuery Count StartIndex fieldMappings orderField orderDirection).Filter = none ∧
      (noFilterQuery Count StartIndex fieldMappings orderField orderDirection).Parameters = [] ∧
      GetParameterList (noFilterQuery Count StartIndex fieldMappings orderField orderDirection)
        = .ok [] ∧
      (noFilterQuery Count StartIndex fieldMappings orderField orderDirection).Limit
        = "limit " ++ Itoa (if StartIndex > 0 then wrapInt (StartIndex * Count) else 0)
            ++ ", " ++ Itoa Count ∧
      (noFilterQuery Count StartIndex fieldMappings orderField orderDirection).OrderBy
        = "order by " ++ orderField ++ " " ++ orderDirection :=
  ⟨rfl, rfl, rfl, rfl, rfl, rfl⟩

/-- C14. For every filter whose root is a negation node, the only node kind
outside the three `visitList` knows, `ParseScimParams` returns no query and an
error that names the kind. -/
theorem unknown_root_is_rejected (parentOf : AttributePath → Expression → String)
    (Count StartIndex : Int) (x : Expression) (fieldMappings : Nat → List MappingEntry)
    (orderField orderDirection : String) :
    ParseScimParams parentOf ⟨Count, some (.NotExpression x), StartIndex⟩ fieldMappings
        orderField orderDirection
      = .ok (none, some "I don't know about type *filter.NotExpression!") := rfl

/-! ## Resolution of sub-attributes and value paths (C15, C16) -/

/-- C15, evaluated at `name.familyName pr` with a table entry keyed
`name.familyName`: the two sub-attributes hold the same string at different
addresses, line 143 compares the pointers, no entry matches and the call
returns the unmapped-field error. -/
theorem equal_sub_attribute_strings_do_not_match
    (parentOf : AttributePath → Expression → String) :
    ParseScimParams parentOf ⟨10, some subAttributeFilter, 1⟩ subAttributeMappings
        "usr.id" "asc"
      = .ok (none, some "invalid/unmapped field supplied") := rfl

/-- Two absent sub-attributes are equal, as C15 states: `id pr` resolves
against the entry `id`. -/
theorem absent_sub_attributes_match :
    findSqlField "" { AttributeName := "id" } (idMappings 0) = .ok ("tra.id", "int") := rfl

/-- C16, evaluated at `emails[type eq "work"]` with a table that holds the
entries `emails` and `emails.type`, enumerated in this order: whatever the
filter library renders for the value path, the call does not compile the leaf.
When the rendering is `emails`, line 141 dereferences the nil sub-attribute of
the entry `emails`; otherwise no entry matches. -/
theorem value_path_leaf_does_not_resolve (parentOf : AttributePath → Expression → String) :
    ParseScimParams parentOf ⟨10, some emailsTypeFilter, 1⟩ emailsMappings "tra.id" "asc"
        = .error "invalid memory address or nil pointer dereference" ∨
    ParseScimParams parentOf ⟨10, some emailsTypeFilter, 1⟩ emailsMappings "tra.id" "asc"
        = .ok (none, some "invalid/unmapped field supplied") := by
  by_cases h : parentOf { AttributeName := "emails" } (leaf "type" "eq" (.string "work"))
      = "emails"
  · left
    unfold leaf at h
    simp [ParseScimParams, visitList, buildValuePathExpression, emailsTypeFilter, leaf,
      buildAttributeExpression, emailsMappings, findSqlField, entryMatches, h]
  · right
    unfold leaf at h
    simp [ParseScimParams, visitList, buildValuePathExpression, emailsTypeFilter, leaf,
      buildAttributeExpression, emailsMappings, findSqlField, entryMatches, h, ptrEq]

/-- The example of C16 (the single entry `emails.type`) compiles only when
the filter library renders the value path as the bare name `emails`. -/
theorem value_path_example_needs_bare_parent
    (parentOf : AttributePath → Expression → String)
    (h : parentOf { AttributeName := "emails" } (leaf "type" "eq" (.string "work")) ≠ "emails") :
    ParseScimParams parentOf ⟨10, some emailsTypeFilter, 1⟩ emailsTypeMappings "tra.id" "asc"
      = .ok (none, some "invalid/unmapped field supplied") := by
  unfold leaf at h
  simp [ParseScimParams, visitList, buildValuePathExpression, emailsTypeFilter, leaf,
    buildAttributeExpression, emailsTypeMappings, findSqlField, entryMatches, h, ptrEq]

/-! ## `GetParameterList` (C17) -/

/-- C17. For every `Parameters` map whose keys are exactly `0..n-1`, in
whatever order the map is enumerated, `GetParameterList` returns a sequence of
length `n` whose element at position `i` is `Parameters[i]`. -/
theorem parameter_list_reads_keys (sq : SqlQuery) (n : Nat)
    (hkeys : (sq.Parameters.map Prod.fst).Perm ((List.range n).map Int.ofNat)) :
    ∃ out, GetParameterList sq = .ok out ∧ out.length = n ∧
      ∀ (i : Nat) (v : GoValue), ((i : Int), v) ∈ sq.Parameters → out[i]? = some v := by
  have hlen : sq.Parameters.length = n := by
    have := hkeys.length_eq
    simpa using this
  have hnodup : (sq.Parameters.map Prod.fst).Nodup := by
    rw [hkeys.nodup_iff]
    exact (List.nodup_range n).map Int.ofNat_injective
  have hrange : ∀ kv ∈ sq.Parameters,
      0 ≤ kv.1 ∧ kv.1 < ((List.replicate sq.Parameters.length GoValue.nil).length : Int) := by
    intro kv hkv
    have hmem : kv.1 ∈ (List.range n).map Int.ofNat :=
      hkeys.mem_iff.mp (List.mem_map_of_mem Prod.fst hkv)
    simp only [List.mem_map, List.mem_range] at hmem
    obtain ⟨j, hj, hjk⟩ := hmem
    rw [List.length_replicate, hlen, ← hjk]
    constructor
    · exact Int.ofNat_nonneg j
    · exact Int.ofNat_lt.mpr hj
  obtain ⟨out, hout, hlen2, hin, -⟩ := fill_distinct_keys sq.Parameters _ hrange hnodup
  refine ⟨out, hout, ?_, ?_⟩
  · rw [hlen2, List.length_replicate, hlen]
  · intro i v hiv
    have := hin ((i : Int), v) hiv
    simpa using this

/-- The scenario of C17: keys 0, 1, 2 holding "0", "1", "2" give
`["0", "1", "2"]`, here with the map enumerated as 2, 0, 1. -/
theorem parameter_list_reads_keys_witness :
    GetParameterList threeParameters = .ok [.string "0", .string "1", .string "2"] ∧
      ∃ out, GetParameterList threeParameters = .ok out ∧ out.length = 3 ∧
        ∀ (i : Nat) (v : GoValue), ((i : Int), v) ∈ threeParameters.Parameters →
          out[i]? = some v :=
  ⟨rfl, parameter_list_reads_keys threeParameters 3 (by decide)⟩

/-! ## Runs over different enumeration orders (C18) -/

/-- C18 as stated fails for the filter `id pr` and a table with two entries
that both match `id` (one keyed with the schema URI, one without): the run
that enumerates the table in one order compiles against `tra.id`, the run that
enumerates it in the other order against `usr.id`. -/
theorem enumeration_order_changes_predicate :
    (twoIdMappingsReversed 0).Perm (twoIdMappings 0) ∧
      outcome (ParseScimParams noParent ⟨10, some (leaf "id" "pr" .nil), 1⟩ twoIdMappings
          "tra.id" "asc")
        = .ok (some (some " (tra.id IS NOT NULL)  ", [], "limit 10, 10", "order by tra.id asc"),
            none) ∧
      outcome (ParseScimParams noParent ⟨10, some (leaf "id" "pr" .nil), 1⟩
          twoIdMappingsReversed "tra.id" "asc")
        = .ok (some (some " (usr.id IS NOT NULL)  ", [], "limit 10, 10", "order by tra.id asc"),
            none) ∧
      outcome (ParseScimParams noParent ⟨10, some (leaf "id" "pr" .nil), 1⟩ twoIdMappings
          "tra.id" "asc")
        ≠ outcome (ParseScimParams noParent ⟨10, some (leaf "id" "pr" .nil), 1⟩
          twoIdMappingsReversed "tra.id" "asc") := by
  have ha : outcome (ParseScimParams noParent ⟨10, some (leaf "id" "pr" .nil), 1⟩ twoIdMappings
        "tra.id" "asc")
      = .ok (some (some " (tra.id IS NOT NULL)  ", [], "limit 10, 10", "order by tra.id asc"),
          none) := rfl
  have hb : outcome (ParseScimParams noParent ⟨10, some (leaf "id" "pr" .nil), 1⟩
        twoIdMappingsReversed "tra.id" "asc")
      = .ok (some (some " (usr.id IS NOT NULL)  ", [], "limit 10, 10", "order by tra.id asc"),
          none) := rfl
  refine ⟨by decide, ha, hb, ?_⟩
  rw [ha, hb]
  intro h
  simp only [Except.ok.injEq, Prod.mk.injEq, Option.some.injEq, and_true] at h
  exact absurd h (by decide)

/-- C18, amended. Two runs of `ParseScimParams` on the same inputs, whatever
the orders in which their lookup loops enumerate the mapping table, have the
same outcome (the same panic, or the same error, or the same predicate text,
parameters, `Limit` and `OrderBy`) whenever the lookup of every compiled leaf
is unambiguous: no entry of the table makes the condition of the loop fault,
and all entries that match the leaf carry the same column definition. -/
theorem runs_agree_on_unambiguous_tables (parentOf : AttributePath → Expression → String)
    (params : ListRequestParams) (table : List MappingEntry)
    (enum1 enum2 : Nat → List MappingEntry) (orderField orderDirection : String)
    (h1 : ∀ n, (enum1 n).Perm table) (h2 : ∀ n, (enum2 n).Perm table)
    (hu : ∀ t, params.Filter = some t → ∀ e ∈ compiledLeaves t,
      Unambiguous table (parentAt parentOf t) e.AttributePath) :
    outcome (ParseScimParams parentOf params enum1 orderField orderDirection)
      = outcome (ParseScimParams parentOf params enum2 orderField orderDirection) := by
  cases hfilter : params.Filter with
  | none => simp only [ParseScimParams, hfilter, outcome, Option.map, observable]
  | some t =>
    by_cases hnot : ∃ x, t = .NotExpression x
    · obtain ⟨x, rfl⟩ := hnot
      simp only [ParseScimParams, hfilter, visitList, outcome]
    · have hnot2 : ∀ x, t ≠ .NotExpression x := fun x hx => hnot ⟨x, hx⟩
      have hstart : SameButOrder table
          (initialQuery params enum1 orderField orderDirection)
          (initialQuery params enum2 orderField orderDirection) :=
        ⟨rfl, rfl, rfl, rfl, rfl, rfl, h1, h2⟩
      have hleaves : ∀ e ∈ visitedLeaves (operandAt t),
          Unambiguous table (parentAt parentOf t) e.AttributePath := by
        intro e he
        rw [← compiledLeaves_eq] at he
        exact hu t hfilter e he
      have hsame := SameOutcome_rightOperand (operandAt t) _ _ hleaves hstart
      have hp1 : ParseScimParams parentOf params enum1 orderField orderDirection
          = match visitList parentOf t (initialQuery params enum1 orderField orderDirection) with
            | .error p => .error p
            | .ok (some resp, none) => .ok (some { resp with fieldMappings := fun _ => [] }, none)
            | .ok r => .ok r := by
        simp only [ParseScimParams, hfilter, initialQuery]
      have hp2 : ParseScimParams parentOf params enum2 orderField orderDirection
          = match visitList parentOf t (initialQuery params enum2 orderField orderDirection) with
            | .error p => .error p
            | .ok (some resp, none) => .ok (some { resp with fieldMappings := fun _ => [] }, none)
            | .ok r => .ok r := by
        simp only [ParseScimParams, hfilter, initialQuery]
      rw [hp1, hp2, visitList_eq parentOf t _ hnot2, visitList_eq parentOf t _ hnot2]
      cases hr1 : rightOperand (parentAt parentOf t) (operandAt t)
          (initialQuery params enum1 orderField orderDirection) with
      | error p =>
        cases hr2 : rightOperand (parentAt parentOf t) (operandAt t)
            (initialQuery params enum2 orderField orderDirection) with
        | error p2 =>
          rw [hr1, hr2] at hsame
          have hpp : p = p2 := hsame
          simp only [outcome, hpp]
        | ok b =>
          rw [hr1, hr2] at hsame
          exact hsame.elim
      | ok a =>
        cases hr2 : rightOperand (parentAt parentOf t) (operandAt t)
            (initialQuery params enum2 orderField orderDirection) with
        | error p2 =>
          rw [hr1, hr2] at hsame
          exact hsame.elim
        | ok b =>
          rw [hr1, hr2] at hsame
          obtain ⟨hF, hP, hE, -, hL, hO, -, -⟩ := hsame
          simp only [← hE]
          cases a.Error with
          | some err => simp only [outcome]
          | none => simp only [outcome, Option.map, observable, hF, hP, hL, hO]

/-- The amended C18 at the scenario `id eq 1 and (cost ge 4 or ...)`: the run
that enumerates the test table in source order and the run that enumerates it
in reverse order have the same outcome. -/
theorem runs_agree_on_unambiguous_tables_witness :
    outcome (ParseScimParams noParent ⟨10, some pathExprFilter, 1⟩ pathExprMappings
        "tra.id" "asc")
      = outcome (ParseScimParams noParent ⟨10, some pathExprFilter, 1⟩
          (fun n => (pathExprMappings n).reverse) "tra.id" "asc") :=
  runs_agree_on_unambiguous_tables noParent ⟨10, some pathExprFilter, 1⟩ (pathExprMappings 0)
    pathExprMappings (fun n => (pathExprMappings n).reverse) "tra.id" "asc"
    (fun _ => List.Perm.refl _) (fun _ => List.reverse_perm _)
    (fun t ht => by
      cases ht
      intro e he
      simp only [compiledLeaves, pathExprFilter, visitedLeaves, leaf, List.cons_append,
        List.nil_append, List.mem_cons, List.mem_singleton, List.not_mem_nil, or_false] at he
      rcases he with h | h | h | h <;> subst h <;>
        refine ⟨?_, ?_⟩ <;>
        simp [pathExprMappings, entryMatches, parentAt, pathExprFilter, ptrEq])

/-! ## The default strategy of the mapping builder (C20) -/

/-- C20. For every source expression and document in which every referenced
path exists, the value of the default strategy is the concatenation, in order,
over the segments obtained by splitting the expression on `+`, of the segment
without its leading quote when it starts with a single quote and of the string
form of the document value at the dot-separated path of the segment
otherwise. -/
theorem default_strategy_concatenates (mb : MappingBuilder) (mapKey mapValue : String)
    (hall : ∀ seg ∈ Split mapValue "+", HasPrefix seg "'" = false →
      (mb.docJQ.Interface (Split seg ".")).isFound = true) :
    defaultStrategy.extractBodyValue mb mapKey mapValue
      = .ok (mb, .value (.string
          (String.join ((Split mapValue "+").map (segmentText mb.docJQ))))) := by
  have h := retrieveSegments_found mb.docJQ (Split mapValue "+") "" hall
  simp only [defaultStrategy.extractBodyValue, retrieveValueFromDoc, h]
  simp

/-- The scenarios of C20 on the document of the test:
`foo+subobj.sfoo` gives `11`, `foo+'subobj.sfoo` gives `1subobj.sfoo`,
`foo+' +subobj.sfoo` gives `1 1`. -/
theorem default_strategy_concatenates_witness :
    defaultStrategy.extractBodyValue (NewMappingBuilder [] retrieveDoc) "field1"
        "foo+subobj.sfoo"
      = .ok (NewMappingBuilder [] retrieveDoc, .value (.string "11")) ∧
    defaultStrategy.extractBodyValue (NewMappingBuilder [] retrieveDoc) "field1"
        "foo+'subobj.sfoo"
      = .ok (NewMappingBuilder [] retrieveDoc, .value (.string "1subobj.sfoo")) ∧
    defaultStrategy.extractBodyValue (NewMappingBuilder [] retrieveDoc) "field1"
        "foo+' +subobj.sfoo"
      = .ok (NewMappingBuilder [] retrieveDoc, .value (.string "1 1")) :=
  ⟨default_strategy_concatenates (NewMappingBuilder [] retrieveDoc) "field1"
      "foo+subobj.sfoo" (by decide),
   default_strategy_concatenates (NewMappingBuilder [] retrieveDoc) "field1"
      "foo+'subobj.sfoo" (by decide),
   default_strategy_concatenates (NewMappingBuilder [] retrieveDoc) "field1"
      "foo+' +subobj.sfoo" (by decide)⟩

/-! ## Missing document paths (C19) -/

/-- What the code keeps of C19. If any mapping entry handled by a strategy that
reads the document
(default, arr, templateVar, iso3166_1, onlynumbers, idMerchantType) names a
document path that does not exist, `BuildBody` never returns a body, partial or
not, and it returns an error and a nil body whenever the output field
`templateVars` is written by `templateVar` entries only (otherwise the type
assertion of that strategy can fault first); an entry under the `const`
strategy names no document path and returns its expression as the value,
whatever the document holds. -/
theorem missing_path_fails_build (GetISO3361CodeCountry : String → String)
    (mappings : List (String × String)) (doc : JsonQuery)
    (hmiss : ∃ kv ∈ mappings, entryReferencesMissingPath doc kv.1 kv.2 = true) :
    (∀ body, BuildBody GetISO3361CodeCountry (NewMappingBuilder mappings doc)
        ≠ .ok (.value body)) ∧
    (templateVarsReserved mappings →
      ∃ err, BuildBody GetISO3361CodeCountry (NewMappingBuilder mappings doc)
        = .ok (.failure err)) ∧
    (∀ (mb : MappingBuilder) (mapKey mapValue : String), getPrefix mapKey ":" = "const" →
      entryReferencesMissingPath mb.docJQ mapKey mapValue = false ∧
      extractBodyData GetISO3361CodeCountry mb mapKey mapValue
        = .ok ({ mb with mappingStrategy := some .constStrategy },
            .value (bodyKeyOf mapKey, .string mapValue))) := by
  refine ⟨?_, ?_, ?_⟩
  · intro body
    exact buildEntries_no_body mappings _ rfl hmiss body
  · intro hres
    refine buildEntries_fails mappings _ rfl ?_ hres hmiss
    intro v hv
    simp [NewMappingBuilder, lookupKey] at hv
  · intro mb mapKey mapValue hpre
    constructor
    · simp only [entryReferencesMissingPath, hpre]
      rfl
    · rw [extractBodyData_eq, hpre]
      rfl

/-- The scenario `test strategy default wrong key`: the entry
`field1 -> wrongkey` names a path the document does not have; `BuildBody`
returns the error of the lookup and no body. -/
theorem missing_path_fails_build_witness :
    BuildBody testCountryCode (NewMappingBuilder [("field1", "wrongkey")] merchantDoc)
        = .ok (.failure "path not found") ∧
      ∃ err, BuildBody testCountryCode (NewMappingBuilder [("field1", "wrongkey")] merchantDoc)
        = .ok (.failure err) :=
  ⟨rfl, (missing_path_fails_build testCountryCode [("field1", "wrongkey")] merchantDoc
    ⟨("field1", "wrongkey"), by simp, by decide⟩).2.1
    (by unfold templateVarsReserved; decide)⟩

/-- C19, evaluated at the mapping `templateVars -> country`,
`templateVar:a -> city`, `field1 -> wrongkey`, read in this order: the entry
`field1` is handled by the default strategy and names a path the document does
not have, yet `BuildBody` returns no error: the entry of the default strategy
stores a string under `templateVars`, the `templateVar` entry after it asserts
a map there, and the call ends in the fault of that assertion. -/
theorem template_vars_clash_panics :
    entryReferencesMissingPath merchantDoc "field1" "wrongkey" = true ∧
    BuildBody testCountryCode
        (NewMappingBuilder
          [("templateVars", "country"), ("templateVar:a", "city"), ("field1", "wrongkey")]
          merchantDoc)
      = .error "interface conversion: value is not map[string]string" :=
  ⟨by decide, rfl⟩

/-! ## Output fields of the mapping builder (C21) -/

/-- C21 (claim as stated, refuted): for the empty separator `getPrefix` does
not return the part before the first occurrence: on the source `ab` it returns
`a`, while the empty separator occurs at the very start of the source. -/
theorem empty_separator_prefix_is_first_character :
    getPrefix "ab" "" = "a" ∧ ¬ PrefixContract "ab" "" (getPrefix "ab" "") := by
  refine ⟨rfl, fun h => ?_⟩
  have hocc : Occurs "" "ab" := ⟨[], "ab".data, rfl⟩
  have := (h.1 hocc).2 [] "ab".data rfl
  revert this
  decide

/-- C21 (amended): the value of a mapping key is returned, and stored by
`BuildBody`, under the key itself when it holds no colon, under `templateVars`
when the text before the first colon is `templateVar`, and otherwise under the
text after the first colon; and for a non-empty separator `getPrefix` returns
the part of the source before the first occurrence of the separator when it
occurs, the empty string otherwise. -/
theorem output_field_of_mapping_key (GetISO3361CodeCountry : String → String) :
    (∀ (mb mb2 : MappingBuilder) (k v key : String) (val : BodyValue),
      extractBodyData GetISO3361CodeCountry mb k v = .ok (mb2, .value (key, val)) →
      key = outputField k) ∧
    (∀ (mb : MappingBuilder) (body : List (String × BodyValue)) (k v : String),
      (k, v) ∈ mb.mappings → BuildBody GetISO3361CodeCountry mb = .ok (.value body) →
      (lookupKey body (outputField k)).isSome = true) ∧
    (∀ source sep : String, sep ≠ "" → PrefixContract source sep (getPrefix source sep)) := by
  refine ⟨?_, ?_, fun source sep hsep => getPrefix_contract source sep hsep⟩
  · intro mb mb2 k v key val h
    rw [← bodyKeyOf_eq_outputField]
    exact (extractBodyData_value h).2.1
  · intro mb body k v hmem h
    exact (buildEntries_keys mb.mappings mb body h).2 (k, v) hmem

/-- The examples of C21: `iso3166_1:field1` and `const:field1` are returned
and stored under `field1`, and `getPrefix` on `prefix1:data` meets its
contract. -/
theorem output_field_of_mapping_key_witness :
    "field1" = outputField "iso3166_1:field1" ∧ "field1" = outputField "const:field1" ∧
    (lookupKey [("field1", BodyValue.string "KE"), ("city", BodyValue.string "Nairobi")]
      (outputField "iso3166_1:field1")).isSome = true ∧
    PrefixContract "prefix1:data" ":" (getPrefix "prefix1:data" ":") :=
  ⟨(output_field_of_mapping_key testCountryCode).1 (NewMappingBuilder [] merchantDoc) _
      "iso3166_1:field1" "country" "field1" (.string "KE") rfl,
   (output_field_of_mapping_key testCountryCode).1 (NewMappingBuilder [] merchantDoc) _
      "const:field1" "x" "field1" (.string "x") rfl,
   (output_field_of_mapping_key testCountryCode).2.1
      (NewMappingBuilder [("iso3166_1:field1", "country"), ("city", "city")] merchantDoc)
      _ "iso3166_1:field1" "country" (by decide) rfl,
   (output_field_of_mapping_key testCountryCode).2.2 "prefix1:data" ":" (by decide)⟩

/-! ## Keys of the parameter map (C22) -/

/-- C22: from the fresh context of `ParseScimParams`, whatever the filter tree
and whether the visitor ends with or without a recorded error, the keys of
`Parameters` are exactly `0..n-1` for `n = len(Parameters)`; and on every query
`ParseScimParams` returns, `GetParameterList` returns a slice (no index out of
range) of that length whose every position holds the value of a map entry. -/
theorem parameter_keys_are_range (parentOf : AttributePath → Expression → String)
    (params : ListRequestParams) (fieldMappings : Nat → List MappingEntry)
    (orderField orderDirection : String) :
    (∀ t sq1, visited parentOf t
        (initialQuery params fieldMappings orderField orderDirection) = .ok sq1 →
      KeysAreRange sq1.Parameters) ∧
    (∀ q, ParseScimParams parentOf params fieldMappings orderField orderDirection
        = .ok (some q, none) →
      KeysAreRange q.Parameters ∧
      ∃ l, GetParameterList q = .ok l ∧ l.length = q.Parameters.length ∧
        ∀ (i : Nat) (h : i < l.length), ((i : Int), l[i]) ∈ q.Parameters) := by
  have hfill : ∀ (q : SqlQuery) (vs : List GoValue), q.Parameters = indexedFrom 0 vs →
      KeysAreRange q.Parameters ∧
      ∃ l, GetParameterList q = .ok l ∧ l.length = q.Parameters.length ∧
        ∀ (i : Nat) (h : i < l.length), ((i : Int), l[i]) ∈ q.Parameters := by
    intro q vs hvs
    refine ⟨hvs ▸ KeysAreRange_indexedFrom vs, vs, GetParameterList_indexedFrom hvs, ?_, ?_⟩
    · rw [hvs, indexedFrom_length]
    · intro i h
      rw [hvs]
      have := getElem_indexedFrom_mem vs 0 i h
      simpa using this
  constructor
  · intro t sq1 h
    obtain ⟨vs, hvs⟩ := visited_keys (s := initialQuery params fieldMappings orderField
      orderDirection) ⟨[], rfl⟩ h
    rw [hvs]
    exact KeysAreRange_indexedFrom vs
  · intro q h
    cases hfilter : params.Filter with
    | none =>
      simp only [ParseScimParams, hfilter, Except.ok.injEq, Prod.mk.injEq, Option.some.injEq,
        and_true] at h
      subst h
      exact hfill _ [] rfl
    | some t =>
      obtain ⟨sq1, hrun, -, hq⟩ := ParseScimParams_ok hfilter h
      obtain ⟨vs, hvs⟩ := rightOperand_keys (s := initialQuery params fieldMappings orderField
        orderDirection) ⟨[], rfl⟩ hrun
      exact hfill q vs (by rw [hq]; exact hvs)

/-- The two parts of C22 on scenarios: the visitor stops on the unmapped right
leaf of `id eq 1 and nope eq 2` with the one bound value under key 0; the query
returned for `pathExprFilter` has the keys `0..3` and a parameter list without
gap. -/
theorem parameter_keys_are_range_witness :
    KeysAreRange unmappedRightContext.Parameters ∧
    (KeysAreRange pathExprQuery.Parameters ∧
      ∃ l, GetParameterList pathExprQuery = .ok l ∧ l.length = pathExprQuery.Parameters.length ∧
        ∀ (i : Nat) (h : i < l.length), ((i : Int), l[i]) ∈ pathExprQuery.Parameters) :=
  ⟨(parameter_keys_are_range noParent ⟨10, none, 1⟩ idMappings "tra.id" "asc").1
      unmappedRightFilter unmappedRightContext rfl,
   (parameter_keys_are_range noParent ⟨10, some pathExprFilter, 1⟩ pathExprMappings
      "tra.id" "asc").2 pathExprQuery rfl⟩

/-! ## Operands the visitor passes over (C23) -/

/-- C23: an operand of a logical node that is neither a logical node nor an
attribute leaf (a value path or a negation), and such a node nested in a value
path, is passed over. With the left operand passed over the node compiles to
its opening parenthesis, its right operand and its closing parenthesis, with
no connective; with the right operand passed over, to the parenthesis, the
left operand with its connective and the closing parenthesis; a value path
over such a node leaves the context as it is. Nothing is written, bound or
recorded for the operand, whatever attributes it names, and `ParseScimParams`
returns a query when the other operand compiles without error. The node is
entered without a recorded error, as every node the visitor reaches is. -/
theorem skipped_operand_contributes_nothing
    (parentOf : AttributePath → Expression → String) :
    (∀ (parent : String) (L R : Expression) (op : String) (sq : SqlQuery),
      isLogicalOrLeaf L = false → sq.Error = none →
      buildLogicalExpression parent (.LogicalExpression L op R) sq =
        (WriteString sq " ( " >>= fun s0 =>
          rightOperand parent R s0 >>= fun sR => WriteString sR " ) ")) ∧
    (∀ (parent : String) (L R : Expression) (op : String) (sq : SqlQuery),
      isLogicalOrLeaf R = false →
      buildLogicalExpression parent (.LogicalExpression L op R) sq =
        (WriteString sq " ( " >>= fun s0 =>
          leftOperand parent L op s0 >>= fun sL =>
            if sL.Error.isSome then .ok sL else WriteString sL " ) ")) ∧
    (∀ (path : AttributePath) (V : Expression) (sq : SqlQuery),
      isLogicalOrLeaf V = false → buildValuePathExpression parentOf path V sq = .ok sq) ∧
    (∀ (params : ListRequestParams) (fieldMappings : Nat → List MappingEntry)
        (orderField orderDirection : String) (root L R : Expression) (op : String),
      params.Filter = some root → operandAt root = .LogicalExpression L op R →
      (isLogicalOrLeaf L = false →
        ∀ sR, rightOperand (parentAt parentOf root) R
            { initialQuery params fieldMappings orderField orderDirection with
              Filter := some " ( " } = .ok sR →
          sR.Error = none →
          ∃ q, ParseScimParams parentOf params fieldMappings orderField orderDirection
              = .ok (some q, none) ∧
            q.Filter = sR.Filter.map (fun g => g ++ " ) ") ∧
            q.Parameters = sR.Parameters) ∧
      (isLogicalOrLeaf R = false →
        ∀ sL, leftOperand (parentAt parentOf root) L op
            { initialQuery params fieldMappings orderField orderDirection with
              Filter := some " ( " } = .ok sL →
          sL.Error = none →
          ∃ q, ParseScimParams parentOf params fieldMappings orderField orderDirection
              = .ok (some q, none) ∧
            q.Filter = sL.Filter.map (fun g => g ++ " ) ") ∧
            q.Parameters = sL.Parameters)) ∧
    (∀ (params : ListRequestParams) (fieldMappings : Nat → List MappingEntry)
        (orderField orderDirection : String) (path : AttributePath) (V : Expression),
      params.Filter = some (.ValuePath path V) → isLogicalOrLeaf V = false →
      ∃ q, ParseScimParams parentOf params fieldMappings orderField orderDirection
          = .ok (some q, none) ∧ q.Filter = some "" ∧ q.Parameters = []) := by
  have hopen : ∀ (params : ListRequestParams) (fieldMappings : Nat → List MappingEntry)
      (orderField orderDirection : String),
      WriteString (initialQuery params fieldMappings orderField orderDirection) " ( "
        = .ok { initialQuery params fieldMappings orderField orderDirection with
                Filter := some " ( " } := by
    intro params fieldMappings orderField orderDirection
    rfl
  refine ⟨?_, ?_, ?_, ?_, ?_⟩
  · intro parent L R op sq hL hE
    rw [buildLogicalExpression_bind]
    cases hw : WriteString sq " ( " with
    | error p => rfl
    | ok s0 =>
      obtain ⟨f, -, hs0⟩ := WriteString_ok hw
      have hE0 : s0.Error = none := by rw [hs0]; exact hE
      simp only [bind, Except.bind, leftOperand_skipped s0 hL, hE0, Option.isSome_none,
        Bool.false_eq_true, if_false]
  · intro parent L R op sq hR
    rw [buildLogicalExpression_bind]
    cases hw : WriteString sq " ( " with
    | error p => rfl
    | ok s0 =>
      simp only [bind, Except.bind]
      cases hl : leftOperand parent L op s0 with
      | error p => rfl
      | ok sL =>
        simp only [rightOperand_skipped sL hR]
  · intro path V sq hV
    cases V with
    | LogicalExpression a o b => simp [isLogicalOrLeaf] at hV
    | AttributeExpression e => simp [isLogicalOrLeaf] at hV
    | ValuePath p vf => rfl
    | NotExpression x => rfl
  · intro params fieldMappings orderField orderDirection root L R op hf hroot
    have hnot : ∀ x, root ≠ .NotExpression x := by
      intro x hx
      rw [hx] at hroot
      simp [operandAt] at hroot
    have hchain : rightOperand (parentAt parentOf root) (operandAt root)
        (initialQuery params fieldMappings orderField orderDirection)
        = (WriteString (initialQuery params fieldMappings orderField orderDirection) " ( "
            >>= fun s0 => leftOperand (parentAt parentOf root) L op s0 >>= fun sL =>
              if sL.Error.isSome then .ok sL
              else rightOperand (parentAt parentOf root) R sL >>= fun sR =>
                WriteString sR " ) ") := by
      rw [hroot]
      have hdef : rightOperand (parentAt parentOf root) (.LogicalExpression L op R)
          (initialQuery params fieldMappings orderField orderDirection)
          = buildLogicalExpression (parentAt parentOf root) (.LogicalExpression L op R)
            (initialQuery params fieldMappings orderField orderDirection) := rfl
      rw [hdef]
      exact buildLogicalExpression_bind (parentAt parentOf root) L R op _
    rw [hopen] at hchain
    constructor
    · intro hL sR hR hE
      have hsome := rightOperand_filter (s := { initialQuery params fieldMappings orderField
        orderDirection with Filter := some " ( " }) rfl hR
      obtain ⟨g, hg⟩ := Option.isSome_iff_exists.mp hsome
      have hrun : rightOperand (parentAt parentOf root) (operandAt root)
          (initialQuery params fieldMappings orderField orderDirection)
          = .ok { sR with Filter := some (g ++ " ) ") } := by
        rw [hchain]
        show (leftOperand (parentAt parentOf root) L op _ >>= _) = _
        rw [leftOperand_skipped _ hL]
        show (rightOperand (parentAt parentOf root) R _ >>= _) = _
        rw [hR]
        exact WriteString_some " ) " hg
      refine ⟨_, ParseScimParams_of_run hf hnot hrun hE, ?_, rfl⟩
      simp [hg]
    · intro hRs sL hLrun hE
      have hsome := leftOperand_filter (s := { initialQuery params fieldMappings orderField
        orderDirection with Filter := some " ( " }) rfl hLrun
      obtain ⟨g, hg⟩ := Option.isSome_iff_exists.mp hsome
      have hrun : rightOperand (parentAt parentOf root) (operandAt root)
          (initialQuery params fieldMappings orderField orderDirection)
          = .ok { sL with Filter := some (g ++ " ) ") } := by
        rw [hchain]
        show (leftOperand (parentAt parentOf root) L op _ >>= _) = _
        rw [hLrun]
        show (if sL.Error.isSome = true then _ else _) = _
        rw [if_neg (by rw [hE]; simp)]
        show (rightOperand (parentAt parentOf root) R sL >>= _) = _
        rw [rightOperand_skipped sL hRs]
        exact WriteString_some " ) " hg
      refine ⟨_, ParseScimParams_of_run hf hnot hrun hE, ?_, rfl⟩
      simp [hg]
  · intro params fieldMappings orderField orderDirection path V hf hV
    have hnot : ∀ x, Expression.ValuePath path V ≠ .NotExpression x := by
      intro x hx
      cases hx
    have hrun : rightOperand (parentAt parentOf (.ValuePath path V))
        (operandAt (.ValuePath path V))
        (initialQuery params fieldMappings orderField orderDirection)
        = .ok (initialQuery params fieldMappings orderField orderDirection) :=
      rightOperand_skipped _ hV
    exact ⟨_, ParseScimParams_of_run hf hnot hrun rfl, rfl, rfl⟩

/-- The scenarios of C23: with the value path as left operand the predicate
holds the right leaf alone and no connective; with the value path as right
operand it holds the left leaf and its connective. Neither records the
unmapped attributes of the value path. -/
theorem skipped_operand_contributes_nothing_witness :
    (∃ q, ParseScimParams noParent ⟨10, some valuePathLeftFilter, 1⟩ idMappings "tra.id" "asc"
        = .ok (some q, none) ∧
      q.Filter = some " (  (tra.id IS NOT NULL)   ) " ∧ q.Parameters = []) ∧
    (∃ q, ParseScimParams noParent ⟨10, some valuePathOperandFilter, 1⟩ idMappings "tra.id" "asc"
        = .ok (some q, none) ∧
      q.Filter = some " (  (tra.id IS NOT NULL) AND ) " ∧ q.Parameters = []) :=
  ⟨((skipped_operand_contributes_nothing noParent).2.2.2.1
      ⟨10, some valuePathLeftFilter, 1⟩ idMappings "tra.id" "asc" valuePathLeftFilter
      _ _ "and" rfl rfl).1 rfl valuePathLeftContext rfl rfl,
   ((skipped_operand_contributes_nothing noParent).2.2.2.1
      ⟨10, some valuePathOperandFilter, 1⟩ idMappings "tra.id" "asc" valuePathOperandFilter
      _ _ "and" rfl rfl).2 rfl valuePathOperandContext rfl rfl⟩
end GoLibUtils
